import Mathlib

/-!
# The Monkey lexer (`monkey/token`, `monkey/lexer`)

A shallow embedding of `token.go` and `lexer.go`, followed by theorems about
`Lexer.NextToken`.

Modelling conventions.

* A Go `string` is an immutable sequence of bytes: `GoString := List Nat`.
  A Go `byte` is a number in `0..255`; it is carried by `Nat`, nothing in the
  lexer does arithmetic on a byte, it only compares bytes.
* A Go `int` (`position`, `readPosition`) is carried by `Nat` in `Lexer`: both
  fields start at `0` and grow by `1` per `readChar`. `IntLexer` is the same
  code with the two fields as machine integers of `bits` bits, whose
  `readPosition += 1` wraps around. The two agree as long as `readPosition`
  stays in the range of `int` (`readChar_toInt`, `stateAfter_toInt`); what
  happens at the wrap-around is settled on `IntLexer`.
* A Go run-time panic (index or slice out of range) is `none`; every function
  that indexes or slices the input returns an `Option`.
* The three loops of the lexer have the shape
  `for cond(lexer.ch) { lexer.readChar() }`. They are run with an explicit
  iteration budget (`Lexer.loopBudget`), a loop that exhausts its budget is
  `none` as well. The theorems below show the budget is never exhausted.
-/

namespace Monkey

/-- A Go `string`: a sequence of bytes, each a number in `0..255`. -/
abbrev GoString := List Nat

/-- The bytes of an ASCII string literal written in the Go source. -/
def bytes (s : String) : GoString := s.toList.map Char.toNat

/-- Go's indexing `s[i]` of a string: the byte at `i`, a panic when `i` is out of range. -/
def byteAt (s : GoString) (i : Nat) : Option Nat := s[i]?

/-- Go's slicing `s[lo:hi]` of a string: a panic unless `lo <= hi <= len(s)`. -/
def slice (s : GoString) (lo hi : Nat) : Option GoString :=
  if lo ≤ hi ∧ hi ≤ s.length then some ((s.drop lo).take (hi - lo)) else none

/-- Go's conversion `string(ch)` of a `byte`: the UTF-8 encoding of the code
point whose number is `ch`. That is the single byte `ch` below `0x80`, and the
two bytes `0xC0 | ch>>6`, `0x80 | ch&0x3F` from `0x80` to `0xFF`. -/
def byteToString (ch : Nat) : GoString :=
  if ch < 128 then [ch] else [192 + ch / 64, 128 + ch % 64]

/-! ## `monkey/token` -/

namespace token

/-- The Go type `TokenType string`. -/
abbrev TokenType := String

def ILLEGAL : TokenType := "ILLEGAL"
def EOF : TokenType := "EOF"
def IDENT : TokenType := "IDENT"
def INT : TokenType := "INT"
def ASSIGN : TokenType := "="
def PLUS : TokenType := "+"
def COMMA : TokenType := ","
def SEMICOLON : TokenType := ";"
def LPAREN : TokenType := "("
def RPAREN : TokenType := ")"
def LBRACE : TokenType := "\x7b"
def RBRACE : TokenType := "\x7d"
def FUNCTION : TokenType := "FUNCTION"
def LET : TokenType := "LET"

/-- Modelled from the spec: `token.MINUS` is used by `lexer.go` and is not
declared in `token.go`. The spec gives minus a token kind of its own; the value
follows the declared operator kinds, which are spelled as their symbol. -/
def MINUS : TokenType := "-"

/-- Modelled from the spec: `token.BANG` is used by `lexer.go` and is not
declared in `token.go`; the kind of its own that the spec gives to bang. -/
def BANG : TokenType := "!"

/-- Modelled from the spec: `token.ASTERISK` is used by `lexer.go` and is not
declared in `token.go`; the kind of its own that the spec gives to asterisk. -/
def ASTERISK : TokenType := "*"

/-- Modelled from the spec: `token.SLASH` is used by `lexer.go` and is not
declared in `token.go`; the kind of its own that the spec gives to slash. -/
def SLASH : TokenType := "/"

/-- Modelled from the spec: `token.LT` is used by `lexer.go` and is not
declared in `token.go`; the kind of its own that the spec gives to less-than. -/
def LT : TokenType := "<"

/-- Modelled from the spec: `token.GT` is used by `lexer.go` and is not
declared in `token.go`; the kind of its own that the spec gives to greater-than. -/
def GT : TokenType := ">"

/-- Modelled from the spec: `token.EQ` is used by `lexer.go` and is not
declared in `token.go`; the kind of its own that the spec gives to equality. -/
def EQ : TokenType := "=="

/-- Modelled from the spec: `token.NOT_EQ` is used by `lexer.go` and is not
declared in `token.go`; the kind of its own that the spec gives to inequality. -/
def NOT_EQ : TokenType := "!="

/-- The Go struct `Token`: a `TokenType` (field `Type`) and a literal. -/
structure Token where
  Typ : TokenType
  Literal : GoString
  deriving DecidableEq, Repr

/-- The Go map `keywords`, as its list of entries (the keys are distinct). -/
def keywords : List (GoString × TokenType) :=
  [(bytes "fn", FUNCTION), (bytes "let", LET)]

/-- `LookupIdent`: the keyword kind of `ident` if it is a key of `keywords`, else `IDENT`. -/
def LookupIdent (ident : GoString) : TokenType :=
  match keywords.lookup ident with
  | some tok => tok
  | none => IDENT

end token

/-! ## `monkey/lexer` -/

/-- The Go struct `Lexer`, with the `int` fields `position` and `readPosition` as
natural numbers (see `IntLexer` for the struct on machine integers). -/
structure Lexer where
  input : GoString
  position : Nat
  readPosition : Nat
  ch : Nat
  deriving DecidableEq, Repr

/-- `isLetter`: `'a' <= ch && ch <= 'z' || 'A' <= ch && ch <= 'Z' || ch == '_'`. -/
def isLetter (ch : Nat) : Bool :=
  (97 ≤ ch && ch ≤ 122) || (65 ≤ ch && ch ≤ 90) || ch == 95

/-- `isDigit`: `'0' <= ch && ch <= '9'`. -/
def isDigit (ch : Nat) : Bool :=
  48 ≤ ch && ch ≤ 57

/-- The loop condition of `skipWhitespace`:
`ch == ' ' || ch == '\t' || ch == '\n' || ch == '\r'`. -/
def isWhitespace (ch : Nat) : Bool :=
  ch == 32 || ch == 9 || ch == 10 || ch == 13

/-- `newToken`: a token of the given type whose literal is `string(ch)`. -/
def newToken (tokenType : token.TokenType) (ch : Nat) : token.Token :=
  { Typ := tokenType, Literal := byteToString ch }

namespace Lexer

/-- `readChar`: load the byte at `readPosition` (or `0` past the end) into `ch`,
then move `position` to `readPosition` and `readPosition` one further. The
increment is that of the natural numbers: it is the `readPosition += 1` of the
code as long as the result is in the range of `int` (`readChar_toInt`);
`IntLexer.readChar` has the wrap-around. -/
def readChar (l : Lexer) : Option Lexer :=
  if l.readPosition ≥ l.input.length then
    some { l with ch := 0, position := l.readPosition, readPosition := l.readPosition + 1 }
  else
    match byteAt l.input l.readPosition with
    | some c =>
      some { l with ch := c, position := l.readPosition, readPosition := l.readPosition + 1 }
    | none => none

/-- `peekChar`: the byte at `readPosition` (or `0` past the end); the lexer is not changed. -/
def peekChar (l : Lexer) : Option Nat :=
  if l.readPosition ≥ l.input.length then some 0 else byteAt l.input l.readPosition

/-- The loop `for cond(lexer.ch) { lexer.readChar() }`, run for at most `budget`
evaluations of the condition. -/
def advanceWhile (cond : Nat → Bool) : Nat → Lexer → Option Lexer
  | 0, _ => none
  | budget + 1, l =>
    if cond l.ch then
      match l.readChar with
      | some l1 => advanceWhile cond budget l1
      | none => none
    else some l

/-- The number of condition evaluations granted to a loop started in state `l`:
one per byte still to be read, one for the sentinel and one for the exit test. -/
def loopBudget (l : Lexer) : Nat := l.input.length - l.readPosition + 2

/-- `skipWhitespace`: advance while the current byte is a space, tab, newline or carriage return. -/
def skipWhitespace (l : Lexer) : Option Lexer :=
  advanceWhile isWhitespace l.loopBudget l

/-- `readIdentifier`: advance while the current byte is a letter, and return
`input[position:lexer.position]` for the position the call started at. -/
def readIdentifier (l : Lexer) : Option (GoString × Lexer) :=
  let position := l.position
  match advanceWhile isLetter l.loopBudget l with
  | some l1 =>
    match slice l1.input position l1.position with
    | some s => some (s, l1)
    | none => none
  | none => none

/-- `readNumber`: advance while the current byte is a digit, and return
`input[position:lexer.position]` for the position the call started at. -/
def readNumber (l : Lexer) : Option (GoString × Lexer) :=
  let position := l.position
  match advanceWhile isDigit l.loopBudget l with
  | some l1 =>
    match slice l1.input position l1.position with
    | some s => some (s, l1)
    | none => none
  | none => none

/-- The tail of `NextToken` shared by every `switch` arm that does not return
early: `lexer.readChar(); return tok`. -/
def readCharAndReturn (tok : token.Token) (l : Lexer) : Option (token.Token × Lexer) :=
  match l.readChar with
  | some l1 => some (tok, l1)
  | none => none

/-- The arm of `NextToken` for `'='` and `'!'`: if `peekChar()` is `'='`, read one
more byte and build the literal `string(ch) + string(lexer.ch)` of kind `two`,
otherwise `newToken(one, lexer.ch)`. -/
def twoCharArm (two one : token.TokenType) (l : Lexer) : Option (token.Token × Lexer) :=
  match l.peekChar with
  | none => none
  | some p =>
    if p = 61 then
      let ch := l.ch
      match l.readChar with
      | some l1 =>
        readCharAndReturn { Typ := two, Literal := byteToString ch ++ byteToString l1.ch } l1
      | none => none
    else readCharAndReturn (newToken one l.ch) l

/-- The statement `switch lexer.ch` of `NextToken`, with what follows it: an arm
that returns early gives its token at once, every other arm ends in
`lexer.readChar(); return tok`. -/
def switchOnCh (l : Lexer) : Option (token.Token × Lexer) :=
  if l.ch = 61 then twoCharArm token.EQ token.ASSIGN l
  else if l.ch = 59 then readCharAndReturn (newToken token.SEMICOLON l.ch) l
  else if l.ch = 40 then readCharAndReturn (newToken token.LPAREN l.ch) l
  else if l.ch = 41 then readCharAndReturn (newToken token.RPAREN l.ch) l
  else if l.ch = 44 then readCharAndReturn (newToken token.COMMA l.ch) l
  else if l.ch = 43 then readCharAndReturn (newToken token.PLUS l.ch) l
  else if l.ch = 45 then readCharAndReturn (newToken token.MINUS l.ch) l
  else if l.ch = 33 then twoCharArm token.NOT_EQ token.BANG l
  else if l.ch = 47 then readCharAndReturn (newToken token.SLASH l.ch) l
  else if l.ch = 42 then readCharAndReturn (newToken token.ASTERISK l.ch) l
  else if l.ch = 60 then readCharAndReturn (newToken token.LT l.ch) l
  else if l.ch = 62 then readCharAndReturn (newToken token.GT l.ch) l
  else if l.ch = 123 then readCharAndReturn (newToken token.LBRACE l.ch) l
  else if l.ch = 125 then readCharAndReturn (newToken token.RBRACE l.ch) l
  else if l.ch = 0 then readCharAndReturn { Typ := token.EOF, Literal := [] } l
  else if isLetter l.ch then
    match l.readIdentifier with
    | some (lit, l1) => some ({ Typ := token.LookupIdent lit, Literal := lit }, l1)
    | none => none
  else if isDigit l.ch then
    match l.readNumber with
    | some (lit, l1) => some ({ Typ := token.INT, Literal := lit }, l1)
    | none => none
  else readCharAndReturn (newToken token.ILLEGAL l.ch) l

/-- `NextToken`: skip whitespace, then classify the current byte by the `switch`. -/
def NextToken (l : Lexer) : Option (token.Token × Lexer) :=
  match l.skipWhitespace with
  | some l1 => l1.switchOnCh
  | none => none

end Lexer

/-- `New`: a lexer on `input` with all cursor fields zero, after one `readChar`. -/
def New (input : GoString) : Option Lexer :=
  Lexer.readChar { input := input, position := 0, readPosition := 0, ch := 0 }

/-! ## Driving the lexer -/

/-- The lexer state after `New(input)` and `n` calls of `NextToken`. -/
def stateAfter (input : GoString) : Nat → Option Lexer
  | 0 => New input
  | n + 1 =>
    match stateAfter input n with
    | some l =>
      match l.NextToken with
      | some (_, l1) => some l1
      | none => none
    | none => none

/-- The token returned by call number `k` of `NextToken` on `New(input)`; calls
are numbered from `1`, there is no call `0`. -/
def tokenOfCall (input : GoString) : Nat → Option token.Token
  | 0 => none
  | k + 1 =>
    match stateAfter input k with
    | some l =>
      match l.NextToken with
      | some (tok, _) => some tok
      | none => none
    | none => none

/-- The tokens returned by the first `n` calls of `NextToken` on `New(input)`, in order. -/
def firstTokens (input : GoString) (n : Nat) : Option (List token.Token) :=
  (List.range n).mapM fun k => tokenOfCall input (k + 1)


/-- The loop of `repl.Start` on one line,
`for tok := lexer.NextToken(); tok.Type != token.EOF; tok = lexer.NextToken()`,
run for at most `budget` calls: the tokens returned from state `l` on, up to and
including the first one of kind `EOF` (`Start` prints all of them but the last). -/
def Lexer.tokensUntilEOF : Nat → Lexer → Option (List token.Token)
  | 0, _ => none
  | budget + 1, l =>
    match l.NextToken with
    | some (tok, l1) =>
      if tok.Typ = token.EOF then some [tok]
      else
        match tokensUntilEOF budget l1 with
        | some toks => some (tok :: toks)
        | none => none
    | none => none

/-- The token sequence of `input`: the tokens returned by the calls of `NextToken`
on `New(input)`, up to and including the first `EOF`. One call per input byte
and one more for `EOF` are granted. -/
def tokenize (input : GoString) : Option (List token.Token) :=
  match New input with
  | some l => l.tokensUntilEOF (input.length + 1)
  | none => none

/-! ## The lexer on machine integers

`position` and `readPosition` are Go `int`s. The definitions of this section are
the same code as above with the two fields as integers of `bits` bits (`64` or
`32`, by the build): `readPosition += 1` wraps around in two's complement, and an
index or a slice bound that is negative is out of range. -/

/-- The value that Go stores for the `int` result `x` on a build whose `int` has
`bits` bits: `x` wrapped around into `-2^(bits-1) .. 2^(bits-1) - 1`. -/
def wrapInt (bits : Nat) (x : Int) : Int :=
  (x + 2 ^ (bits - 1)) % 2 ^ bits - 2 ^ (bits - 1)

/-- Go's indexing `s[i]` with an `int` index: a panic unless `0 <= i < len(s)`. -/
def byteAtInt (s : GoString) (i : Int) : Option Nat :=
  if 0 ≤ i ∧ i < s.length then s[i.toNat]? else none

/-- Go's slicing `s[lo:hi]` with `int` bounds: a panic unless `0 <= lo <= hi <= len(s)`. -/
def sliceInt (s : GoString) (lo hi : Int) : Option GoString :=
  if 0 ≤ lo ∧ lo ≤ hi ∧ hi ≤ s.length then some ((s.drop lo.toNat).take (hi.toNat - lo.toNat))
  else none

/-- The Go struct `Lexer`, with `position` and `readPosition` as machine integers. -/
structure IntLexer where
  input : GoString
  position : Int
  readPosition : Int
  ch : Nat
  deriving DecidableEq, Repr

namespace IntLexer

/-- `readChar` on machine integers: the test `readPosition >= len(input)`, the
index `input[readPosition]` and the wrapping `readPosition += 1`. -/
def readChar (bits : Nat) (l : IntLexer) : Option IntLexer :=
  if l.readPosition ≥ l.input.length then
    some { l with ch := 0, position := l.readPosition,
                  readPosition := wrapInt bits (l.readPosition + 1) }
  else
    match byteAtInt l.input l.readPosition with
    | some c =>
      some { l with ch := c, position := l.readPosition,
                    readPosition := wrapInt bits (l.readPosition + 1) }
    | none => none

/-- `peekChar` on machine integers. -/
def peekChar (l : IntLexer) : Option Nat :=
  if l.readPosition ≥ l.input.length then some 0 else byteAtInt l.input l.readPosition

/-- The loop `for cond(lexer.ch) { lexer.readChar() }` on machine integers, run
for at most `budget` evaluations of the condition. -/
def advanceWhile (bits : Nat) (cond : Nat → Bool) : Nat → IntLexer → Option IntLexer
  | 0, _ => none
  | budget + 1, l =>
    if cond l.ch then
      match l.readChar bits with
      | some l1 => advanceWhile bits cond budget l1
      | none => none
    else some l

/-- The number of condition evaluations granted to a loop started in state `l`. -/
def loopBudget (l : IntLexer) : Nat := (l.input.length - l.readPosition).toNat + 2

/-- `skipWhitespace` on machine integers. -/
def skipWhitespace (bits : Nat) (l : IntLexer) : Option IntLexer :=
  advanceWhile bits isWhitespace l.loopBudget l

/-- `readIdentifier` on machine integers. -/
def readIdentifier (bits : Nat) (l : IntLexer) : Option (GoString × IntLexer) :=
  let position := l.position
  match advanceWhile bits isLetter l.loopBudget l with
  | some l1 =>
    match sliceInt l1.input position l1.position with
    | some s => some (s, l1)
    | none => none
  | none => none

/-- `readNumber` on machine integers. -/
def readNumber (bits : Nat) (l : IntLexer) : Option (GoString × IntLexer) :=
  let position := l.position
  match advanceWhile bits isDigit l.loopBudget l with
  | some l1 =>
    match sliceInt l1.input position l1.position with
    | some s => some (s, l1)
    | none => none
  | none => none

/-- The tail `lexer.readChar(); return tok` of `NextToken` on machine integers. -/
def readCharAndReturn (bits : Nat) (tok : token.Token) (l : IntLexer) :
    Option (token.Token × IntLexer) :=
  match l.readChar bits with
  | some l1 => some (tok, l1)
  | none => none

/-- The arm of `NextToken` for `'='` and `'!'` on machine integers. -/
def twoCharArm (bits : Nat) (two one : token.TokenType) (l : IntLexer) :
    Option (token.Token × IntLexer) :=
  match l.peekChar with
  | none => none
  | some p =>
    if p = 61 then
      let ch := l.ch
      match l.readChar bits with
      | some l1 =>
        readCharAndReturn bits
          { Typ := two, Literal := byteToString ch ++ byteToString l1.ch } l1
      | none => none
    else readCharAndReturn bits (newToken one l.ch) l

/-- The statement `switch lexer.ch` of `NextToken` on machine integers. -/
def switchOnCh (bits : Nat) (l : IntLexer) : Option (token.Token × IntLexer) :=
  if l.ch = 61 then twoCharArm bits token.EQ token.ASSIGN l
  else if l.ch = 59 then readCharAndReturn bits (newToken token.SEMICOLON l.ch) l
  else if l.ch = 40 then readCharAndReturn bits (newToken token.LPAREN l.ch) l
  else if l.ch = 41 then readCharAndReturn bits (newToken token.RPAREN l.ch) l
  else if l.ch = 44 then readCharAndReturn bits (newToken token.COMMA l.ch) l
  else if l.ch = 43 then readCharAndReturn bits (newToken token.PLUS l.ch) l
  else if l.ch = 45 then readCharAndReturn bits (newToken token.MINUS l.ch) l
  else if l.ch = 33 then twoCharArm bits token.NOT_EQ token.BANG l
  else if l.ch = 47 then readCharAndReturn bits (newToken token.SLASH l.ch) l
  else if l.ch = 42 then readCharAndReturn bits (newToken token.ASTERISK l.ch) l
  else if l.ch = 60 then readCharAndReturn bits (newToken token.LT l.ch) l
  else if l.ch = 62 then readCharAndReturn bits (newToken token.GT l.ch) l
  else if l.ch = 123 then readCharAndReturn bits (newToken token.LBRACE l.ch) l
  else if l.ch = 125 then readCharAndReturn bits (newToken token.RBRACE l.ch) l
  else if l.ch = 0 then readCharAndReturn bits { Typ := token.EOF, Literal := [] } l
  else if isLetter l.ch then
    match l.readIdentifier bits with
    | some (lit, l1) => some ({ Typ := token.LookupIdent lit, Literal := lit }, l1)
    | none => none
  else if isDigit l.ch then
    match l.readNumber bits with
    | some (lit, l1) => some ({ Typ := token.INT, Literal := lit }, l1)
    | none => none
  else readCharAndReturn bits (newToken token.ILLEGAL l.ch) l

/-- `NextToken` on machine integers. -/
def NextToken (bits : Nat) (l : IntLexer) : Option (token.Token × IntLexer) :=
  match l.skipWhitespace bits with
  | some l1 => l1.switchOnCh bits
  | none => none

/-- `New` on machine integers. -/
def New (bits : Nat) (input : GoString) : Option IntLexer :=
  readChar bits { input := input, position := 0, readPosition := 0, ch := 0 }

/-- The state after `New(input)` and `n` calls of `NextToken`, on machine integers. -/
def stateAfter (bits : Nat) (input : GoString) : Nat → Option IntLexer
  | 0 => New bits input
  | n + 1 =>
    match stateAfter bits input n with
    | some l =>
      match l.NextToken bits with
      | some (_, l1) => some l1
      | none => none
    | none => none

/-- The token returned by call number `k` of `NextToken` on `New(input)`, on
machine integers; calls are numbered from `1`, and `none` is a call that does
not return (a panic, or a call after one). -/
def tokenOfCall (bits : Nat) (input : GoString) : Nat → Option token.Token
  | 0 => none
  | k + 1 =>
    match stateAfter bits input k with
    | some l =>
      match l.NextToken bits with
      | some (tok, _) => some tok
      | none => none
    | none => none

end IntLexer

/-- The state of the lexer on machine integers that has the fields of `l`. -/
def Lexer.toInt (l : Lexer) : IntLexer :=
  { input := l.input, position := l.position, readPosition := l.readPosition, ch := l.ch }

/-! ## The states the lexer moves through -/

/-- The lexer state whose cursor is on index `pos` of `input`: `readPosition` is
one further and `ch` is the byte at `pos`, or the sentinel `0` past the end. -/
def cursorAt (input : GoString) (pos : Nat) : Lexer :=
  { input := input, position := pos, readPosition := pos + 1, ch := input.getD pos 0 }

/-- The length of the longest run of bytes satisfying `cond` that starts at index `pos`. -/
def runLen (cond : Nat → Bool) (input : GoString) (pos : Nat) : Nat :=
  ((input.drop pos).takeWhile cond).length

/-- The bytes that have a `case` of their own in the `switch` of `NextToken`,
in the order of the source: `= ; ( ) , + - ! / * < >` and the two braces, then the sentinel `0`. -/
def caseBytes : List Nat := [61, 59, 40, 41, 44, 43, 45, 33, 47, 42, 60, 62, 123, 125, 0]

/-- The twelve bytes that `NextToken` always turns into a one-byte token, each
with the token kind of its `case`: `; ( )`, the two braces, `, + - / * < >`. -/
def singleCharKinds : List (Nat × token.TokenType) :=
  [(59, token.SEMICOLON), (40, token.LPAREN), (41, token.RPAREN), (123, token.LBRACE),
   (125, token.RBRACE), (44, token.COMMA), (43, token.PLUS), (45, token.MINUS),
   (47, token.SLASH), (42, token.ASTERISK), (60, token.LT), (62, token.GT)]

theorem readChar_cursorAt (input : GoString) (pos : Nat) :
    (cursorAt input pos).readChar = some (cursorAt input (pos + 1)) := by
  unfold Lexer.readChar cursorAt byteAt
  by_cases h : pos + 1 < input.length
  · have h1 : ¬ (pos + 1 ≥ input.length) := by omega
    simp [h1, List.getD_eq_getElem?_getD, List.getElem?_eq_getElem h]
  · have h1 : pos + 1 ≥ input.length := by omega
    simp [h1, List.getD_eq_getElem?_getD, List.getElem?_eq_none h1]

theorem New_eq (input : GoString) : New input = some (cursorAt input 0) := by
  unfold New Lexer.readChar cursorAt byteAt
  by_cases h : 0 < input.length
  · have h1 : ¬ (0 ≥ input.length) := by omega
    simp [h1, List.getD_eq_getElem?_getD, List.getElem?_eq_getElem h]
  · have h1 : 0 ≥ input.length := by omega
    simp [h1, List.getD_eq_getElem?_getD, List.getElem?_eq_none h1]

theorem peekChar_cursorAt (input : GoString) (pos : Nat) :
    (cursorAt input pos).peekChar = some (input.getD (pos + 1) 0) := by
  unfold Lexer.peekChar cursorAt byteAt
  by_cases h : pos + 1 < input.length
  · have h1 : ¬ (pos + 1 ≥ input.length) := by omega
    simp [h1, List.getD_eq_getElem?_getD, List.getElem?_eq_getElem h]
  · have h1 : pos + 1 ≥ input.length := by omega
    simp [h1, List.getD_eq_getElem?_getD, List.getElem?_eq_none h1]

theorem drop_eq_getD_cons (input : GoString) (pos : Nat) (h : pos < input.length) :
    input.drop pos = input.getD pos 0 :: input.drop (pos + 1) := by
  rw [List.getD_eq_getElem?_getD, List.getElem?_eq_getElem h]
  simp

theorem runLen_of_cond (cond : Nat → Bool) (input : GoString) (pos : Nat)
    (h0 : cond 0 = false) (hc : cond (input.getD pos 0) = true) :
    pos < input.length ∧ runLen cond input pos = runLen cond input (pos + 1) + 1 := by
  have hlt : pos < input.length := by
    by_contra hge
    have hge1 : input.length ≤ pos := by omega
    rw [List.getD_eq_getElem?_getD, List.getElem?_eq_none hge1] at hc
    simp [h0] at hc
  refine ⟨hlt, ?_⟩
  unfold runLen
  rw [drop_eq_getD_cons input pos hlt, List.takeWhile_cons_of_pos hc]
  simp

theorem runLen_of_not_cond (cond : Nat → Bool) (input : GoString) (pos : Nat)
    (hc : cond (input.getD pos 0) = false) : runLen cond input pos = 0 := by
  unfold runLen
  by_cases hlt : pos < input.length
  · rw [drop_eq_getD_cons input pos hlt, List.takeWhile_cons_of_neg (by rw [hc]; simp)]
    simp
  · rw [List.drop_of_length_le (by omega)]
    simp

theorem runLen_le (cond : Nat → Bool) (input : GoString) (pos : Nat) :
    runLen cond input pos ≤ input.length - pos := by
  unfold runLen
  calc ((input.drop pos).takeWhile cond).length
      ≤ (input.drop pos).length := (List.takeWhile_sublist cond).length_le
    _ = input.length - pos := List.length_drop pos input

theorem advanceWhile_cursorAt (cond : Nat → Bool) (h0 : cond 0 = false) (input : GoString) :
    ∀ (budget pos : Nat), runLen cond input pos < budget →
      Lexer.advanceWhile cond budget (cursorAt input pos)
        = some (cursorAt input (pos + runLen cond input pos)) := by
  intro budget
  induction budget with
  | zero => intro pos h; omega
  | succ b ih =>
    intro pos h
    unfold Lexer.advanceWhile
    by_cases hc : cond (input.getD pos 0) = true
    · obtain ⟨_, hrun⟩ := runLen_of_cond cond input pos h0 hc
      have hc1 : cond (cursorAt input pos).ch = true := hc
      simp only [hc1, if_true, readChar_cursorAt]
      rw [ih (pos + 1) (by omega), hrun]
      congr 2
      omega
    · have hc2 : cond (input.getD pos 0) = false := by simpa using hc
      have hc1 : cond (cursorAt input pos).ch = false := hc2
      simp [hc1, runLen_of_not_cond cond input pos hc2]

theorem loopBudget_enough (cond : Nat → Bool) (input : GoString) (pos : Nat) :
    runLen cond input pos < (cursorAt input pos).loopBudget := by
  have h := runLen_le cond input pos
  unfold Lexer.loopBudget cursorAt
  simp only
  omega

theorem slice_run (cond : Nat → Bool) (input : GoString) (pos : Nat)
    (hlt : pos ≤ input.length) :
    slice input pos (pos + runLen cond input pos) = some ((input.drop pos).takeWhile cond) := by
  have h := runLen_le cond input pos
  unfold slice
  have hc : pos ≤ pos + runLen cond input pos ∧ pos + runLen cond input pos ≤ input.length :=
    ⟨by omega, by omega⟩
  simp only [hc, and_self, if_true, Option.some.injEq, Nat.add_sub_cancel_left]
  unfold runLen
  have hp : ((input.drop pos).takeWhile cond) <+: input.drop pos := List.takeWhile_prefix cond
  exact (List.prefix_iff_eq_take.mp hp).symm

theorem isWhitespace_zero : isWhitespace 0 = false := by decide

theorem isLetter_zero : isLetter 0 = false := by decide

theorem isDigit_zero : isDigit 0 = false := by decide

theorem run_stops (cond : Nat → Bool) (h0 : cond 0 = false) (input : GoString) :
    ∀ (k pos : Nat), input.length - pos ≤ k →
      cond (input.getD (pos + runLen cond input pos) 0) = false := by
  intro k
  induction k with
  | zero =>
    intro pos h
    have hge : input.length ≤ pos + runLen cond input pos := by omega
    rw [List.getD_eq_getElem?_getD, List.getElem?_eq_none hge]
    simpa using h0
  | succ k ih =>
    intro pos h
    by_cases hc : cond (input.getD pos 0) = true
    · obtain ⟨hlt, hrun⟩ := runLen_of_cond cond input pos h0 hc
      have e : pos + runLen cond input pos = (pos + 1) + runLen cond input (pos + 1) := by omega
      rw [e]
      exact ih (pos + 1) (by omega)
    · have hc2 : cond (input.getD pos 0) = false := by simpa using hc
      rw [runLen_of_not_cond cond input pos hc2]
      simpa using hc2

theorem run_split (cond : Nat → Bool) (input : GoString) (pos : Nat) :
    input.drop pos
      = (input.drop pos).takeWhile cond ++ input.drop (pos + runLen cond input pos) := by
  have hp : ((input.drop pos).takeWhile cond) <+: input.drop pos := List.takeWhile_prefix cond
  have ht := List.prefix_iff_eq_take.mp hp
  have hs := (List.take_append_drop (runLen cond input pos) (input.drop pos)).symm
  unfold runLen at hs ⊢
  rw [← ht, List.drop_drop] at hs
  rw [Nat.add_comm pos]
  first
    | exact hs
    | (rw [Nat.add_comm] at hs; exact hs)

theorem skipWhitespace_cursorAt (input : GoString) (pos : Nat) :
    (cursorAt input pos).skipWhitespace
      = some (cursorAt input (pos + runLen isWhitespace input pos)) :=
  advanceWhile_cursorAt isWhitespace isWhitespace_zero input _ pos
    (loopBudget_enough isWhitespace input pos)

theorem readCharAndReturn_cursorAt (tok : token.Token) (input : GoString) (pos : Nat) :
    Lexer.readCharAndReturn tok (cursorAt input pos) = some (tok, cursorAt input (pos + 1)) := by
  unfold Lexer.readCharAndReturn
  rw [readChar_cursorAt]

theorem twoCharArm_cursorAt (two one : token.TokenType) (input : GoString) (pos : Nat) :
    Lexer.twoCharArm two one (cursorAt input pos)
      = if input.getD (pos + 1) 0 = 61 then
          some ({ Typ := two, Literal := byteToString (input.getD pos 0) ++ byteToString 61 },
            cursorAt input (pos + 2))
        else some (newToken one (input.getD pos 0), cursorAt input (pos + 1)) := by
  unfold Lexer.twoCharArm
  rw [peekChar_cursorAt]
  by_cases h : input.getD (pos + 1) 0 = 61
  · simp only [h, if_true, readChar_cursorAt, readCharAndReturn_cursorAt]
    have e : (cursorAt input (pos + 1)).ch = 61 := h
    have e2 : (cursorAt input pos).ch = input.getD pos 0 := rfl
    rw [e, e2]
  · simp only [h, if_false, readCharAndReturn_cursorAt]
    rfl

theorem readIdentifier_cursorAt (input : GoString) (pos : Nat) (hlt : pos ≤ input.length) :
    (cursorAt input pos).readIdentifier
      = some ((input.drop pos).takeWhile isLetter,
          cursorAt input (pos + runLen isLetter input pos)) := by
  unfold Lexer.readIdentifier
  simp only [advanceWhile_cursorAt isLetter isLetter_zero input _ pos
    (loopBudget_enough isLetter input pos)]
  have e : (cursorAt input (pos + runLen isLetter input pos)).input = input := rfl
  have e1 : (cursorAt input (pos + runLen isLetter input pos)).position
      = pos + runLen isLetter input pos := rfl
  have e2 : (cursorAt input pos).position = pos := rfl
  simp only [e, e1, e2, slice_run isLetter input pos hlt]

theorem readNumber_cursorAt (input : GoString) (pos : Nat) (hlt : pos ≤ input.length) :
    (cursorAt input pos).readNumber
      = some ((input.drop pos).takeWhile isDigit,
          cursorAt input (pos + runLen isDigit input pos)) := by
  unfold Lexer.readNumber
  simp only [advanceWhile_cursorAt isDigit isDigit_zero input _ pos
    (loopBudget_enough isDigit input pos)]
  have e : (cursorAt input (pos + runLen isDigit input pos)).input = input := rfl
  have e1 : (cursorAt input (pos + runLen isDigit input pos)).position
      = pos + runLen isDigit input pos := rfl
  have e2 : (cursorAt input pos).position = pos := rfl
  simp only [e, e1, e2, slice_run isDigit input pos hlt]

theorem cursorAt_ch (input : GoString) (pos : Nat) :
    (cursorAt input pos).ch = input.getD pos 0 := rfl

theorem cursorAt_position (input : GoString) (pos : Nat) :
    (cursorAt input pos).position = pos := rfl

theorem cursorAt_input (input : GoString) (pos : Nat) :
    (cursorAt input pos).input = input := rfl

theorem cursorAt_readPosition (input : GoString) (pos : Nat) :
    (cursorAt input pos).readPosition = pos + 1 := rfl

theorem cursorAt_inj (input : GoString) (p q : Nat) (h : cursorAt input p = cursorAt input q) :
    p = q := by
  have := congrArg Lexer.position h
  simpa [cursorAt_position] using this

theorem NextToken_cursorAt (input : GoString) (pos : Nat) :
    (cursorAt input pos).NextToken
      = (cursorAt input (pos + runLen isWhitespace input pos)).switchOnCh := by
  unfold Lexer.NextToken
  rw [skipWhitespace_cursorAt]

theorem isLetter_not_case (c : Nat) (h : isLetter c = true) : c ∉ caseBytes := by
  simp only [isLetter, Bool.or_eq_true, Bool.and_eq_true, decide_eq_true_eq, beq_iff_eq] at h
  simp only [caseBytes, List.mem_cons, List.mem_singleton, List.not_mem_nil, or_false, not_or]
  omega

theorem isDigit_not_case (c : Nat) (h : isDigit c = true) : c ∉ caseBytes := by
  simp only [isDigit, Bool.and_eq_true, decide_eq_true_eq] at h
  simp only [caseBytes, List.mem_cons, List.mem_singleton, List.not_mem_nil, or_false, not_or]
  omega

theorem isDigit_not_letter (c : Nat) (h : isDigit c = true) : isLetter c = false := by
  simp only [isDigit, Bool.and_eq_true, decide_eq_true_eq] at h
  cases hl : isLetter c with
  | false => rfl
  | true =>
    simp only [isLetter, Bool.or_eq_true, Bool.and_eq_true, decide_eq_true_eq, beq_iff_eq] at hl
    omega

theorem switchOnCh_default (l : Lexer) (h : l.ch ∉ caseBytes) :
    l.switchOnCh =
      if isLetter l.ch then
        match l.readIdentifier with
        | some (lit, l1) => some ({ Typ := token.LookupIdent lit, Literal := lit }, l1)
        | none => none
      else if isDigit l.ch then
        match l.readNumber with
        | some (lit, l1) => some ({ Typ := token.INT, Literal := lit }, l1)
        | none => none
      else Lexer.readCharAndReturn (newToken token.ILLEGAL l.ch) l := by
  simp only [caseBytes, List.mem_cons, List.mem_singleton, List.not_mem_nil, or_false,
    not_or] at h
  unfold Lexer.switchOnCh
  simp only [h, if_false]

theorem switchOnCh_letter (input : GoString) (pos : Nat)
    (h : isLetter (input.getD pos 0) = true) :
    (cursorAt input pos).switchOnCh
      = some ({ Typ := token.LookupIdent ((input.drop pos).takeWhile isLetter),
                Literal := (input.drop pos).takeWhile isLetter },
          cursorAt input (pos + runLen isLetter input pos)) := by
  have hlt := (runLen_of_cond isLetter input pos isLetter_zero h).1
  rw [switchOnCh_default _ (isLetter_not_case _ h)]
  simp only [cursorAt_ch, h, if_true, readIdentifier_cursorAt input pos (Nat.le_of_lt hlt)]

theorem switchOnCh_digit (input : GoString) (pos : Nat)
    (h : isDigit (input.getD pos 0) = true) :
    (cursorAt input pos).switchOnCh
      = some ({ Typ := token.INT, Literal := (input.drop pos).takeWhile isDigit },
          cursorAt input (pos + runLen isDigit input pos)) := by
  have hlt := (runLen_of_cond isDigit input pos isDigit_zero h).1
  rw [switchOnCh_default _ (isDigit_not_case _ h)]
  simp only [cursorAt_ch, h, isDigit_not_letter _ h, if_true, if_false, Bool.false_eq_true,
    readNumber_cursorAt input pos (Nat.le_of_lt hlt)]

theorem switchOnCh_illegal (input : GoString) (pos : Nat)
    (hc : input.getD pos 0 ∉ caseBytes) (hl : isLetter (input.getD pos 0) = false)
    (hd : isDigit (input.getD pos 0) = false) :
    (cursorAt input pos).switchOnCh
      = some (newToken token.ILLEGAL (input.getD pos 0), cursorAt input (pos + 1)) := by
  rw [switchOnCh_default _ hc]
  simp only [cursorAt_ch, hl, hd, if_false, Bool.false_eq_true, readCharAndReturn_cursorAt]

theorem switchOnCh_eof (input : GoString) (pos : Nat) (h : input.getD pos 0 = 0) :
    (cursorAt input pos).switchOnCh
      = some ({ Typ := token.EOF, Literal := [] }, cursorAt input (pos + 1)) := by
  unfold Lexer.switchOnCh
  simp only [cursorAt_ch, h, readCharAndReturn_cursorAt]
  simp

theorem switchOnCh_single (input : GoString) (pos c : Nat) (kind : token.TokenType)
    (hk : (c, kind) ∈ singleCharKinds) (hc : input.getD pos 0 = c) :
    (cursorAt input pos).switchOnCh
      = some ({ Typ := kind, Literal := [c] }, cursorAt input (pos + 1)) := by
  simp only [singleCharKinds, List.mem_cons, List.mem_singleton, List.not_mem_nil, or_false,
    Prod.mk.injEq] at hk
  unfold Lexer.switchOnCh
  rcases hk with h | h | h | h | h | h | h | h | h | h | h | h <;>
    (obtain ⟨h1, h2⟩ := h
     subst h1 h2
     simp only [cursorAt_ch, hc, readCharAndReturn_cursorAt]
     rfl)

theorem switchOnCh_assign (input : GoString) (pos : Nat) (hc : input.getD pos 0 = 61) :
    (cursorAt input pos).switchOnCh
      = if input.getD (pos + 1) 0 = 61 then
          some ({ Typ := token.EQ, Literal := [61, 61] }, cursorAt input (pos + 2))
        else some ({ Typ := token.ASSIGN, Literal := [61] }, cursorAt input (pos + 1)) := by
  unfold Lexer.switchOnCh
  simp only [cursorAt_ch, hc, if_true, twoCharArm_cursorAt]
  rfl

theorem switchOnCh_bang (input : GoString) (pos : Nat) (hc : input.getD pos 0 = 33) :
    (cursorAt input pos).switchOnCh
      = if input.getD (pos + 1) 0 = 61 then
          some ({ Typ := token.NOT_EQ, Literal := [33, 61] }, cursorAt input (pos + 2))
        else some ({ Typ := token.BANG, Literal := [33] }, cursorAt input (pos + 1)) := by
  unfold Lexer.switchOnCh
  simp only [cursorAt_ch, hc, twoCharArm_cursorAt]
  rfl

theorem caseBytes_cases (c : Nat) (h : c ∈ caseBytes) :
    c = 61 ∨ c = 33 ∨ c = 0 ∨ ∃ kind, (c, kind) ∈ singleCharKinds := by
  simp only [caseBytes, List.mem_cons, List.mem_singleton, List.not_mem_nil, or_false] at h
  rcases h with h | h | h | h | h | h | h | h | h | h | h | h | h | h | h <;> subst h
  · exact Or.inl rfl
  · exact Or.inr (Or.inr (Or.inr ⟨token.SEMICOLON, by decide⟩))
  · exact Or.inr (Or.inr (Or.inr ⟨token.LPAREN, by decide⟩))
  · exact Or.inr (Or.inr (Or.inr ⟨token.RPAREN, by decide⟩))
  · exact Or.inr (Or.inr (Or.inr ⟨token.COMMA, by decide⟩))
  · exact Or.inr (Or.inr (Or.inr ⟨token.PLUS, by decide⟩))
  · exact Or.inr (Or.inr (Or.inr ⟨token.MINUS, by decide⟩))
  · exact Or.inr (Or.inl rfl)
  · exact Or.inr (Or.inr (Or.inr ⟨token.SLASH, by decide⟩))
  · exact Or.inr (Or.inr (Or.inr ⟨token.ASTERISK, by decide⟩))
  · exact Or.inr (Or.inr (Or.inr ⟨token.LT, by decide⟩))
  · exact Or.inr (Or.inr (Or.inr ⟨token.GT, by decide⟩))
  · exact Or.inr (Or.inr (Or.inr ⟨token.LBRACE, by decide⟩))
  · exact Or.inr (Or.inr (Or.inr ⟨token.RBRACE, by decide⟩))
  · exact Or.inr (Or.inr (Or.inl rfl))

/-- From a state with the cursor on `pos`, the `switch` returns a token and
leaves the cursor on a later index of the same input. -/
theorem switchOnCh_progress (input : GoString) (pos : Nat) :
    ∃ tok pos1, (cursorAt input pos).switchOnCh = some (tok, cursorAt input pos1)
      ∧ pos < pos1 := by
  by_cases hcase : input.getD pos 0 ∈ caseBytes
  · rcases caseBytes_cases _ hcase with h | h | h | ⟨kind, h⟩
    · rw [switchOnCh_assign input pos h]
      by_cases hp : input.getD (pos + 1) 0 = 61
      · exact ⟨_, pos + 2, by rw [if_pos hp], by omega⟩
      · exact ⟨_, pos + 1, by rw [if_neg hp], by omega⟩
    · rw [switchOnCh_bang input pos h]
      by_cases hp : input.getD (pos + 1) 0 = 61
      · exact ⟨_, pos + 2, by rw [if_pos hp], by omega⟩
      · exact ⟨_, pos + 1, by rw [if_neg hp], by omega⟩
    · exact ⟨_, pos + 1, switchOnCh_eof input pos h, by omega⟩
    · exact ⟨_, pos + 1, switchOnCh_single input pos _ kind h rfl, by omega⟩
  · by_cases hl : isLetter (input.getD pos 0) = true
    · have hrun := (runLen_of_cond isLetter input pos isLetter_zero hl).2
      exact ⟨_, _, switchOnCh_letter input pos hl, by omega⟩
    · have hl2 : isLetter (input.getD pos 0) = false := by simpa using hl
      by_cases hd : isDigit (input.getD pos 0) = true
      · have hrun := (runLen_of_cond isDigit input pos isDigit_zero hd).2
        exact ⟨_, _, switchOnCh_digit input pos hd, by omega⟩
      · have hd2 : isDigit (input.getD pos 0) = false := by simpa using hd
        exact ⟨_, pos + 1, switchOnCh_illegal input pos hcase hl2 hd2, by omega⟩

theorem NextToken_progress (input : GoString) (pos : Nat) :
    ∃ tok pos1, (cursorAt input pos).NextToken = some (tok, cursorAt input pos1)
      ∧ pos + runLen isWhitespace input pos < pos1 := by
  obtain ⟨tok, pos1, h, hlt⟩ :=
    switchOnCh_progress input (pos + runLen isWhitespace input pos)
  exact ⟨tok, pos1, by rw [NextToken_cursorAt, h], hlt⟩

/-- Every state reached from `New(input)` by `n` calls of `NextToken` exists and
has its cursor on some index `pos >= n` of `input`. -/
theorem stateAfter_cursorAt (input : GoString) (n : Nat) :
    ∃ pos, stateAfter input n = some (cursorAt input pos) ∧ n ≤ pos := by
  induction n with
  | zero => exact ⟨0, New_eq input, Nat.le_refl 0⟩
  | succ n ih =>
    obtain ⟨pos, hs, hle⟩ := ih
    obtain ⟨tok, pos1, hn, hlt⟩ := NextToken_progress input pos
    refine ⟨pos1, ?_, by omega⟩
    simp only [stateAfter, hs, hn]

theorem stateAfter_inv (input : GoString) (n : Nat) (l : Lexer)
    (h : stateAfter input n = some l) : l = cursorAt input l.position := by
  obtain ⟨pos, hs, _⟩ := stateAfter_cursorAt input n
  rw [hs] at h
  cases h
  rfl

theorem skipWhitespace_inv (input : GoString) (pos : Nat) (l1 : Lexer)
    (h : (cursorAt input pos).skipWhitespace = some l1) :
    l1 = cursorAt input (pos + runLen isWhitespace input pos) := by
  rw [skipWhitespace_cursorAt] at h
  cases h
  rfl

theorem LookupIdent_eq (ident : GoString) :
    token.LookupIdent ident
      = if ident = bytes "fn" then token.FUNCTION
        else if ident = bytes "let" then token.LET else token.IDENT := by
  unfold token.LookupIdent token.keywords
  by_cases h1 : ident = bytes "fn"
  · subst h1
    rfl
  · by_cases h2 : ident = bytes "let"
    · subst h2
      rfl
    · have e1 : (ident == bytes "fn") = false := by simpa using h1
      have e2 : (ident == bytes "let") = false := by simpa using h2
      simp only [List.lookup, e1, e2, h1, h2, if_false]

theorem takeWhile_ne_nil (cond : Nat → Bool) (input : GoString) (pos : Nat)
    (h0 : cond 0 = false) (hc : cond (input.getD pos 0) = true) :
    (input.drop pos).takeWhile cond ≠ [] := by
  have hrun := (runLen_of_cond cond input pos h0 hc).2
  intro hnil
  unfold runLen at hrun
  rw [hnil] at hrun
  simp at hrun

/-- A reached state `l` has its cursor on some index `pos`; skipping whitespace
from it leaves the cursor on an index `p >= pos`, and `NextToken` on `l` is the
`switch` run from there. -/
theorem reach_skip (input : GoString) (n : Nat) (l l1 : Lexer)
    (hreach : stateAfter input n = some l) (hskip : l.skipWhitespace = some l1) :
    ∃ pos p, l = cursorAt input pos ∧ l1 = cursorAt input p
      ∧ l.NextToken = (cursorAt input p).switchOnCh ∧ pos ≤ p ∧ n ≤ pos := by
  obtain ⟨pos, hs, hn⟩ := stateAfter_cursorAt input n
  rw [hs] at hreach
  cases hreach
  exact ⟨pos, _, rfl, skipWhitespace_inv input pos l1 hskip, NextToken_cursorAt input pos,
    Nat.le_add_right _ _, hn⟩

theorem getD_eq_61_iff (input : GoString) (i : Nat) :
    input.getD i 0 = 61 ↔ input[i]? = some 61 := by
  rw [List.getD_eq_getElem?_getD]
  cases input[i]? with
  | none => simp
  | some b => simp

theorem getD_eq_zero_iff (input : GoString) (i : Nat) :
    input.getD i 0 = 0 ↔ input.length ≤ i ∨ input[i]? = some 0 := by
  rw [List.getD_eq_getElem?_getD]
  by_cases h : i < input.length
  · rw [List.getElem?_eq_getElem h]
    simp only [Option.getD_some, Option.some.injEq]
    constructor
    · intro e; exact Or.inr e
    · rintro (e | e)
      · omega
      · exact e
  · have hge : input.length ≤ i := by omega
    rw [List.getElem?_eq_none hge]
    simp [hge]

theorem getD_pos_of_ne_zero (input : GoString) (i : Nat) (h : input.getD i 0 ≠ 0) :
    input[i]? = some (input.getD i 0) := by
  rw [List.getD_eq_getElem?_getD] at h ⊢
  cases hi : input[i]? with
  | none => rw [hi] at h; simp at h
  | some b => simp

theorem LookupIdent_ne_EOF (ident : GoString) : token.LookupIdent ident ≠ token.EOF := by
  rw [LookupIdent_eq]
  split_ifs <;> decide

theorem singleCharKinds_ne_EOF (c : Nat) (kind : token.TokenType)
    (hk : (c, kind) ∈ singleCharKinds) : kind ≠ token.EOF ∧ c ≠ 0 := by
  simp only [singleCharKinds, List.mem_cons, List.mem_singleton, List.not_mem_nil, or_false,
    Prod.mk.injEq] at hk
  rcases hk with h | h | h | h | h | h | h | h | h | h | h | h <;>
    (obtain ⟨h1, h2⟩ := h
     subst h1 h2
     exact ⟨by decide, by decide⟩)

/-- The `switch` returns a token of kind `EOF` exactly when the byte under the
cursor is the sentinel `0`, and that token has the empty text. -/
theorem switchOnCh_typ_eof (input : GoString) (pos : Nat) (tok : token.Token) (l2 : Lexer)
    (h : (cursorAt input pos).switchOnCh = some (tok, l2)) :
    (tok.Typ = token.EOF ↔ input.getD pos 0 = 0) ∧ (tok.Typ = token.EOF → tok.Literal = []) := by
  by_cases hcase : input.getD pos 0 ∈ caseBytes
  · rcases caseBytes_cases _ hcase with hc | hc | hc | ⟨kind, hc⟩
    · rw [switchOnCh_assign input pos hc] at h
      by_cases hp : input.getD (pos + 1) 0 = 61
      · rw [if_pos hp] at h
        cases h
        simp only [hc]
        exact ⟨by decide, by decide⟩
      · rw [if_neg hp] at h
        cases h
        simp only [hc]
        exact ⟨by decide, by decide⟩
    · rw [switchOnCh_bang input pos hc] at h
      by_cases hp : input.getD (pos + 1) 0 = 61
      · rw [if_pos hp] at h
        cases h
        simp only [hc]
        exact ⟨by decide, by decide⟩
      · rw [if_neg hp] at h
        cases h
        simp only [hc]
        exact ⟨by decide, by decide⟩
    · rw [switchOnCh_eof input pos hc] at h
      cases h
      exact ⟨⟨fun _ => hc, fun _ => rfl⟩, fun _ => rfl⟩
    · rw [switchOnCh_single input pos _ kind hc rfl] at h
      cases h
      obtain ⟨h1, h2⟩ := singleCharKinds_ne_EOF _ kind hc
      exact ⟨⟨fun e => absurd e h1, fun e => absurd e h2⟩, fun e => absurd e h1⟩
  · have hnz : input.getD pos 0 ≠ 0 := by
      intro e
      rw [e] at hcase
      exact hcase (by decide)
    by_cases hl : isLetter (input.getD pos 0) = true
    · rw [switchOnCh_letter input pos hl] at h
      cases h
      exact ⟨⟨fun e => absurd e (LookupIdent_ne_EOF _), fun e => absurd e hnz⟩,
        fun e => absurd e (LookupIdent_ne_EOF _)⟩
    · have hl2 : isLetter (input.getD pos 0) = false := by simpa using hl
      by_cases hd : isDigit (input.getD pos 0) = true
      · rw [switchOnCh_digit input pos hd] at h
        cases h
        have hne : token.INT ≠ token.EOF := by decide
        exact ⟨⟨fun e => absurd e hne, fun e => absurd e hnz⟩, fun e => absurd e hne⟩
      · have hd2 : isDigit (input.getD pos 0) = false := by simpa using hd
        rw [switchOnCh_illegal input pos hcase hl2 hd2] at h
        cases h
        have hne : token.ILLEGAL ≠ token.EOF := by decide
        exact ⟨⟨fun e => absurd e hne, fun e => absurd e hnz⟩, fun e => absurd e hne⟩

/-- Skipping whitespace ends at or past the end of the input exactly when every
byte from the cursor on is whitespace. -/
theorem run_to_end_iff (input : GoString) (pos : Nat) :
    input.length ≤ pos + runLen isWhitespace input pos
      ↔ ∀ b ∈ input.drop pos, isWhitespace b = true := by
  have hsplit := run_split isWhitespace input pos
  constructor
  · intro h b hb
    rw [hsplit, List.drop_of_length_le h, List.append_nil] at hb
    exact List.mem_takeWhile_imp hb
  · intro h
    have e : (input.drop pos).takeWhile isWhitespace = input.drop pos :=
      List.takeWhile_eq_self_iff.mpr h
    have hlen : runLen isWhitespace input pos = input.length - pos := by
      unfold runLen
      rw [e, List.length_drop]
    omega

theorem not_mem_caseBytes (c : Nat) (hc : c ∉ bytes "=!;()\x7b\x7d,+-/*<>") (hnz : c ≠ 0) :
    c ∉ caseBytes := by
  have e : bytes "=!;()\x7b\x7d,+-/*<>"
      = [61, 33, 59, 40, 41, 123, 125, 44, 43, 45, 47, 42, 60, 62] := by decide
  rw [e] at hc
  simp only [List.mem_cons, List.mem_singleton, List.not_mem_nil, or_false, not_or] at hc
  simp only [caseBytes, List.mem_cons, List.mem_singleton, List.not_mem_nil, or_false, not_or]
  omega

/-- With the cursor, after skipping whitespace, at or past the end of the input,
`NextToken` returns `EOF` with the empty text. -/
theorem NextToken_at_end (input : GoString) (pos : Nat)
    (h : input.length ≤ pos + runLen isWhitespace input pos) :
    (cursorAt input pos).NextToken
      = some ({ Typ := token.EOF, Literal := [] },
          cursorAt input (pos + runLen isWhitespace input pos + 1)) := by
  rw [NextToken_cursorAt, switchOnCh_eof input _ ((getD_eq_zero_iff input _).mpr (Or.inl h))]

/-- The state after `a + m` calls exists, its cursor is at least `m` further
than after `a` calls, and once skipping whitespace has reached the end of the
input it reaches it in every later state. -/
theorem stateAfter_add (input : GoString) (a pa : Nat)
    (ha : stateAfter input a = some (cursorAt input pa)) :
    ∀ m : Nat, ∃ pb, stateAfter input (a + m) = some (cursorAt input pb) ∧ pa + m ≤ pb
      ∧ (input.length ≤ pa + runLen isWhitespace input pa
          → input.length ≤ pb + runLen isWhitespace input pb) := by
  intro m
  induction m with
  | zero => exact ⟨pa, ha, Nat.le_refl _, fun h => h⟩
  | succ m ih =>
    obtain ⟨pb, hb, hle, hend⟩ := ih
    obtain ⟨tok, pos1, hn, hlt⟩ := NextToken_progress input pb
    refine ⟨pos1, ?_, by omega, fun h => ?_⟩
    · show stateAfter input (a + m + 1) = _
      simp only [stateAfter, hb, hn]
    · have := hend h
      omega

theorem tokenOfCall_succ (input : GoString) (k pos : Nat)
    (hs : stateAfter input k = some (cursorAt input pos)) :
    tokenOfCall input (k + 1) = ((cursorAt input pos).NextToken).map Prod.fst := by
  simp only [tokenOfCall, hs]
  cases (cursorAt input pos).NextToken with
  | none => rfl
  | some r => rfl

/-- A call that returns a token of kind `EOF` returns it with the empty text,
and the byte under the cursor after skipping whitespace was the sentinel. -/
theorem tokenOfCall_eof (input : GoString) (k pos : Nat) (tok : token.Token)
    (hs : stateAfter input k = some (cursorAt input pos))
    (ht : tokenOfCall input (k + 1) = some tok) (he : tok.Typ = token.EOF) :
    tok.Literal = [] ∧ input.getD (pos + runLen isWhitespace input pos) 0 = 0 := by
  rw [tokenOfCall_succ input k pos hs] at ht
  obtain ⟨t, pos1, hn, _⟩ := NextToken_progress input pos
  rw [hn] at ht
  simp only [Option.map_some', Option.some.injEq] at ht
  subst ht
  rw [NextToken_cursorAt] at hn
  obtain ⟨h1, h2⟩ := switchOnCh_typ_eof input _ t _ hn
  exact ⟨h2 he, h1.mp he⟩

/-- The failure paths of the model are live: in a state that no run reaches
(`ch` is a letter while `position` is past the end of the input) the slice of
`readIdentifier` is out of range and `NextToken` does not return. -/
theorem NextToken_off_path_fails :
    Lexer.NextToken { input := bytes "a", position := 5, readPosition := 1, ch := 97 } = none := by
  decide

/-! ## The claims -/

/-- C1: in every state reached from `New(input)` by calls of `NextToken`, if the
byte under the cursor after skipping whitespace is a letter or an underscore,
`NextToken` returns a token whose text is the longest run of letters and
underscores of the input that starts at that cursor index (it is not empty, all
its bytes are letters, it is the input from the cursor up to the new cursor,
and the byte that follows it is not a letter), whose kind is `LookupIdent` of
the text (`LET` for "let", `FUNCTION` for "fn", `IDENT` otherwise), and the
cursor is left on the first byte after the run. -/
theorem NextToken_identifier (input : GoString) (n : Nat) (l l1 : Lexer)
    (hreach : stateAfter input n = some l)
    (hskip : l.skipWhitespace = some l1)
    (hletter : isLetter l1.ch = true) :
    ∃ tok l2, l.NextToken = some (tok, l2)
      ∧ tok.Literal = (input.drop l1.position).takeWhile isLetter
      ∧ tok.Literal ≠ []
      ∧ (∀ b ∈ tok.Literal, isLetter b = true)
      ∧ input.drop l1.position = tok.Literal ++ input.drop l2.position
      ∧ isLetter (input.getD l2.position 0) = false
      ∧ tok.Typ = token.LookupIdent tok.Literal
      ∧ tok.Typ = (if tok.Literal = bytes "fn" then token.FUNCTION
                    else if tok.Literal = bytes "let" then token.LET else token.IDENT)
      ∧ l2.position = l1.position + tok.Literal.length
      ∧ l2 = cursorAt input l2.position := by
  obtain ⟨pos, p, hl, hl1, hnext, _, _⟩ := reach_skip input n l l1 hreach hskip
  subst hl hl1
  rw [cursorAt_ch] at hletter
  rw [cursorAt_position]
  refine ⟨{ Typ := token.LookupIdent ((input.drop p).takeWhile isLetter),
            Literal := (input.drop p).takeWhile isLetter },
          cursorAt input (p + runLen isLetter input p), ?_, rfl, ?_, ?_, ?_, ?_, rfl, ?_, rfl, rfl⟩
  · rw [hnext, switchOnCh_letter input p hletter]
  · exact takeWhile_ne_nil isLetter input p isLetter_zero hletter
  · intro b hb
    exact List.mem_takeWhile_imp hb
  · exact run_split isLetter input p
  · exact run_stops isLetter isLetter_zero input _ p (Nat.le_refl _)
  · exact LookupIdent_eq _

/-- Witness of C1 on the input " letx=", and the two examples of the claim:
"let" gives kind `LET`, "letx" gives kind `IDENT` with text "letx". -/
theorem NextToken_identifier_witness :
    (stateAfter (bytes " letx=") 0 = some (cursorAt (bytes " letx=") 0)
      ∧ (cursorAt (bytes " letx=") 0).skipWhitespace = some (cursorAt (bytes " letx=") 1)
      ∧ isLetter (cursorAt (bytes " letx=") 1).ch = true)
    ∧ (∃ tok l2, (cursorAt (bytes " letx=") 0).NextToken = some (tok, l2)
        ∧ tok.Literal = bytes "letx" ∧ tok.Typ = token.IDENT ∧ l2.position = 5)
    ∧ tokenOfCall (bytes "let") 1 = some { Typ := token.LET, Literal := bytes "let" }
    ∧ tokenOfCall (bytes "letx") 1 = some { Typ := token.IDENT, Literal := bytes "letx" } := by
  refine ⟨⟨by decide, by decide, by decide⟩, ?_, by decide, by decide⟩
  obtain ⟨tok, l2, h, hlit, _, _, _, _, _, hty, hpos, _⟩ :=
    NextToken_identifier (bytes " letx=") 0 (cursorAt (bytes " letx=") 0)
      (cursorAt (bytes " letx=") 1) (by decide) (by decide) (by decide)
  have e : tok.Literal = bytes "letx" := by rw [hlit]; decide
  refine ⟨tok, l2, h, e, ?_, ?_⟩
  · rw [hty, e]; decide
  · rw [hpos, e]; decide

/-- C2: in every state reached from `New(input)` by calls of `NextToken`, if the
byte under the cursor after skipping whitespace is a decimal digit, `NextToken`
returns a token of kind `INT` whose text is the longest run of decimal digits of
the input that starts at that cursor index, and the cursor is left on the first
byte after the run that is not a digit, or at the end of the input. -/
theorem NextToken_number (input : GoString) (n : Nat) (l l1 : Lexer)
    (hreach : stateAfter input n = some l)
    (hskip : l.skipWhitespace = some l1)
    (hdigit : isDigit l1.ch = true) :
    ∃ tok l2, l.NextToken = some (tok, l2)
      ∧ tok.Typ = token.INT
      ∧ tok.Literal = (input.drop l1.position).takeWhile isDigit
      ∧ tok.Literal ≠ []
      ∧ (∀ b ∈ tok.Literal, isDigit b = true)
      ∧ input.drop l1.position = tok.Literal ++ input.drop l2.position
      ∧ isDigit (input.getD l2.position 0) = false
      ∧ l2.position = l1.position + tok.Literal.length
      ∧ l2.position ≤ input.length
      ∧ l2 = cursorAt input l2.position := by
  obtain ⟨pos, p, hl, hl1, hnext, _, _⟩ := reach_skip input n l l1 hreach hskip
  subst hl hl1
  rw [cursorAt_ch] at hdigit
  rw [cursorAt_position]
  have hlt := (runLen_of_cond isDigit input p isDigit_zero hdigit).1
  have hle := runLen_le isDigit input p
  refine ⟨{ Typ := token.INT, Literal := (input.drop p).takeWhile isDigit },
          cursorAt input (p + runLen isDigit input p), ?_, rfl, rfl, ?_, ?_, ?_, ?_, rfl, ?_, rfl⟩
  · rw [hnext, switchOnCh_digit input p hdigit]
  · exact takeWhile_ne_nil isDigit input p isDigit_zero hdigit
  · intro b hb
    exact List.mem_takeWhile_imp hb
  · exact run_split isDigit input p
  · exact run_stops isDigit isDigit_zero input _ p (Nat.le_refl _)
  · rw [cursorAt_position]
    omega

/-- Witness of C2 on the inputs "12ab" (the run stops at a letter) and "7" (the
run stops at the end of the input). -/
theorem NextToken_number_witness :
    (stateAfter (bytes "12ab") 0 = some (cursorAt (bytes "12ab") 0)
      ∧ (cursorAt (bytes "12ab") 0).skipWhitespace = some (cursorAt (bytes "12ab") 0)
      ∧ isDigit (cursorAt (bytes "12ab") 0).ch = true)
    ∧ (∃ tok l2, (cursorAt (bytes "12ab") 0).NextToken = some (tok, l2)
        ∧ tok.Typ = token.INT ∧ tok.Literal = bytes "12" ∧ l2.position = 2)
    ∧ firstTokens (bytes "7") 2
        = some [{ Typ := token.INT, Literal := bytes "7" }, { Typ := token.EOF, Literal := [] }] := by
  refine ⟨⟨by decide, by decide, by decide⟩, ?_, by decide⟩
  obtain ⟨tok, l2, h, hty, hlit, _, _, _, _, hpos, _, _⟩ :=
    NextToken_number (bytes "12ab") 0 (cursorAt (bytes "12ab") 0)
      (cursorAt (bytes "12ab") 0) (by decide) (by decide) (by decide)
  have e : tok.Literal = bytes "12" := by rw [hlit]; decide
  refine ⟨tok, l2, h, hty, e, ?_⟩
  rw [hpos, e]; decide

/-- C3: in every state reached from `New(input)` by calls of `NextToken`, if the
byte under the cursor after skipping whitespace is `=` (respectively `!`): when
the next input byte is `=`, `NextToken` returns the one token of kind `EQ` with
text "==" (respectively `NOT_EQ` with text "!=") and moves the cursor by exactly
two; otherwise it returns `ASSIGN` with text "=" (respectively `BANG` with text
"!") and moves the cursor by exactly one. -/
theorem NextToken_two_char (input : GoString) (n : Nat) (l l1 : Lexer)
    (hreach : stateAfter input n = some l)
    (hskip : l.skipWhitespace = some l1) :
    (l1.ch = 61 →
      (input[l1.position + 1]? = some 61 →
        ∃ l2, l.NextToken = some ({ Typ := token.EQ, Literal := bytes "==" }, l2)
          ∧ l2.position = l1.position + 2 ∧ l2 = cursorAt input l2.position)
      ∧ (input[l1.position + 1]? ≠ some 61 →
        ∃ l2, l.NextToken = some ({ Typ := token.ASSIGN, Literal := bytes "=" }, l2)
          ∧ l2.position = l1.position + 1 ∧ l2 = cursorAt input l2.position))
    ∧ (l1.ch = 33 →
      (input[l1.position + 1]? = some 61 →
        ∃ l2, l.NextToken = some ({ Typ := token.NOT_EQ, Literal := bytes "!=" }, l2)
          ∧ l2.position = l1.position + 2 ∧ l2 = cursorAt input l2.position)
      ∧ (input[l1.position + 1]? ≠ some 61 →
        ∃ l2, l.NextToken = some ({ Typ := token.BANG, Literal := bytes "!" }, l2)
          ∧ l2.position = l1.position + 1 ∧ l2 = cursorAt input l2.position)) := by
  obtain ⟨pos, p, hl, hl1, hnext, _, _⟩ := reach_skip input n l l1 hreach hskip
  subst hl hl1
  simp only [cursorAt_ch, cursorAt_position]
  refine ⟨fun hc => ⟨fun hp => ?_, fun hp => ?_⟩, fun hc => ⟨fun hp => ?_, fun hp => ?_⟩⟩
  · refine ⟨cursorAt input (p + 2), ?_, rfl, rfl⟩
    rw [hnext, switchOnCh_assign input p hc, if_pos ((getD_eq_61_iff input _).mpr hp)]
    rfl
  · refine ⟨cursorAt input (p + 1), ?_, rfl, rfl⟩
    rw [hnext, switchOnCh_assign input p hc,
      if_neg (fun h => hp ((getD_eq_61_iff input _).mp h))]
    rfl
  · refine ⟨cursorAt input (p + 2), ?_, rfl, rfl⟩
    rw [hnext, switchOnCh_bang input p hc, if_pos ((getD_eq_61_iff input _).mpr hp)]
    rfl
  · refine ⟨cursorAt input (p + 1), ?_, rfl, rfl⟩
    rw [hnext, switchOnCh_bang input p hc,
      if_neg (fun h => hp ((getD_eq_61_iff input _).mp h))]
    rfl

/-- Witness of C3 on the input "==", and the four examples of the claim: "=="
gives `[EQ, EOF]`, "!=" gives `[NOT_EQ, EOF]`, "=" gives `[ASSIGN, EOF]` and "!"
gives `[BANG, EOF]`. -/
theorem NextToken_two_char_witness :
    (stateAfter (bytes "==") 0 = some (cursorAt (bytes "==") 0)
      ∧ (cursorAt (bytes "==") 0).skipWhitespace = some (cursorAt (bytes "==") 0))
    ∧ (∃ l2, (cursorAt (bytes "==") 0).NextToken
          = some ({ Typ := token.EQ, Literal := bytes "==" }, l2) ∧ l2.position = 2)
    ∧ firstTokens (bytes "==") 2
        = some [{ Typ := token.EQ, Literal := bytes "==" }, { Typ := token.EOF, Literal := [] }]
    ∧ firstTokens (bytes "!=") 2
        = some [{ Typ := token.NOT_EQ, Literal := bytes "!=" }, { Typ := token.EOF, Literal := [] }]
    ∧ firstTokens (bytes "=") 2
        = some [{ Typ := token.ASSIGN, Literal := bytes "=" }, { Typ := token.EOF, Literal := [] }]
    ∧ firstTokens (bytes "!") 2
        = some [{ Typ := token.BANG, Literal := bytes "!" }, { Typ := token.EOF, Literal := [] }] := by
  refine ⟨⟨by decide, by decide⟩, ?_, by decide, by decide, by decide, by decide⟩
  obtain ⟨l2, h, hpos, _⟩ :=
    ((NextToken_two_char (bytes "==") 0 (cursorAt (bytes "==") 0) (cursorAt (bytes "==") 0)
      (by decide) (by decide)).1 (by decide)).1 (by decide)
  exact ⟨l2, h, hpos⟩

/-- C4: in every state reached from `New(input)` by calls of `NextToken`, if the
byte under the cursor after skipping whitespace is one of the twelve bytes of
`singleCharKinds` (`; ( )`, the two braces, `, + - / * < >`), `NextToken` returns
the token kind that the table gives to that byte (`SEMICOLON`, `LPAREN`, `RPAREN`,
`LBRACE`, `RBRACE`, `COMMA`, `PLUS`, `MINUS`, `SLASH`, `ASTERISK`, `LT`, `GT`), with
text exactly that one byte, and moves the cursor by exactly one; the twelve
kinds are pairwise distinct. -/
theorem NextToken_single_char (input : GoString) (n : Nat) (l l1 : Lexer) (c : Nat)
    (kind : token.TokenType)
    (hreach : stateAfter input n = some l)
    (hskip : l.skipWhitespace = some l1)
    (hkind : (c, kind) ∈ singleCharKinds)
    (hc : l1.ch = c) :
    (∃ l2, l.NextToken = some ({ Typ := kind, Literal := [c] }, l2)
      ∧ l2.position = l1.position + 1 ∧ l2 = cursorAt input l2.position)
    ∧ singleCharKinds.map Prod.fst = bytes ";()\x7b\x7d,+-/*<>"
    ∧ singleCharKinds.map Prod.snd
        = [token.SEMICOLON, token.LPAREN, token.RPAREN, token.LBRACE, token.RBRACE, token.COMMA,
           token.PLUS, token.MINUS, token.SLASH, token.ASTERISK, token.LT, token.GT]
    ∧ (singleCharKinds.map Prod.snd).Nodup
    ∧ (singleCharKinds.map Prod.snd).length = 12 := by
  obtain ⟨pos, p, hl, hl1, hnext, _, _⟩ := reach_skip input n l l1 hreach hskip
  subst hl hl1
  rw [cursorAt_ch] at hc
  refine ⟨⟨cursorAt input (p + 1), ?_, rfl, rfl⟩, by decide, by decide, by decide, by decide⟩
  rw [hnext, switchOnCh_single input p c kind hkind hc]

/-- Witness of C4 on the input "x < y": the second call meets `<` after a space. -/
theorem NextToken_single_char_witness :
    (stateAfter (bytes "x < y") 1 = some (cursorAt (bytes "x < y") 1)
      ∧ (cursorAt (bytes "x < y") 1).skipWhitespace = some (cursorAt (bytes "x < y") 2)
      ∧ (60, token.LT) ∈ singleCharKinds
      ∧ (cursorAt (bytes "x < y") 2).ch = 60)
    ∧ (∃ l2, (cursorAt (bytes "x < y") 1).NextToken
          = some ({ Typ := token.LT, Literal := bytes "<" }, l2) ∧ l2.position = 3) := by
  refine ⟨⟨by decide, by decide, by decide, by decide⟩, ?_⟩
  obtain ⟨l2, h, hpos, _⟩ :=
    (NextToken_single_char (bytes "x < y") 1 (cursorAt (bytes "x < y") 1)
      (cursorAt (bytes "x < y") 2) 60 token.LT (by decide) (by decide) (by decide)
      (by decide)).1
  exact ⟨l2, h, hpos⟩

/-- C5, as the claim states it, fails on the input `[0xC3, 0xA9]` (the UTF-8
bytes of "é"): the byte `0xC3` under the cursor is not a letter, a digit or one
of `= ! ; ( ) { } , + - / * < >`, and the cursor is not at the end of the input,
yet the text of the `ILLEGAL` token is the two bytes `[0xC3, 0x83]` that
`string(ch)` produces, not the input byte. It also fails on the input `[0]`:
the NUL byte under the cursor is not the end of the input, and the token
returned is `EOF` with the empty text. -/
theorem NextToken_illegal_counterexample :
    (stateAfter [195, 169] 0 = some (cursorAt [195, 169] 0)
      ∧ (cursorAt [195, 169] 0).skipWhitespace = some (cursorAt [195, 169] 0)
      ∧ ([195, 169] : GoString)[(cursorAt [195, 169] 0).position]? = some 195
      ∧ isLetter 195 = false ∧ isDigit 195 = false
      ∧ 195 ∉ bytes "=!;()\x7b\x7d,+-/*<>"
      ∧ (cursorAt [195, 169] 0).NextToken
          = some ({ Typ := token.ILLEGAL, Literal := [195, 131] }, cursorAt [195, 169] 1)
      ∧ ¬ ∃ l2, (cursorAt [195, 169] 0).NextToken
          = some ({ Typ := token.ILLEGAL, Literal := [195] }, l2))
    ∧ (stateAfter [0] 0 = some (cursorAt [0] 0)
      ∧ (cursorAt [0] 0).skipWhitespace = some (cursorAt [0] 0)
      ∧ ([0] : GoString)[(cursorAt [0] 0).position]? = some 0
      ∧ isLetter 0 = false ∧ isDigit 0 = false
      ∧ 0 ∉ bytes "=!;()\x7b\x7d,+-/*<>"
      ∧ (cursorAt [0] 0).NextToken = some ({ Typ := token.EOF, Literal := [] }, cursorAt [0] 1)
      ∧ ¬ ∃ l2, (cursorAt [0] 0).NextToken
          = some ({ Typ := token.ILLEGAL, Literal := [0] }, l2)) := by
  refine ⟨⟨by decide, by decide, by decide, by decide, by decide, by decide, by decide, ?_⟩,
    ⟨by decide, by decide, by decide, by decide, by decide, by decide, by decide, ?_⟩⟩
  · rintro ⟨l2, h⟩
    have e : (cursorAt [195, 169] 0).NextToken
        = some ({ Typ := token.ILLEGAL, Literal := [195, 131] }, cursorAt [195, 169] 1) := by
      decide
    rw [e] at h
    revert h
    simp
  · rintro ⟨l2, h⟩
    have e : (cursorAt [0] 0).NextToken
        = some ({ Typ := token.EOF, Literal := [] }, cursorAt [0] 1) := by
      decide
    rw [e] at h
    revert h
    simp

/-- C5, amended: in every state reached from `New(input)` by calls of
`NextToken`, if the byte under the cursor after skipping whitespace is not the
sentinel `0`, not a letter or underscore, not a decimal digit and not one of
`= ! ; ( ) { } , + - / * < >`, then that byte is a byte of the input,
`NextToken` returns a token of kind `ILLEGAL` and moves the cursor by exactly
one; the text of the token is `string(ch)`, which is exactly that single input
byte when the byte is below `0x80`. -/
theorem NextToken_illegal (input : GoString) (n : Nat) (l l1 : Lexer)
    (hreach : stateAfter input n = some l)
    (hskip : l.skipWhitespace = some l1)
    (hnz : l1.ch ≠ 0)
    (hletter : isLetter l1.ch = false)
    (hdigit : isDigit l1.ch = false)
    (hpunct : l1.ch ∉ bytes "=!;()\x7b\x7d,+-/*<>") :
    ∃ tok l2, l.NextToken = some (tok, l2)
      ∧ input[l1.position]? = some l1.ch
      ∧ tok.Typ = token.ILLEGAL
      ∧ tok.Literal = byteToString l1.ch
      ∧ (l1.ch < 128 → tok.Literal = [l1.ch])
      ∧ l2.position = l1.position + 1
      ∧ l2 = cursorAt input l2.position := by
  obtain ⟨pos, p, hl, hl1, hnext, _, _⟩ := reach_skip input n l l1 hreach hskip
  subst hl hl1
  rw [cursorAt_ch] at hnz hletter hdigit hpunct
  simp only [cursorAt_ch, cursorAt_position]
  refine ⟨newToken token.ILLEGAL (input.getD p 0), cursorAt input (p + 1), ?_,
    getD_pos_of_ne_zero input p hnz, rfl, rfl, ?_, rfl, rfl⟩
  · rw [hnext, switchOnCh_illegal input p (not_mem_caseBytes _ hpunct hnz) hletter hdigit]
  · intro hlt
    simp only [newToken, byteToString, hlt, if_true]

/-- Witness of C5 (amended) on the input "@", and the example of the claim: "@"
gives `[ILLEGAL "@", EOF]`. -/
theorem NextToken_illegal_witness :
    (stateAfter (bytes "@") 0 = some (cursorAt (bytes "@") 0)
      ∧ (cursorAt (bytes "@") 0).skipWhitespace = some (cursorAt (bytes "@") 0)
      ∧ (cursorAt (bytes "@") 0).ch ≠ 0
      ∧ isLetter (cursorAt (bytes "@") 0).ch = false
      ∧ isDigit (cursorAt (bytes "@") 0).ch = false
      ∧ (cursorAt (bytes "@") 0).ch ∉ bytes "=!;()\x7b\x7d,+-/*<>")
    ∧ (∃ tok l2, (cursorAt (bytes "@") 0).NextToken = some (tok, l2)
        ∧ tok.Typ = token.ILLEGAL ∧ tok.Literal = bytes "@" ∧ l2.position = 1)
    ∧ firstTokens (bytes "@") 2
        = some [{ Typ := token.ILLEGAL, Literal := bytes "@" },
                { Typ := token.EOF, Literal := [] }] := by
  refine ⟨⟨by decide, by decide, by decide, by decide, by decide, by decide⟩, ?_, by decide⟩
  obtain ⟨tok, l2, h, _, hty, _, hlit, hpos, _⟩ :=
    NextToken_illegal (bytes "@") 0 (cursorAt (bytes "@") 0) (cursorAt (bytes "@") 0)
      (by decide) (by decide) (by decide) (by decide) (by decide) (by decide)
  exact ⟨tok, l2, h, hty, hlit (by decide), hpos⟩

/-- C6, as the claim states it, fails on the input `[0, 'a']`: the first call of
`NextToken` returns the `EOF` token with the empty text although the cursor,
after skipping whitespace, is on index `0`, before the end of the input, and
the letter `a` is still unconsumed (the next call returns it). -/
theorem NextToken_eof_counterexample :
    stateAfter [0, 97] 0 = some (cursorAt [0, 97] 0)
    ∧ (cursorAt [0, 97] 0).skipWhitespace = some (cursorAt [0, 97] 0)
    ∧ (cursorAt [0, 97] 0).NextToken
        = some ({ Typ := token.EOF, Literal := [] }, cursorAt [0, 97] 1)
    ∧ ¬ (([0, 97] : GoString).length ≤ (cursorAt [0, 97] 0).position)
    ∧ tokenOfCall [0, 97] 2 = some { Typ := token.IDENT, Literal := bytes "a" } := by
  refine ⟨by decide, by decide, by decide, by decide, by decide⟩

/-- C6, amended: in every state reached from `New(input)` by calls of
`NextToken`, the token that `NextToken` returns has kind `EOF` if and only if
the byte under the cursor after skipping whitespace is the sentinel `0`, that
is, the cursor is at or past the end of the input or the input byte there is
NUL; a token of kind `EOF` has the empty text. For an input with no NUL byte,
`NextToken` returns `EOF` if and only if the cursor after skipping whitespace
is at or past the end of the input, which is the case exactly when every byte
from the cursor of the call on is whitespace. -/
theorem NextToken_eof_iff (input : GoString) (n : Nat) (l l1 : Lexer)
    (hreach : stateAfter input n = some l)
    (hskip : l.skipWhitespace = some l1) :
    ∃ tok l2, l.NextToken = some (tok, l2)
      ∧ (tok.Typ = token.EOF ↔ l1.ch = 0)
      ∧ (tok.Typ = token.EOF → tok.Literal = [])
      ∧ (l1.ch = 0 ↔ input.length ≤ l1.position ∨ input[l1.position]? = some 0)
      ∧ (0 ∉ input → (tok.Typ = token.EOF ↔ input.length ≤ l1.position))
      ∧ (input.length ≤ l1.position ↔ ∀ b ∈ input.drop l.position, isWhitespace b = true) := by
  obtain ⟨pos, hs, _⟩ := stateAfter_cursorAt input n
  rw [hs] at hreach
  cases hreach
  have hl1 := skipWhitespace_inv input pos l1 hskip
  subst hl1
  obtain ⟨tok, pos1, hn, _⟩ := NextToken_progress input pos
  have hsw := hn
  rw [NextToken_cursorAt] at hsw
  obtain ⟨h1, h2⟩ := switchOnCh_typ_eof input _ tok _ hsw
  simp only [cursorAt_ch, cursorAt_position]
  refine ⟨tok, _, hn, h1, h2, getD_eq_zero_iff input _, ?_, run_to_end_iff input pos⟩
  intro hnul
  rw [h1, getD_eq_zero_iff]
  constructor
  · rintro (h | h)
    · exact h
    · exact absurd (List.getElem?_mem h) hnul
  · intro h
    exact Or.inl h

/-- Witness of C6 (amended) on the input "a ", after one call: the cursor is on
the space, skipping whitespace reaches the end and the call returns `EOF`. -/
theorem NextToken_eof_iff_witness :
    (stateAfter (bytes "a ") 1 = some (cursorAt (bytes "a ") 1)
      ∧ (cursorAt (bytes "a ") 1).skipWhitespace = some (cursorAt (bytes "a ") 2))
    ∧ (∃ tok l2, (cursorAt (bytes "a ") 1).NextToken = some (tok, l2)
        ∧ (tok.Typ = token.EOF ↔ (cursorAt (bytes "a ") 2).ch = 0)
        ∧ tok = { Typ := token.EOF, Literal := [] }) := by
  refine ⟨⟨by decide, by decide⟩, ?_⟩
  obtain ⟨tok, l2, h, hiff, hlit, _, _, _⟩ :=
    NextToken_eof_iff (bytes "a ") 1 (cursorAt (bytes "a ") 1) (cursorAt (bytes "a ") 2)
      (by decide) (by decide)
  have hty : tok.Typ = token.EOF := hiff.mpr (by decide)
  refine ⟨tok, l2, h, hiff, ?_⟩
  cases tok with
  | mk ty lit =>
    simp only at hty
    have := hlit hty
    simp only at this
    subst hty this
    rfl

/-- C7, as the claim states it, fails on the input `[0, 'a']`: the first call of
`NextToken` returns an `EOF` token, and the second call returns the
identifier "a". -/
theorem eof_is_terminal_counterexample :
    tokenOfCall [0, 97] 1 = some { Typ := token.EOF, Literal := [] }
    ∧ tokenOfCall [0, 97] 2 = some { Typ := token.IDENT, Literal := bytes "a" }
    ∧ ¬ (∀ j k : Nat, ∀ tok : token.Token, j ≤ k → tokenOfCall [0, 97] j = some tok →
          tok.Typ = token.EOF →
          tokenOfCall [0, 97] k = some { Typ := token.EOF, Literal := [] }) := by
  refine ⟨by decide, by decide, fun h => ?_⟩
  have h2 := h 1 2 { Typ := token.EOF, Literal := [] } (by decide) (by decide) rfl
  revert h2
  decide

/-- C7, amended: for every input string with no NUL byte, once call number `j`
of `NextToken` has returned a token of kind `EOF`, every call number `k >= j`
returns the `EOF` token with the empty text. -/
theorem eof_is_terminal (input : GoString) (j k : Nat) (tok : token.Token)
    (hnul : 0 ∉ input)
    (hjk : j ≤ k)
    (hj : tokenOfCall input j = some tok)
    (heof : tok.Typ = token.EOF) :
    tokenOfCall input k = some { Typ := token.EOF, Literal := [] } := by
  cases j with
  | zero => simp [tokenOfCall] at hj
  | succ j =>
    obtain ⟨pj, hsj, _⟩ := stateAfter_cursorAt input j
    obtain ⟨_, hz⟩ := tokenOfCall_eof input j pj tok hsj hj heof
    have hend : input.length ≤ pj + runLen isWhitespace input pj := by
      rcases (getD_eq_zero_iff input _).mp hz with h | h
      · exact h
      · exact absurd (List.getElem?_mem h) hnul
    obtain ⟨m, hm⟩ : ∃ m, k = j + m + 1 := ⟨k - (j + 1), by omega⟩
    subst hm
    obtain ⟨pk, hsk, _, hk⟩ := stateAfter_add input j pj hsj m
    rw [tokenOfCall_succ input (j + m) pk hsk, NextToken_at_end input pk (hk hend)]
    rfl

/-- Witness of C7 (amended) on the input "a": call 2 returns `EOF`, and so does call 5. -/
theorem eof_is_terminal_witness :
    (0 ∉ bytes "a" ∧ 2 ≤ 5
      ∧ tokenOfCall (bytes "a") 2 = some { Typ := token.EOF, Literal := [] }
      ∧ ({ Typ := token.EOF, Literal := [] } : token.Token).Typ = token.EOF)
    ∧ tokenOfCall (bytes "a") 5 = some { Typ := token.EOF, Literal := [] } :=
  ⟨⟨by decide, by decide, by decide, rfl⟩,
    eof_is_terminal (bytes "a") 2 5 { Typ := token.EOF, Literal := [] } (by decide) (by decide)
      (by decide) rfl⟩

/-- C8, as the claim states it, fails on the input "a" of length `1`: call `1`
returns the identifier "a" and it is call `2` that returns `EOF`, so no call
numbered `k <= len(input)` returns `EOF`. -/
theorem eof_within_length_counterexample :
    (bytes "a").length = 1
    ∧ tokenOfCall (bytes "a") 1 = some { Typ := token.IDENT, Literal := bytes "a" }
    ∧ tokenOfCall (bytes "a") 2 = some { Typ := token.EOF, Literal := [] }
    ∧ ¬ ∃ k, k ≤ (bytes "a").length
        ∧ ∃ tok, tokenOfCall (bytes "a") k = some tok ∧ tok.Typ = token.EOF := by
  refine ⟨by decide, by decide, by decide, ?_⟩
  rintro ⟨k, hk, tok, ht, he⟩
  have hk1 : k ≤ 1 := hk
  have h0 : tokenOfCall (bytes "a") 0 = none := rfl
  have h1 : tokenOfCall (bytes "a") 1 = some { Typ := token.IDENT, Literal := bytes "a" } := by
    decide
  interval_cases k
  · rw [h0] at ht
    cases ht
  · rw [h1] at ht
    cases ht
    revert he
    decide

/-- C8, amended: for every input string, the calls of `NextToken` on
`New(input)`, numbered from `1`, reach a first call `k` that returns the `EOF`
token with the empty text; every call before it returns a token that is not
`EOF`, so the token sequence is finite and ends in `EOF`, and `k` is at most
`len(input) + 1`. -/
theorem eof_within_length_succ (input : GoString) :
    ∃ k, 1 ≤ k ∧ k ≤ input.length + 1
      ∧ tokenOfCall input k = some { Typ := token.EOF, Literal := [] }
      ∧ ∀ j, 1 ≤ j → j < k → ∃ tok, tokenOfCall input j = some tok ∧ tok.Typ ≠ token.EOF := by
  classical
  have hex : ∃ k, ∃ tok, tokenOfCall input k = some tok ∧ tok.Typ = token.EOF := by
    obtain ⟨pos, hs, hle⟩ := stateAfter_cursorAt input input.length
    refine ⟨input.length + 1, { Typ := token.EOF, Literal := [] }, ?_, rfl⟩
    rw [tokenOfCall_succ input _ pos hs, NextToken_at_end input pos (by omega)]
    rfl
  obtain ⟨tok, ht, he⟩ := Nat.find_spec hex
  have hmin : Nat.find hex ≤ input.length + 1 := by
    obtain ⟨pos, hs, hle⟩ := stateAfter_cursorAt input input.length
    apply Nat.find_min' hex
    refine ⟨{ Typ := token.EOF, Literal := [] }, ?_, rfl⟩
    rw [tokenOfCall_succ input _ pos hs, NextToken_at_end input pos (by omega)]
    rfl
  have hpos : 1 ≤ Nat.find hex := by
    by_contra h0
    have hz : Nat.find hex = 0 := by omega
    rw [hz] at ht
    simp [tokenOfCall] at ht
  refine ⟨Nat.find hex, hpos, hmin, ?_, ?_⟩
  · obtain ⟨k, hk⟩ : ∃ k, Nat.find hex = k + 1 := ⟨Nat.find hex - 1, by omega⟩
    rw [hk] at ht ⊢
    obtain ⟨pos, hs, _⟩ := stateAfter_cursorAt input k
    obtain ⟨hlit, _⟩ := tokenOfCall_eof input k pos tok hs ht he
    rw [ht]
    cases tok with
    | mk ty lit =>
      simp only at he hlit
      subst he hlit
      rfl
  · intro j hj hlt
    obtain ⟨i, hi⟩ : ∃ i, j = i + 1 := ⟨j - 1, by omega⟩
    subst hi
    obtain ⟨pos, hs, _⟩ := stateAfter_cursorAt input i
    obtain ⟨t, pos1, hn, _⟩ := NextToken_progress input pos
    refine ⟨t, ?_, fun hte => ?_⟩
    · rw [tokenOfCall_succ input i pos hs, hn]
      rfl
    · apply Nat.find_min hex hlt
      refine ⟨t, ?_, hte⟩
      rw [tokenOfCall_succ input i pos hs, hn]
      rfl

/-- C9: in every state reached from `New(input)` by calls of `NextToken`, one
more call returns and leaves `position` at least one greater than before when
the cursor was not at the end of the input, and in every case not smaller than
before (in fact it is always at least one greater). -/
theorem NextToken_advances (input : GoString) (n : Nat) (l : Lexer)
    (hreach : stateAfter input n = some l) :
    ∃ tok l2, l.NextToken = some (tok, l2)
      ∧ stateAfter input (n + 1) = some l2
      ∧ (l.position < input.length → l.position + 1 ≤ l2.position)
      ∧ l.position ≤ l2.position
      ∧ l.position + 1 ≤ l2.position := by
  obtain ⟨pos, hs, _⟩ := stateAfter_cursorAt input n
  rw [hs] at hreach
  cases hreach
  obtain ⟨tok, pos1, hn, hlt⟩ := NextToken_progress input pos
  refine ⟨tok, cursorAt input pos1, hn, ?_, ?_, ?_, ?_⟩
  · simp only [stateAfter, hs, hn]
  · intro _
    simp only [cursorAt_position]
    omega
  · simp only [cursorAt_position]
    omega
  · simp only [cursorAt_position]
    omega

/-- Witness of C9 on the input "ab  cd" after one call: the cursor goes from
index `2` to index `6`. -/
theorem NextToken_advances_witness :
    stateAfter (bytes "ab  cd") 1 = some (cursorAt (bytes "ab  cd") 2)
    ∧ (∃ tok l2, (cursorAt (bytes "ab  cd") 2).NextToken = some (tok, l2)
        ∧ (cursorAt (bytes "ab  cd") 2).position + 1 ≤ l2.position)
    ∧ stateAfter (bytes "ab  cd") 2 = some (cursorAt (bytes "ab  cd") 6) := by
  refine ⟨by decide, ?_, by decide⟩
  obtain ⟨tok, l2, h, _, _, _, hlt⟩ :=
    NextToken_advances (bytes "ab  cd") 1 (cursorAt (bytes "ab  cd") 2) (by decide)
  exact ⟨tok, l2, h, hlt⟩

/-! ## Locality of `NextToken` and token sequences -/

theorem getD_drop (input : GoString) (p i : Nat) :
    (input.drop p).getD i 0 = input.getD (p + i) 0 := by
  simp only [List.getD_eq_getElem?_getD, List.getElem?_drop]

theorem runLen_all (cond : Nat → Bool) (h0 : cond 0 = false) (input : GoString) :
    ∀ (m pos i : Nat), runLen cond input pos = m → i < m →
      cond (input.getD (pos + i) 0) = true := by
  intro m
  induction m with
  | zero => intro pos i _ hi; omega
  | succ m ih =>
    intro pos i hrun hi
    have hc : cond (input.getD pos 0) = true := by
      by_contra hn
      have hn2 : cond (input.getD pos 0) = false := by simpa using hn
      rw [runLen_of_not_cond cond input pos hn2] at hrun
      omega
    cases i with
    | zero => simpa using hc
    | succ i =>
      have hrun1 := (runLen_of_cond cond input pos h0 hc).2
      have e : pos + (i + 1) = (pos + 1) + i := by omega
      rw [e]
      exact ih (pos + 1) i (by omega) (by omega)

theorem runLen_eq_of (cond : Nat → Bool) (h0 : cond 0 = false) (input : GoString) :
    ∀ (m pos : Nat), (∀ i, i < m → cond (input.getD (pos + i) 0) = true) →
      cond (input.getD (pos + m) 0) = false → runLen cond input pos = m := by
  intro m
  induction m with
  | zero =>
    intro pos _ hstop
    exact runLen_of_not_cond cond input pos (by simpa using hstop)
  | succ m ih =>
    intro pos hall hstop
    have hc : cond (input.getD pos 0) = true := by simpa using hall 0 (by omega)
    rw [(runLen_of_cond cond input pos h0 hc).2]
    have e : ∀ i, pos + 1 + i = pos + (i + 1) := by intro i; omega
    rw [ih (pos + 1) (fun i hi => by rw [e]; exact hall (i + 1) (by omega))
      (by rw [e]; exact hstop)]

theorem run_eq_take (cond : Nat → Bool) (input : GoString) (pos : Nat) :
    (input.drop pos).takeWhile cond = (input.drop pos).take (runLen cond input pos) := by
  have hp : ((input.drop pos).takeWhile cond) <+: input.drop pos := List.takeWhile_prefix cond
  exact List.prefix_iff_eq_take.mp hp

/-- Two inputs that carry the same bytes on a window hold the same run there,
when the run of the first input fits in the window and the byte that follows
the window in the second input stops the run as well. -/
theorem run_congr (cond : Nat → Bool) (h0 : cond 0 = false) (I J : GoString) (p q : Nat)
    (hwin : ∀ i, i < runLen cond I p → J.getD (q + i) 0 = I.getD (p + i) 0)
    (hstop : cond (J.getD (q + runLen cond I p) 0) = false) :
    runLen cond J q = runLen cond I p
      ∧ (J.drop q).takeWhile cond = (I.drop p).takeWhile cond := by
  have hall := runLen_all cond h0 I (runLen cond I p) p
  have hlen : runLen cond J q = runLen cond I p :=
    runLen_eq_of cond h0 J (runLen cond I p) q
      (fun i hi => by rw [hwin i hi]; exact hall i rfl hi) hstop
  refine ⟨hlen, ?_⟩
  rw [run_eq_take cond J q, run_eq_take cond I p, hlen]
  apply List.ext_getElem?
  intro i
  by_cases hi : i < runLen cond I p
  · have hI := hall i rfl hi
    have hnzI : I.getD (p + i) 0 ≠ 0 := by
      intro e
      rw [e, h0] at hI
      cases hI
    have hnzJ : J.getD (q + i) 0 ≠ 0 := by rw [hwin i hi]; exact hnzI
    simp only [List.getElem?_take, hi, if_true, List.getElem?_drop]
    rw [getD_pos_of_ne_zero I _ hnzI, getD_pos_of_ne_zero J _ hnzJ, hwin i hi]
  · simp only [List.getElem?_take, hi, if_false]

/-- One call of `NextToken` from the cursor index `pos`, by the byte `c` found
at the index `p` where skipping whitespace stops: the token returned and the
new cursor index, arm by arm. -/
theorem NextToken_cases (I : GoString) (pos p : Nat)
    (hp : p = pos + runLen isWhitespace I pos) :
    isWhitespace (I.getD p 0) = false ∧
    ((I.getD p 0 = 61 ∧ I.getD (p + 1) 0 = 61 ∧ (cursorAt I pos).NextToken
        = some ({ Typ := token.EQ, Literal := [61, 61] }, cursorAt I (p + 2)))
    ∨ (I.getD p 0 = 61 ∧ I.getD (p + 1) 0 ≠ 61 ∧ (cursorAt I pos).NextToken
        = some ({ Typ := token.ASSIGN, Literal := [61] }, cursorAt I (p + 1)))
    ∨ (I.getD p 0 = 33 ∧ I.getD (p + 1) 0 = 61 ∧ (cursorAt I pos).NextToken
        = some ({ Typ := token.NOT_EQ, Literal := [33, 61] }, cursorAt I (p + 2)))
    ∨ (I.getD p 0 = 33 ∧ I.getD (p + 1) 0 ≠ 61 ∧ (cursorAt I pos).NextToken
        = some ({ Typ := token.BANG, Literal := [33] }, cursorAt I (p + 1)))
    ∨ (I.getD p 0 = 0 ∧ (cursorAt I pos).NextToken
        = some ({ Typ := token.EOF, Literal := [] }, cursorAt I (p + 1)))
    ∨ (∃ kind, (I.getD p 0, kind) ∈ singleCharKinds ∧ (cursorAt I pos).NextToken
        = some ({ Typ := kind, Literal := [I.getD p 0] }, cursorAt I (p + 1)))
    ∨ (isLetter (I.getD p 0) = true ∧ (cursorAt I pos).NextToken
        = some ({ Typ := token.LookupIdent ((I.drop p).takeWhile isLetter),
                  Literal := (I.drop p).takeWhile isLetter },
            cursorAt I (p + runLen isLetter I p)))
    ∨ (isDigit (I.getD p 0) = true ∧ (cursorAt I pos).NextToken
        = some ({ Typ := token.INT, Literal := (I.drop p).takeWhile isDigit },
            cursorAt I (p + runLen isDigit I p)))
    ∨ (I.getD p 0 ∉ caseBytes ∧ isLetter (I.getD p 0) = false ∧ isDigit (I.getD p 0) = false
        ∧ (cursorAt I pos).NextToken
          = some (newToken token.ILLEGAL (I.getD p 0), cursorAt I (p + 1)))) := by
  subst hp
  refine ⟨run_stops isWhitespace isWhitespace_zero I _ pos (Nat.le_refl _), ?_⟩
  rw [NextToken_cursorAt]
  generalize pos + runLen isWhitespace I pos = p
  by_cases hcase : I.getD p 0 ∈ caseBytes
  · rcases caseBytes_cases _ hcase with h | h | h | ⟨kind, h⟩
    · by_cases hn : I.getD (p + 1) 0 = 61
      · exact Or.inl ⟨h, hn, by rw [switchOnCh_assign I p h, if_pos hn]⟩
      · exact Or.inr (Or.inl ⟨h, hn, by rw [switchOnCh_assign I p h, if_neg hn]⟩)
    · by_cases hn : I.getD (p + 1) 0 = 61
      · exact Or.inr (Or.inr (Or.inl ⟨h, hn, by rw [switchOnCh_bang I p h, if_pos hn]⟩))
      · exact Or.inr (Or.inr (Or.inr (Or.inl
          ⟨h, hn, by rw [switchOnCh_bang I p h, if_neg hn]⟩)))
    · exact Or.inr (Or.inr (Or.inr (Or.inr (Or.inl ⟨h, switchOnCh_eof I p h⟩))))
    · exact Or.inr (Or.inr (Or.inr (Or.inr (Or.inr (Or.inl
        ⟨kind, h, switchOnCh_single I p _ kind h rfl⟩)))))
  · by_cases hl : isLetter (I.getD p 0) = true
    · exact Or.inr (Or.inr (Or.inr (Or.inr (Or.inr (Or.inr (Or.inl
        ⟨hl, switchOnCh_letter I p hl⟩))))))
    · have hl2 : isLetter (I.getD p 0) = false := by simpa using hl
      by_cases hd : isDigit (I.getD p 0) = true
      · exact Or.inr (Or.inr (Or.inr (Or.inr (Or.inr (Or.inr (Or.inr (Or.inl
          ⟨hd, switchOnCh_digit I p hd⟩)))))))
      · have hd2 : isDigit (I.getD p 0) = false := by simpa using hd
        exact Or.inr (Or.inr (Or.inr (Or.inr (Or.inr (Or.inr (Or.inr (Or.inr
          ⟨hcase, hl2, hd2, switchOnCh_illegal I p hcase hl2 hd2⟩)))))))

/-- Locality of `NextToken`: a call that moves the cursor of `I` from `pos` to
`pos1` returns the same token, and moves the cursor as far, on any input `J`
from any index `q` where `J` carries the bytes that `I` carries between `pos`
and `pos1`, provided the byte of `J` after them ends a token whenever the byte
of `I` at `pos1` does (it is `=`, a letter or a digit only if that one is). -/
theorem NextToken_local (I J : GoString) (pos q pos1 : Nat) (tok : token.Token)
    (h : (cursorAt I pos).NextToken = some (tok, cursorAt I pos1))
    (hwin : ∀ i, i < pos1 - pos → J.getD (q + i) 0 = I.getD (pos + i) 0)
    (hstop : (J.getD (q + (pos1 - pos)) 0 = 61 → I.getD pos1 0 = 61)
      ∧ (isLetter (J.getD (q + (pos1 - pos)) 0) = true → isLetter (I.getD pos1 0) = true)
      ∧ (isDigit (J.getD (q + (pos1 - pos)) 0) = true → isDigit (I.getD pos1 0) = true)) :
    (cursorAt J q).NextToken = some (tok, cursorAt J (q + (pos1 - pos))) := by
  obtain ⟨r, hr⟩ : ∃ r, r = runLen isWhitespace I pos := ⟨_, rfl⟩
  have hprog : pos + r < pos1 := by
    obtain ⟨t, p1, hn, hlt⟩ := NextToken_progress I pos
    rw [hn] at h
    have e := cursorAt_inj I _ _ (congrArg Prod.snd (Option.some.inj h))
    omega
  obtain ⟨n, hn⟩ : ∃ n, pos1 = pos + r + n := ⟨pos1 - (pos + r), by omega⟩
  subst hn
  have hsub : pos + r + n - pos = r + n := by omega
  rw [hsub] at hwin hstop ⊢
  have hw : ∀ i, i < n → J.getD (q + r + i) 0 = I.getD (pos + r + i) 0 := by
    intro i hi
    have := hwin (r + i) (by omega)
    simpa only [Nat.add_assoc] using this
  have hw0 : J.getD (q + r) 0 = I.getD (pos + r) 0 := hw 0 (by omega)
  have hs : (J.getD (q + r + n) 0 = 61 → I.getD (pos + r + n) 0 = 61)
      ∧ (isLetter (J.getD (q + r + n) 0) = true → isLetter (I.getD (pos + r + n) 0) = true)
      ∧ (isDigit (J.getD (q + r + n) 0) = true → isDigit (I.getD (pos + r + n) 0) = true) := by
    simpa only [Nat.add_assoc] using hstop
  obtain ⟨hws, hcases⟩ := NextToken_cases I pos (pos + r) (by rw [hr])
  have hrJ : runLen isWhitespace J q = r := by
    apply runLen_eq_of isWhitespace isWhitespace_zero J r q
    · intro i hi
      rw [hwin i (by omega)]
      exact runLen_all isWhitespace isWhitespace_zero I r pos i hr.symm hi
    · rw [hw0]
      exact hws
  have hgoal : q + (r + n) = q + r + n := by omega
  rw [hgoal, NextToken_cursorAt, hrJ]
  rcases hcases with ⟨hc, hx, hI⟩ | ⟨hc, hx, hI⟩ | ⟨hc, hx, hI⟩ | ⟨hc, hx, hI⟩ | ⟨hc, hI⟩
    | ⟨kind, hk, hI⟩ | ⟨hl, hI⟩ | ⟨hd, hI⟩ | ⟨hcase, hl, hd, hI⟩
  · rw [hI] at h
    obtain ⟨ht, hp⟩ := Prod.mk.inj (Option.some.inj h)
    have hn2 : n = 2 := by have := cursorAt_inj I _ _ hp; omega
    subst hn2 ht
    have h1 : J.getD (q + r + 1) 0 = 61 := by rw [hw 1 (by omega), hx]
    rw [switchOnCh_assign J (q + r) (by rw [hw0, hc]), if_pos h1]
  · rw [hI] at h
    obtain ⟨ht, hp⟩ := Prod.mk.inj (Option.some.inj h)
    have hn2 : n = 1 := by have := cursorAt_inj I _ _ hp; omega
    subst hn2 ht
    have h1 : J.getD (q + r + 1) 0 ≠ 61 := fun e => hx (hs.1 e)
    rw [switchOnCh_assign J (q + r) (by rw [hw0, hc]), if_neg h1]
  · rw [hI] at h
    obtain ⟨ht, hp⟩ := Prod.mk.inj (Option.some.inj h)
    have hn2 : n = 2 := by have := cursorAt_inj I _ _ hp; omega
    subst hn2 ht
    have h1 : J.getD (q + r + 1) 0 = 61 := by rw [hw 1 (by omega), hx]
    rw [switchOnCh_bang J (q + r) (by rw [hw0, hc]), if_pos h1]
  · rw [hI] at h
    obtain ⟨ht, hp⟩ := Prod.mk.inj (Option.some.inj h)
    have hn2 : n = 1 := by have := cursorAt_inj I _ _ hp; omega
    subst hn2 ht
    have h1 : J.getD (q + r + 1) 0 ≠ 61 := fun e => hx (hs.1 e)
    rw [switchOnCh_bang J (q + r) (by rw [hw0, hc]), if_neg h1]
  · rw [hI] at h
    obtain ⟨ht, hp⟩ := Prod.mk.inj (Option.some.inj h)
    have hn2 : n = 1 := by have := cursorAt_inj I _ _ hp; omega
    subst hn2 ht
    rw [switchOnCh_eof J (q + r) (by rw [hw0, hc])]
  · rw [hI] at h
    obtain ⟨ht, hp⟩ := Prod.mk.inj (Option.some.inj h)
    have hn2 : n = 1 := by have := cursorAt_inj I _ _ hp; omega
    subst hn2 ht
    rw [switchOnCh_single J (q + r) _ kind hk hw0]
  · rw [hI] at h
    obtain ⟨ht, hp⟩ := Prod.mk.inj (Option.some.inj h)
    have hn2 : n = runLen isLetter I (pos + r) := by have := cursorAt_inj I _ _ hp; omega
    subst ht
    have hstopI := run_stops isLetter isLetter_zero I _ (pos + r) (Nat.le_refl _)
    rw [← hn2] at hstopI
    have hstopJ : isLetter (J.getD (q + r + runLen isLetter I (pos + r)) 0) = false := by
      rw [← hn2]
      cases hb : isLetter (J.getD (q + r + n) 0) with
      | false => rfl
      | true => rw [hs.2.1 hb] at hstopI; cases hstopI
    obtain ⟨hlen, hrun⟩ := run_congr isLetter isLetter_zero I J (pos + r) (q + r)
      (fun i hi => hw i (by omega)) hstopJ
    rw [switchOnCh_letter J (q + r) (by rw [hw0, hl]), hrun, hlen, ← hn2]
  · rw [hI] at h
    obtain ⟨ht, hp⟩ := Prod.mk.inj (Option.some.inj h)
    have hn2 : n = runLen isDigit I (pos + r) := by have := cursorAt_inj I _ _ hp; omega
    subst ht
    have hstopI := run_stops isDigit isDigit_zero I _ (pos + r) (Nat.le_refl _)
    rw [← hn2] at hstopI
    have hstopJ : isDigit (J.getD (q + r + runLen isDigit I (pos + r)) 0) = false := by
      rw [← hn2]
      cases hb : isDigit (J.getD (q + r + n) 0) with
      | false => rfl
      | true => rw [hs.2.2 hb] at hstopI; cases hstopI
    obtain ⟨hlen, hrun⟩ := run_congr isDigit isDigit_zero I J (pos + r) (q + r)
      (fun i hi => hw i (by omega)) hstopJ
    rw [switchOnCh_digit J (q + r) (by rw [hw0, hd]), hrun, hlen, ← hn2]
  · rw [hI] at h
    obtain ⟨ht, hp⟩ := Prod.mk.inj (Option.some.inj h)
    have hn2 : n = 1 := by have := cursorAt_inj I _ _ hp; omega
    subst hn2 ht
    rw [switchOnCh_illegal J (q + r) (by rw [hw0]; exact hcase) (by rw [hw0, hl])
      (by rw [hw0, hd]), hw0]

theorem tokensUntilEOF_succ (l l1 : Lexer) (tok : token.Token) (budget : Nat)
    (h : l.NextToken = some (tok, l1)) :
    Lexer.tokensUntilEOF (budget + 1) l
      = if tok.Typ = token.EOF then some [tok]
        else (Lexer.tokensUntilEOF budget l1).map (fun toks => tok :: toks) := by
  simp only [Lexer.tokensUntilEOF, h]
  split_ifs
  · rfl
  · cases Lexer.tokensUntilEOF budget l1 with
    | none => rfl
    | some toks => rfl

/-- A token sequence found within a budget is found within every larger budget. -/
theorem tokensUntilEOF_mono :
    ∀ (budget : Nat) (l : Lexer) (toks : List token.Token),
      Lexer.tokensUntilEOF budget l = some toks →
      ∀ more : Nat, Lexer.tokensUntilEOF (budget + more) l = some toks := by
  intro budget
  induction budget with
  | zero =>
    intro l toks h
    simp [Lexer.tokensUntilEOF] at h
  | succ b ih =>
    intro l toks h more
    have e : b + 1 + more = (b + more) + 1 := by omega
    rw [e]
    cases hn : l.NextToken with
    | none => simp [Lexer.tokensUntilEOF, hn] at h
    | some r =>
      obtain ⟨tok, l1⟩ := r
      rw [tokensUntilEOF_succ l l1 tok _ hn] at h ⊢
      by_cases he : tok.Typ = token.EOF
      · rw [if_pos he] at h ⊢
        exact h
      · rw [if_neg he] at h ⊢
        cases hrest : Lexer.tokensUntilEOF b l1 with
        | none => rw [hrest] at h; simp at h
        | some rest =>
          rw [hrest] at h
          rw [ih l1 rest hrest more]
          exact h

theorem drop_add (input : GoString) (p n : Nat) :
    input.drop (p + n) = (input.drop p).drop n := by
  rw [List.drop_drop]

/-- Two states whose unread inputs are equal return the same token, and their
unread inputs are equal again afterwards. -/
theorem NextToken_same_rest (I J : GoString) (p q : Nat) (h : I.drop p = J.drop q) :
    ∃ tok n, (cursorAt I p).NextToken = some (tok, cursorAt I (p + n))
      ∧ (cursorAt J q).NextToken = some (tok, cursorAt J (q + n))
      ∧ I.drop (p + n) = J.drop (q + n)
      ∧ runLen isWhitespace I p < n := by
  obtain ⟨tok, pos1, hn, hlt⟩ := NextToken_progress I p
  have hwin : ∀ i, J.getD (q + i) 0 = I.getD (p + i) 0 := by
    intro i
    rw [← getD_drop J q i, ← getD_drop I p i, h]
  obtain ⟨n, hpos⟩ : ∃ n, pos1 = p + n := ⟨pos1 - p, by omega⟩
  subst hpos
  have hJ := NextToken_local I J p q (p + n) tok hn (fun i _ => hwin i)
    (by
      have e : p + n - p = n := by omega
      rw [e, hwin n]
      exact ⟨fun x => x, fun x => x, fun x => x⟩)
  have e : p + n - p = n := by omega
  rw [e] at hJ
  refine ⟨tok, n, hn, hJ, ?_, by omega⟩
  rw [drop_add, drop_add, h]

/-- Two states whose unread inputs are equal produce the same token sequence. -/
theorem tokensUntilEOF_same_rest (I J : GoString) :
    ∀ (budget p q : Nat), I.drop p = J.drop q →
      Lexer.tokensUntilEOF budget (cursorAt I p) = Lexer.tokensUntilEOF budget (cursorAt J q) := by
  intro budget
  induction budget with
  | zero => intro p q _; rfl
  | succ b ih =>
    intro p q h
    obtain ⟨tok, n, hI, hJ, hrest, _⟩ := NextToken_same_rest I J p q h
    rw [tokensUntilEOF_succ _ _ tok b hI, tokensUntilEOF_succ _ _ tok b hJ, ih _ _ hrest]

theorem NextToken_eof_of (I : GoString) (pos pos1 : Nat) (tok : token.Token)
    (h : (cursorAt I pos).NextToken = some (tok, cursorAt I pos1)) :
    (tok.Typ = token.EOF → tok = { Typ := token.EOF, Literal := [] }
        ∧ I.getD (pos + runLen isWhitespace I pos) 0 = 0)
      ∧ (tok.Typ ≠ token.EOF → I.getD (pos + runLen isWhitespace I pos) 0 ≠ 0
        ∧ pos + runLen isWhitespace I pos < I.length) := by
  have hsw := h
  rw [NextToken_cursorAt] at hsw
  obtain ⟨h1, h2⟩ := switchOnCh_typ_eof I _ tok _ hsw
  constructor
  · intro he
    refine ⟨?_, h1.mp he⟩
    cases tok with
    | mk ty lit =>
      simp only at he
      have hl := h2 he
      simp only at hl
      subst he hl
      rfl
  · intro hne
    have hnz : I.getD (pos + runLen isWhitespace I pos) 0 ≠ 0 := fun e => hne (h1.mpr e)
    refine ⟨hnz, ?_⟩
    by_contra hge
    exact hnz ((getD_eq_zero_iff I _).mpr (Or.inl (by omega)))

/-- Induction along the token sequence of an input: a property of a cursor
index and the tokens before `EOF` that holds with no token where `NextToken`
meets the sentinel, and is carried over one token that is not `EOF`, holds of
the sequence `tokensUntilEOF` returns; and that sequence is returned within
one call per unread byte and one more. -/
theorem tokensUntilEOF_induct (I : GoString) (P : Nat → List token.Token → Prop)
    (hend : ∀ pos, I.getD (pos + runLen isWhitespace I pos) 0 = 0 → P pos [])
    (hstep : ∀ pos pos1 tok toks, (cursorAt I pos).NextToken = some (tok, cursorAt I pos1) →
      tok.Typ ≠ token.EOF → P pos1 toks → P pos (tok :: toks)) :
    ∀ (budget pos : Nat), I.length - pos < budget →
      ∃ toks, Lexer.tokensUntilEOF budget (cursorAt I pos)
          = some (toks ++ [{ Typ := token.EOF, Literal := [] }])
        ∧ (∀ t ∈ toks, t.Typ ≠ token.EOF) ∧ P pos toks := by
  intro budget
  induction budget with
  | zero => intro pos h; omega
  | succ b ih =>
    intro pos hb
    obtain ⟨tok, pos1, hn, hlt⟩ := NextToken_progress I pos
    obtain ⟨h1, h2⟩ := NextToken_eof_of I pos pos1 tok hn
    rw [tokensUntilEOF_succ _ _ tok b hn]
    by_cases he : tok.Typ = token.EOF
    · obtain ⟨ht, hz⟩ := h1 he
      rw [if_pos he, ht]
      exact ⟨[], rfl, fun t ht => absurd ht (List.not_mem_nil t), hend pos hz⟩
    · obtain ⟨_, hlen⟩ := h2 he
      obtain ⟨toks, hrest, hall, hP⟩ := ih pos1 (by omega)
      rw [if_neg he, hrest]
      refine ⟨tok :: toks, rfl, ?_, hstep pos pos1 tok toks hn he hP⟩
      intro t ht
      rcases List.mem_cons.mp ht with e | e
      · rw [e]; exact he
      · exact hall t e

/-- The tokens of `tokensUntilEOF` are the tokens of the successive calls. -/
theorem tokensUntilEOF_calls (I : GoString) :
    ∀ (budget k pos : Nat) (out : List token.Token),
      stateAfter I k = some (cursorAt I pos) →
      Lexer.tokensUntilEOF budget (cursorAt I pos) = some out →
      ∀ i, i < out.length → tokenOfCall I (k + i + 1) = out[i]? := by
  intro budget
  induction budget with
  | zero =>
    intro k pos out _ h
    simp [Lexer.tokensUntilEOF] at h
  | succ b ih =>
    intro k pos out hs h i hi
    obtain ⟨tok, pos1, hn, _⟩ := NextToken_progress I pos
    have hcall : tokenOfCall I (k + 1) = some tok := by
      rw [tokenOfCall_succ I k pos hs, hn]
      rfl
    have hs1 : stateAfter I (k + 1) = some (cursorAt I pos1) := by
      simp only [stateAfter, hs, hn]
    rw [tokensUntilEOF_succ _ _ tok b hn] at h
    by_cases he : tok.Typ = token.EOF
    · rw [if_pos he] at h
      cases h
      have hi0 : i = 0 := by simpa using hi
      subst hi0
      simpa using hcall
    · rw [if_neg he] at h
      cases hrest : Lexer.tokensUntilEOF b (cursorAt I pos1) with
      | none => rw [hrest] at h; simp at h
      | some rest =>
        rw [hrest] at h
        simp only [Option.map_some', Option.some.injEq] at h
        subst h
        cases i with
        | zero => simpa using hcall
        | succ i =>
          have := ih (k + 1) pos1 rest hs1 hrest i (by simpa using hi)
          have e : k + (i + 1) + 1 = k + 1 + i + 1 := by omega
          rw [e, this]
          simp

theorem isLetter_not_whitespace (c : Nat) (h : isLetter c = true) : isWhitespace c = false := by
  simp only [isLetter, Bool.or_eq_true, Bool.and_eq_true, decide_eq_true_eq, beq_iff_eq] at h
  cases hw : isWhitespace c with
  | false => rfl
  | true =>
    simp only [isWhitespace, Bool.or_eq_true, beq_iff_eq] at hw
    omega

theorem isDigit_not_whitespace (c : Nat) (h : isDigit c = true) : isWhitespace c = false := by
  simp only [isDigit, Bool.and_eq_true, decide_eq_true_eq] at h
  cases hw : isWhitespace c with
  | false => rfl
  | true =>
    simp only [isWhitespace, Bool.or_eq_true, beq_iff_eq] at hw
    omega

theorem isWhitespace_stops (c : Nat) (h : isWhitespace c = true) :
    c ≠ 61 ∧ isLetter c = false ∧ isDigit c = false ∧ c ≠ 0 := by
  refine ⟨?_, ?_, ?_, ?_⟩
  · intro e; rw [e] at h; revert h; decide
  · cases hl : isLetter c with
    | false => rfl
    | true => rw [isLetter_not_whitespace c hl] at h; cases h
  · cases hd : isDigit c with
    | false => rfl
    | true => rw [isDigit_not_whitespace c hd] at h; cases h
  · intro e; rw [e] at h; revert h; decide

theorem byteToString_not_whitespace (c : Nat) (h : isWhitespace c = false) :
    ∀ b ∈ byteToString c, isWhitespace b = false := by
  intro b hb
  unfold byteToString at hb
  by_cases hlt : c < 128
  · rw [if_pos hlt] at hb
    rw [List.mem_singleton.mp hb]
    exact h
  · rw [if_neg hlt] at hb
    cases hw : isWhitespace b with
    | false => rfl
    | true =>
      simp only [isWhitespace, Bool.or_eq_true, beq_iff_eq] at hw
      simp only [List.mem_cons, List.mem_singleton, List.not_mem_nil, or_false] at hb
      omega

theorem singleCharKinds_lt (c : Nat) (kind : token.TokenType)
    (hk : (c, kind) ∈ singleCharKinds) : c < 128 := by
  simp only [singleCharKinds, List.mem_cons, List.mem_singleton, List.not_mem_nil, or_false,
    Prod.mk.injEq] at hk
  omega

/-- No byte of the text of a token returned by `NextToken` is whitespace. -/
theorem NextToken_literal_not_whitespace (I : GoString) (pos : Nat) (tok : token.Token)
    (l2 : Lexer) (h : (cursorAt I pos).NextToken = some (tok, l2)) :
    ∀ b ∈ tok.Literal, isWhitespace b = false := by
  obtain ⟨hws, hcases⟩ := NextToken_cases I pos _ rfl
  rcases hcases with ⟨hc, hx, hI⟩ | ⟨hc, hx, hI⟩ | ⟨hc, hx, hI⟩ | ⟨hc, hx, hI⟩ | ⟨hc, hI⟩
    | ⟨kind, hk, hI⟩ | ⟨hl, hI⟩ | ⟨hd, hI⟩ | ⟨hcase, hl, hd, hI⟩ <;>
    (rw [hI] at h
     obtain ⟨ht, _⟩ := Prod.mk.inj (Option.some.inj h)
     subst ht)
  · decide
  · decide
  · decide
  · decide
  · intro b hb; cases hb
  · intro b hb
    rw [List.mem_singleton.mp hb]
    exact hws
  · intro b hb
    exact isLetter_not_whitespace b (List.mem_takeWhile_imp hb)
  · intro b hb
    exact isDigit_not_whitespace b (List.mem_takeWhile_imp hb)
  · exact byteToString_not_whitespace _ hws

theorem drop_eq_cons_of_ne_zero (I : GoString) (p : Nat) (h : I.getD p 0 ≠ 0) :
    I.drop p = I.getD p 0 :: I.drop (p + 1) := by
  apply drop_eq_getD_cons
  by_contra hge
  exact h ((getD_eq_zero_iff I p).mpr (Or.inl (by omega)))

/-- A token that is not `EOF`, met on a byte below `0x80`, has for text exactly
the input between the index where skipping whitespace stopped and the new
cursor index. -/
theorem NextToken_literal_consumed (I : GoString) (pos pos1 : Nat) (tok : token.Token)
    (h : (cursorAt I pos).NextToken = some (tok, cursorAt I pos1))
    (hne : tok.Typ ≠ token.EOF)
    (hascii : I.getD (pos + runLen isWhitespace I pos) 0 < 128) :
    I.drop (pos + runLen isWhitespace I pos) = tok.Literal ++ I.drop pos1 := by
  obtain ⟨hws, hcases⟩ := NextToken_cases I pos _ rfl
  generalize pos + runLen isWhitespace I pos = p at hws hcases hascii ⊢
  rcases hcases with ⟨hc, hx, hI⟩ | ⟨hc, hx, hI⟩ | ⟨hc, hx, hI⟩ | ⟨hc, hx, hI⟩ | ⟨hc, hI⟩
    | ⟨kind, hk, hI⟩ | ⟨hl, hI⟩ | ⟨hd, hI⟩ | ⟨hcase, hl, hd, hI⟩ <;>
    (rw [hI] at h
     obtain ⟨ht, hp⟩ := Prod.mk.inj (Option.some.inj h)
     have hpos := cursorAt_inj I _ _ hp
     subst ht hpos)
  · have h0 : I.getD p 0 ≠ 0 := by rw [hc]; decide
    have h1 : I.getD (p + 1) 0 ≠ 0 := by rw [hx]; decide
    rw [drop_eq_cons_of_ne_zero I p h0, drop_eq_cons_of_ne_zero I (p + 1) h1, hc, hx]
    rfl
  · have h0 : I.getD p 0 ≠ 0 := by rw [hc]; decide
    rw [drop_eq_cons_of_ne_zero I p h0, hc]
    rfl
  · have h0 : I.getD p 0 ≠ 0 := by rw [hc]; decide
    have h1 : I.getD (p + 1) 0 ≠ 0 := by rw [hx]; decide
    rw [drop_eq_cons_of_ne_zero I p h0, drop_eq_cons_of_ne_zero I (p + 1) h1, hc, hx]
    rfl
  · have h0 : I.getD p 0 ≠ 0 := by rw [hc]; decide
    rw [drop_eq_cons_of_ne_zero I p h0, hc]
    rfl
  · exact absurd rfl hne
  · have h0 : I.getD p 0 ≠ 0 := (singleCharKinds_ne_EOF _ kind hk).2
    rw [drop_eq_cons_of_ne_zero I p h0]
    rfl
  · exact run_split isLetter I p
  · exact run_split isDigit I p
  · have h0 : I.getD p 0 ≠ 0 := by
      intro e
      rw [e] at hcase
      exact hcase (by decide)
    rw [drop_eq_cons_of_ne_zero I p h0]
    simp only [newToken, byteToString, hascii, if_true]
    rfl

/-! ## The claims on the keyword table, the state and token sequences -/

/-- C11: for every string `s`, `LookupIdent(s)` is `LET` when `s` is exactly
"let", `FUNCTION` when `s` is exactly "fn", and `IDENT` for every other string,
among them strings that only start with a keyword ("letx", "fnx"), that are a
proper prefix of one ("le", the empty string) or that differ in case ("LET",
"Let", "FN"). -/
theorem LookupIdent_exact (s : GoString) :
    token.LookupIdent s
        = (if s = bytes "let" then token.LET
           else if s = bytes "fn" then token.FUNCTION else token.IDENT)
      ∧ token.LookupIdent (bytes "let") = token.LET
      ∧ token.LookupIdent (bytes "fn") = token.FUNCTION
      ∧ token.LookupIdent (bytes "letx") = token.IDENT
      ∧ token.LookupIdent (bytes "fnx") = token.IDENT
      ∧ token.LookupIdent (bytes "le") = token.IDENT
      ∧ token.LookupIdent [] = token.IDENT
      ∧ token.LookupIdent (bytes "LET") = token.IDENT
      ∧ token.LookupIdent (bytes "Let") = token.IDENT
      ∧ token.LookupIdent (bytes "FN") = token.IDENT := by
  refine ⟨?_, by decide, by decide, by decide, by decide, by decide, by decide, by decide,
    by decide, by decide⟩
  rw [LookupIdent_eq]
  by_cases h1 : s = bytes "fn"
  · subst h1
    decide
  · by_cases h2 : s = bytes "let"
    · subst h2
      decide
    · simp only [h1, h2, if_false]

/-- C13: the text of every token returned by any call of `NextToken` on
`New(input)` contains no space, tab, newline or carriage return. -/
theorem token_text_no_whitespace (input : GoString) (k : Nat) (tok : token.Token)
    (hcall : tokenOfCall input k = some tok) :
    ∀ b ∈ tok.Literal, b ≠ 32 ∧ b ≠ 9 ∧ b ≠ 10 ∧ b ≠ 13 := by
  cases k with
  | zero => simp [tokenOfCall] at hcall
  | succ k =>
    obtain ⟨pos, hs, _⟩ := stateAfter_cursorAt input k
    rw [tokenOfCall_succ input k pos hs] at hcall
    obtain ⟨t, pos1, hn, _⟩ := NextToken_progress input pos
    rw [hn] at hcall
    simp only [Option.map_some', Option.some.injEq] at hcall
    subst hcall
    intro b hb
    have hw := NextToken_literal_not_whitespace input pos t _ hn b hb
    simp only [isWhitespace, Bool.or_eq_false_iff, beq_eq_false_iff_ne, ne_eq] at hw
    tauto

/-- Witness of C13 on the input " a\t== \r\n@": the third call returns `ILLEGAL "@"`,
and the three tokens before `EOF` carry no whitespace. -/
theorem token_text_no_whitespace_witness :
    tokenOfCall [32, 97, 9, 61, 61, 32, 13, 10, 64] 3
        = some { Typ := token.ILLEGAL, Literal := bytes "@" }
    ∧ (∀ b ∈ ({ Typ := token.ILLEGAL, Literal := bytes "@" } : token.Token).Literal,
        b ≠ 32 ∧ b ≠ 9 ∧ b ≠ 10 ∧ b ≠ 13)
    ∧ tokenize [32, 97, 9, 61, 61, 32, 13, 10, 64]
        = some [{ Typ := token.IDENT, Literal := bytes "a" },
                { Typ := token.EQ, Literal := bytes "==" },
                { Typ := token.ILLEGAL, Literal := bytes "@" },
                { Typ := token.EOF, Literal := [] }] :=
  ⟨by decide,
    token_text_no_whitespace [32, 97, 9, 61, 61, 32, 13, 10, 64] 3
      { Typ := token.ILLEGAL, Literal := bytes "@" } (by decide),
    by decide⟩

theorem getD_append_left (a x : GoString) (i : Nat) (h : i < a.length) :
    (a ++ x).getD i 0 = a.getD i 0 := by
  simp only [List.getD_eq_getElem?_getD, List.getElem?_append_left h]

theorem getD_append_right (a x : GoString) (i : Nat) :
    (a ++ x).getD (a.length + i) 0 = x.getD i 0 := by
  rw [List.getD_eq_getElem?_getD, List.getD_eq_getElem?_getD,
    List.getElem?_append_right (Nat.le_add_right _ _)]
  simp

theorem runLen_skip (I : GoString) (pos m : Nat)
    (h : ∀ i, i < m → isWhitespace (I.getD (pos + i) 0) = true) :
    runLen isWhitespace I pos = m + runLen isWhitespace I (pos + m) := by
  apply runLen_eq_of isWhitespace isWhitespace_zero
  · intro i hi
    by_cases him : i < m
    · exact h i him
    · have e : pos + i = pos + m + (i - m) := by omega
      rw [e]
      exact runLen_all isWhitespace isWhitespace_zero I _ (pos + m) (i - m) rfl (by omega)
  · have e : pos + (m + runLen isWhitespace I (pos + m))
        = pos + m + runLen isWhitespace I (pos + m) := by omega
    rw [e]
    exact run_stops isWhitespace isWhitespace_zero I _ (pos + m) (Nat.le_refl _)

/-- With whitespace only between the indices `pos` and `pos + m`, `NextToken`
returns the same from the cursor on `pos` as from the cursor on `pos + m`. -/
theorem NextToken_skip (I : GoString) (pos m : Nat)
    (h : ∀ i, i < m → isWhitespace (I.getD (pos + i) 0) = true) :
    (cursorAt I pos).NextToken = (cursorAt I (pos + m)).NextToken := by
  rw [NextToken_cursorAt, NextToken_cursorAt, runLen_skip I pos m h]
  have e : pos + (m + runLen isWhitespace I (pos + m))
      = pos + m + runLen isWhitespace I (pos + m) := by omega
  rw [e]

theorem tokensUntilEOF_congr (l1 l2 : Lexer) (h : l1.NextToken = l2.NextToken) (budget : Nat) :
    Lexer.tokensUntilEOF budget l1 = Lexer.tokensUntilEOF budget l2 := by
  cases budget with
  | zero => rfl
  | succ b => simp only [Lexer.tokensUntilEOF, h]

/-- A call on `a ++ b` that ends at or before the end of `a` returns the same
token and ends on the same index on `a ++ w ++ b`, for whitespace `w`. -/
theorem NextToken_before_split (a w b : GoString) (hw : ∀ c ∈ w, isWhitespace c = true)
    (pos pos1 : Nat) (tok : token.Token)
    (h : (cursorAt (a ++ b) pos).NextToken = some (tok, cursorAt (a ++ b) pos1))
    (hle : pos1 ≤ a.length) :
    (cursorAt (a ++ w ++ b) pos).NextToken = some (tok, cursorAt (a ++ w ++ b) pos1) := by
  have hprog : pos < pos1 := by
    obtain ⟨t, p1, hn, hlt⟩ := NextToken_progress (a ++ b) pos
    rw [hn] at h
    have e := cursorAt_inj (a ++ b) _ _ (congrArg Prod.snd (Option.some.inj h))
    omega
  have hloc := NextToken_local (a ++ b) (a ++ w ++ b) pos pos pos1 tok h
    (fun i hi => by
      rw [List.append_assoc, getD_append_left a _ _ (by omega),
        getD_append_left a _ _ (by omega)])
    (by
      have e : pos + (pos1 - pos) = pos1 := by omega
      rw [e]
      by_cases hlt : pos1 < a.length
      · rw [List.append_assoc, getD_append_left a _ _ hlt, getD_append_left a _ _ hlt]
        exact ⟨fun x => x, fun x => x, fun x => x⟩
      · have hp : pos1 = a.length + 0 := by omega
        cases w with
        | nil =>
          rw [List.append_nil]
          exact ⟨fun x => x, fun x => x, fun x => x⟩
        | cons c w1 =>
          have hc : ((a ++ c :: w1 ++ b).getD pos1 0) = c := by
            rw [hp, List.append_assoc, getD_append_right]
            rfl
          obtain ⟨h1, h2, h3, _⟩ := isWhitespace_stops c (hw c (List.mem_cons_self c w1))
          rw [hc]
          refine ⟨fun x => absurd x h1, fun x => ?_, fun x => ?_⟩
          · rw [h2] at x; cases x
          · rw [h3] at x; cases x)
  have e : pos + (pos1 - pos) = pos1 := by omega
  rw [e] at hloc
  exact hloc

/-- From the split on, the token sequence of `a ++ w ++ b` is the token sequence
of `a ++ b`. -/
theorem tokensUntilEOF_at_split (a w b : GoString) (hw : ∀ c ∈ w, isWhitespace c = true)
    (budget : Nat) :
    Lexer.tokensUntilEOF budget (cursorAt (a ++ w ++ b) a.length)
      = Lexer.tokensUntilEOF budget (cursorAt (a ++ b) a.length) := by
  have hskip : (cursorAt (a ++ w ++ b) a.length).NextToken
      = (cursorAt (a ++ w ++ b) (a.length + w.length)).NextToken := by
    apply NextToken_skip
    intro i hi
    rw [List.append_assoc, getD_append_right, getD_append_left w b i hi]
    apply hw
    rw [List.getD_eq_getElem?_getD, List.getElem?_eq_getElem hi]
    exact List.getElem_mem _
  rw [tokensUntilEOF_congr _ _ hskip budget]
  apply tokensUntilEOF_same_rest
  rw [← List.length_append, List.drop_left, List.drop_left]

/-- Before the split: if `j` more calls on `a ++ b` take the cursor from `pos`
to the end of `a`, the token sequence from `pos` is the same on `a ++ w ++ b`. -/
theorem tokensUntilEOF_before_split (a w b : GoString) (hw : ∀ c ∈ w, isWhitespace c = true)
    (k : Nat) (hk : stateAfter (a ++ b) k = some (cursorAt (a ++ b) a.length)) :
    ∀ (d j pos : Nat), j + d = k → stateAfter (a ++ b) j = some (cursorAt (a ++ b) pos) →
      ∀ budget, Lexer.tokensUntilEOF budget (cursorAt (a ++ w ++ b) pos)
        = Lexer.tokensUntilEOF budget (cursorAt (a ++ b) pos) := by
  intro d
  induction d with
  | zero =>
    intro j pos hj hs budget
    have hjk : j = k := by omega
    subst hjk
    rw [hk] at hs
    have hp := cursorAt_inj (a ++ b) _ _ (Option.some.inj hs)
    rw [← hp]
    exact tokensUntilEOF_at_split a w b hw budget
  | succ d ih =>
    intro j pos hj hs budget
    cases budget with
    | zero => rfl
    | succ f =>
      obtain ⟨tok, pos1, hn, _⟩ := NextToken_progress (a ++ b) pos
      have hs1 : stateAfter (a ++ b) (j + 1) = some (cursorAt (a ++ b) pos1) := by
        simp only [stateAfter, hs, hn]
      have hle : pos1 ≤ a.length := by
        obtain ⟨pb, hb, hge, _⟩ := stateAfter_add (a ++ b) (j + 1) pos1 hs1 d
        have e : j + 1 + d = k := by omega
        rw [e, hk] at hb
        have := cursorAt_inj (a ++ b) _ _ (Option.some.inj hb)
        omega
      have hnW := NextToken_before_split a w b hw pos pos1 tok hn hle
      rw [tokensUntilEOF_succ _ _ tok f hn, tokensUntilEOF_succ _ _ tok f hnW,
        ih (j + 1) pos1 (by omega) hs1 f]

/-- C12: for all strings `a` and `b` and every string `w` of whitespace bytes
(space, tab, newline, carriage return): if, scanning `a ++ b`, the cursor after
some number `k >= 0` of `NextToken` calls is on index `len(a)` (with `k = 0`
this is the case of an empty `a`), the token sequence of `a ++ w ++ b`, kinds
and texts up to and including the first `EOF`, exists and is the token sequence
of `a ++ b`. -/
theorem whitespace_transparent (a w b : GoString) (k : Nat) (l : Lexer)
    (hw : ∀ c ∈ w, c = 32 ∨ c = 9 ∨ c = 10 ∨ c = 13)
    (hk : stateAfter (a ++ b) k = some l)
    (hpos : l.position = a.length) :
    ∃ toks, tokenize (a ++ b) = some toks ∧ tokenize (a ++ w ++ b) = some toks := by
  have hw1 : ∀ c ∈ w, isWhitespace c = true := by
    intro c hc
    simp only [isWhitespace, Bool.or_eq_true, beq_iff_eq]
    have := hw c hc
    tauto
  have hl := stateAfter_inv (a ++ b) k l hk
  rw [hpos] at hl
  subst hl
  obtain ⟨toks, hrun, _, _⟩ :=
    tokensUntilEOF_induct (a ++ b) (fun _ _ => True) (fun _ _ => trivial)
      (fun _ _ _ _ _ _ _ => trivial) ((a ++ b).length + 1) 0 (by omega)
  refine ⟨toks ++ [{ Typ := token.EOF, Literal := [] }],
    by simp only [tokenize, New_eq, hrun], ?_⟩
  have hsame := tokensUntilEOF_before_split a w b hw1 k hk k 0 0 (by omega)
    (New_eq (a ++ b)) ((a ++ b).length + 1)
  rw [hrun] at hsame
  have hmono := tokensUntilEOF_mono _ _ _ hsame w.length
  have hlen : (a ++ w ++ b).length + 1 = (a ++ b).length + 1 + w.length := by
    simp only [List.length_append]
    omega
  simp only [tokenize, New_eq, hlen, hmono]

/-- Witness of C12: "x+y" with a space inserted after "x" (the first call ends
on index `1`), and the example of the claim, "x+y" and "x + y" both give
`[IDENT "x", PLUS "+", IDENT "y", EOF]`. -/
theorem whitespace_transparent_witness :
    ((∀ c ∈ bytes " ", c = 32 ∨ c = 9 ∨ c = 10 ∨ c = 13)
      ∧ stateAfter (bytes "x" ++ bytes "+y") 1
          = some { input := bytes "x+y", position := 1, readPosition := 2, ch := 43 }
      ∧ ({ input := bytes "x+y", position := 1, readPosition := 2, ch := 43 } : Lexer).position
          = (bytes "x").length)
    ∧ (∃ toks, tokenize (bytes "x" ++ bytes "+y") = some toks
        ∧ tokenize (bytes "x" ++ bytes " " ++ bytes "+y") = some toks)
    ∧ tokenize (bytes "x+y")
        = some [{ Typ := token.IDENT, Literal := bytes "x" },
                { Typ := token.PLUS, Literal := bytes "+" },
                { Typ := token.IDENT, Literal := bytes "y" },
                { Typ := token.EOF, Literal := [] }]
    ∧ tokenize (bytes "x + y")
        = some [{ Typ := token.IDENT, Literal := bytes "x" },
                { Typ := token.PLUS, Literal := bytes "+" },
                { Typ := token.IDENT, Literal := bytes "y" },
                { Typ := token.EOF, Literal := [] }] :=
  ⟨⟨by decide, by decide, by decide⟩,
    whitespace_transparent (bytes "x") (bytes " ") (bytes "+y") 1
      { input := bytes "x+y", position := 1, readPosition := 2, ch := 43 }
      (by decide) (by decide) (by decide),
    by decide, by decide⟩

theorem takeWhile_nil_of_stop (cond : Nat → Bool) (v : GoString)
    (hstop : cond (v.getD 0 0) = false) : v.takeWhile cond = [] := by
  cases v with
  | nil => rfl
  | cons y v1 =>
    apply List.takeWhile_cons_of_neg
    have : cond y = false := hstop
    rw [this]
    simp

theorem takeWhile_append_stop (cond : Nat → Bool) (u v : GoString)
    (hall : ∀ x ∈ u, cond x = true) (hstop : cond (v.getD 0 0) = false) :
    (u ++ v).takeWhile cond = u := by
  induction u with
  | nil => exact takeWhile_nil_of_stop cond v hstop
  | cons x u1 ih =>
    rw [List.cons_append, List.takeWhile_cons_of_pos (hall x (List.mem_cons_self x u1)),
      ih (fun y hy => hall y (List.mem_cons_of_mem x hy))]

theorem runLen_append_stop (cond : Nat → Bool) (u v : GoString)
    (hall : ∀ x ∈ u, cond x = true) (hstop : cond (v.getD 0 0) = false) :
    runLen cond (u ++ v) 0 = u.length := by
  unfold runLen
  rw [List.drop_zero, takeWhile_append_stop cond u v hall hstop]

theorem tokensUntilEOF_rest (I : GoString) (u v : GoString) (h : I = u ++ v) (budget : Nat) :
    Lexer.tokensUntilEOF budget (cursorAt I u.length)
      = Lexer.tokensUntilEOF budget (cursorAt v 0) := by
  apply tokensUntilEOF_same_rest
  rw [h, List.drop_left, List.drop_zero]

/-- The token sequence of an input that starts with a run `u` of letters, not
followed by a letter: the identifier or keyword `u`, then the token sequence of
the rest. -/
theorem tokens_letters (u v : GoString) (budget : Nat) (hne : u ≠ [])
    (hall : ∀ x ∈ u, isLetter x = true) (hstop : isLetter (v.getD 0 0) = false) :
    Lexer.tokensUntilEOF (budget + 1) (cursorAt (u ++ v) 0)
      = (Lexer.tokensUntilEOF budget (cursorAt v 0)).map
          (fun toks => { Typ := token.LookupIdent u, Literal := u } :: toks) := by
  obtain ⟨x, u1, hu⟩ := List.exists_cons_of_ne_nil hne
  have hx : (u ++ v).getD 0 0 = x := by rw [hu]; rfl
  have hl : isLetter ((u ++ v).getD 0 0) = true := by
    rw [hx]
    exact hall x (by rw [hu]; exact List.mem_cons_self x u1)
  have hws : runLen isWhitespace (u ++ v) 0 = 0 :=
    runLen_of_not_cond isWhitespace (u ++ v) 0 (isLetter_not_whitespace _ hl)
  have hn : (cursorAt (u ++ v) 0).NextToken
      = some ({ Typ := token.LookupIdent u, Literal := u }, cursorAt (u ++ v) u.length) := by
    rw [NextToken_cursorAt, hws, switchOnCh_letter (u ++ v) 0 hl,
      runLen_append_stop isLetter u v hall hstop, List.drop_zero,
      takeWhile_append_stop isLetter u v hall hstop]
    simp
  rw [tokensUntilEOF_succ _ _ _ budget hn, if_neg (LookupIdent_ne_EOF u),
    tokensUntilEOF_rest (u ++ v) u v rfl]

/-- The token sequence of an input that starts with a run `u` of digits, not
followed by a digit: the integer `u`, then the token sequence of the rest. -/
theorem tokens_digits (u v : GoString) (budget : Nat) (hne : u ≠ [])
    (hall : ∀ x ∈ u, isDigit x = true) (hstop : isDigit (v.getD 0 0) = false) :
    Lexer.tokensUntilEOF (budget + 1) (cursorAt (u ++ v) 0)
      = (Lexer.tokensUntilEOF budget (cursorAt v 0)).map
          (fun toks => { Typ := token.INT, Literal := u } :: toks) := by
  obtain ⟨x, u1, hu⟩ := List.exists_cons_of_ne_nil hne
  have hx : (u ++ v).getD 0 0 = x := by rw [hu]; rfl
  have hl : isDigit ((u ++ v).getD 0 0) = true := by
    rw [hx]
    exact hall x (by rw [hu]; exact List.mem_cons_self x u1)
  have hws : runLen isWhitespace (u ++ v) 0 = 0 :=
    runLen_of_not_cond isWhitespace (u ++ v) 0 (isDigit_not_whitespace _ hl)
  have hn : (cursorAt (u ++ v) 0).NextToken
      = some ({ Typ := token.INT, Literal := u }, cursorAt (u ++ v) u.length) := by
    rw [NextToken_cursorAt, hws, switchOnCh_digit (u ++ v) 0 hl,
      runLen_append_stop isDigit u v hall hstop, List.drop_zero,
      takeWhile_append_stop isDigit u v hall hstop]
    simp
  have hne2 : token.INT ≠ token.EOF := by decide
  rw [tokensUntilEOF_succ _ _ _ budget hn, if_neg hne2,
    tokensUntilEOF_rest (u ++ v) u v rfl]

/-- Whitespace at the start of an input does not change its token sequence. -/
theorem tokens_skip (w v : GoString) (budget : Nat) (hall : ∀ x ∈ w, isWhitespace x = true) :
    Lexer.tokensUntilEOF budget (cursorAt (w ++ v) 0)
      = Lexer.tokensUntilEOF budget (cursorAt v 0) := by
  have hskip : (cursorAt (w ++ v) 0).NextToken = (cursorAt (w ++ v) (0 + w.length)).NextToken := by
    apply NextToken_skip
    intro i hi
    rw [Nat.zero_add, getD_append_left w v i hi]
    apply hall
    rw [List.getD_eq_getElem?_getD, List.getElem?_eq_getElem hi]
    exact List.getElem_mem _
  rw [tokensUntilEOF_congr _ _ hskip budget, Nat.zero_add,
    tokensUntilEOF_rest (w ++ v) w v rfl]

theorem tokens_space (v : GoString) (budget : Nat) :
    Lexer.tokensUntilEOF budget (cursorAt (32 :: v) 0)
      = Lexer.tokensUntilEOF budget (cursorAt v 0) :=
  tokens_skip [32] v budget (by decide)

/-- The token sequence of an input that starts with one of the twelve one-byte
tokens: that token, then the token sequence of the rest. -/
theorem tokens_single (c : Nat) (kind : token.TokenType) (v : GoString) (budget : Nat)
    (hk : (c, kind) ∈ singleCharKinds) :
    Lexer.tokensUntilEOF (budget + 1) (cursorAt (c :: v) 0)
      = (Lexer.tokensUntilEOF budget (cursorAt v 0)).map
          (fun toks => { Typ := kind, Literal := [c] } :: toks) := by
  have hx : (c :: v).getD 0 0 = c := rfl
  have hnw : isWhitespace c = false := by
    cases hw : isWhitespace c with
    | false => rfl
    | true =>
      exfalso
      simp only [isWhitespace, Bool.or_eq_true, beq_iff_eq] at hw
      simp only [singleCharKinds, List.mem_cons, List.mem_singleton, List.not_mem_nil, or_false,
        Prod.mk.injEq] at hk
      omega
  have hws : runLen isWhitespace (c :: v) 0 = 0 :=
    runLen_of_not_cond isWhitespace (c :: v) 0 hnw
  have hn : (cursorAt (c :: v) 0).NextToken
      = some ({ Typ := kind, Literal := [c] }, cursorAt (c :: v) [c].length) := by
    rw [NextToken_cursorAt, hws, switchOnCh_single (c :: v) 0 c kind hk hx]
    rfl
  rw [tokensUntilEOF_succ _ _ _ budget hn, if_neg (singleCharKinds_ne_EOF c kind hk).1,
    tokensUntilEOF_rest (c :: v) [c] v rfl]

/-- The token sequence of an input that starts with `=` not followed by `=`:
`ASSIGN`, then the token sequence of the rest. -/
theorem tokens_assign (v : GoString) (budget : Nat) (hstop : v.getD 0 0 ≠ 61) :
    Lexer.tokensUntilEOF (budget + 1) (cursorAt (61 :: v) 0)
      = (Lexer.tokensUntilEOF budget (cursorAt v 0)).map
          (fun toks => { Typ := token.ASSIGN, Literal := [61] } :: toks) := by
  have hx : (61 :: v).getD 0 0 = 61 := rfl
  have hx1 : (61 :: v).getD (0 + 1) 0 ≠ 61 := hstop
  have hws : runLen isWhitespace (61 :: v) 0 = 0 :=
    runLen_of_not_cond isWhitespace (61 :: v) 0 (show isWhitespace 61 = false by decide)
  have hn : (cursorAt (61 :: v) 0).NextToken
      = some ({ Typ := token.ASSIGN, Literal := [61] }, cursorAt (61 :: v) [61].length) := by
    rw [NextToken_cursorAt, hws, switchOnCh_assign (61 :: v) 0 hx, if_neg hx1]
    rfl
  have hne : token.ASSIGN ≠ token.EOF := by decide
  rw [tokensUntilEOF_succ _ _ _ budget hn, if_neg hne,
    tokensUntilEOF_rest (61 :: v) [61] v rfl]

/-- The token sequence of the empty input is the `EOF` token. -/
theorem tokens_end (budget : Nat) :
    Lexer.tokensUntilEOF (budget + 1) (cursorAt [] 0)
      = some [{ Typ := token.EOF, Literal := [] }] := by
  have hn := NextToken_at_end [] 0 (Nat.zero_le _)
  rw [tokensUntilEOF_succ _ _ _ budget hn, if_pos rfl]

theorem isLetter_not_digit (c : Nat) (h : isLetter c = true) : isDigit c = false := by
  cases hd : isDigit c with
  | false => rfl
  | true => rw [isDigit_not_letter c hd] at h; cases h

theorem getD_zero_mem (u : GoString) (hne : u ≠ []) : u.getD 0 0 ∈ u := by
  obtain ⟨x, u1, hu⟩ := List.exists_cons_of_ne_nil hne
  rw [hu]
  exact List.mem_cons_self x u1

/-- C14: for all non-empty strings `l1` and `l2` of letters and underscores and
every non-empty string `d` of decimal digits, the token sequence of
`l1 ++ d ++ l2` is exactly the four tokens `(LookupIdent(l1), l1)`, `(INT, d)`,
`(LookupIdent(l2), l2)`, `EOF`: the digits are not absorbed into an identifier
and the letters after them are a token of their own. -/
theorem letters_digits_letters (l1 d l2 : GoString)
    (h1 : l1 ≠ []) (hd : d ≠ []) (h2 : l2 ≠ [])
    (hl1 : ∀ x ∈ l1, isLetter x = true)
    (hdd : ∀ x ∈ d, isDigit x = true)
    (hl2 : ∀ x ∈ l2, isLetter x = true) :
    tokenize (l1 ++ d ++ l2)
      = some [{ Typ := token.LookupIdent l1, Literal := l1 },
              { Typ := token.INT, Literal := d },
              { Typ := token.LookupIdent l2, Literal := l2 },
              { Typ := token.EOF, Literal := [] }] := by
  have hlen1 : 0 < l1.length := List.length_pos.mpr h1
  have hlend : 0 < d.length := List.length_pos.mpr hd
  have hlen2 : 0 < l2.length := List.length_pos.mpr h2
  have hstop1 : isLetter ((d ++ (l2 ++ [])).getD 0 0) = false := by
    obtain ⟨x, d1, hx⟩ := List.exists_cons_of_ne_nil hd
    have e : (d ++ (l2 ++ [])).getD 0 0 = x := by rw [hx]; rfl
    rw [e]
    exact isDigit_not_letter x (hdd x (by rw [hx]; exact List.mem_cons_self x d1))
  have hstop2 : isDigit ((l2 ++ []).getD 0 0) = false := by
    rw [List.append_nil]
    exact isLetter_not_digit _ (hl2 _ (getD_zero_mem l2 h2))
  have hrun : Lexer.tokensUntilEOF 4 (cursorAt (l1 ++ (d ++ (l2 ++ []))) 0)
      = some [{ Typ := token.LookupIdent l1, Literal := l1 },
              { Typ := token.INT, Literal := d },
              { Typ := token.LookupIdent l2, Literal := l2 },
              { Typ := token.EOF, Literal := [] }] := by
    rw [tokens_letters l1 _ 3 h1 hl1 hstop1, tokens_digits d _ 2 hd hdd hstop2,
      tokens_letters l2 [] 1 h2 hl2 isLetter_zero, tokens_end 0]
    rfl
  have hmono := tokensUntilEOF_mono _ _ _ hrun ((l1 ++ d ++ l2).length + 1 - 4)
  have hlen : 4 + ((l1 ++ d ++ l2).length + 1 - 4) = (l1 ++ d ++ l2).length + 1 := by
    simp only [List.length_append]
    omega
  rw [hlen] at hmono
  have hin : l1 ++ (d ++ (l2 ++ [])) = l1 ++ d ++ l2 := by simp
  rw [hin] at hmono
  simp only [tokenize, New_eq, hmono]

/-- Witness of C14 and the example of the claim: "let123abc" gives `LET "let"`,
`INT "123"`, `IDENT "abc"`, `EOF`. -/
theorem letters_digits_letters_witness :
    (bytes "let" ≠ [] ∧ bytes "123" ≠ [] ∧ bytes "abc" ≠ []
      ∧ (∀ x ∈ bytes "let", isLetter x = true)
      ∧ (∀ x ∈ bytes "123", isDigit x = true)
      ∧ (∀ x ∈ bytes "abc", isLetter x = true))
    ∧ tokenize (bytes "let" ++ bytes "123" ++ bytes "abc")
        = some [{ Typ := token.LookupIdent (bytes "let"), Literal := bytes "let" },
                { Typ := token.INT, Literal := bytes "123" },
                { Typ := token.LookupIdent (bytes "abc"), Literal := bytes "abc" },
                { Typ := token.EOF, Literal := [] }]
    ∧ tokenize (bytes "let123abc")
        = some [{ Typ := token.LET, Literal := bytes "let" },
                { Typ := token.INT, Literal := bytes "123" },
                { Typ := token.IDENT, Literal := bytes "abc" },
                { Typ := token.EOF, Literal := [] }] :=
  ⟨⟨by decide, by decide, by decide, by decide, by decide, by decide⟩,
    letters_digits_letters (bytes "let") (bytes "123") (bytes "abc") (by decide) (by decide)
      (by decide) (by decide) (by decide) (by decide),
    by decide⟩

/-- C15: for every non-empty string `n` of letters and underscores that is not
"let" or "fn" and every non-empty string `d` of decimal digits, the token
sequence of `"let " ++ n ++ " = " ++ d ++ ";"` is exactly `(LET, "let")`,
`(IDENT, n)`, `(ASSIGN, "=")`, `(INT, d)`, `(SEMICOLON, ";")`, `(EOF, "")`. -/
theorem let_statement_tokens (n d : GoString)
    (hn : n ≠ []) (hd : d ≠ [])
    (hln : ∀ x ∈ n, isLetter x = true)
    (hdd : ∀ x ∈ d, isDigit x = true)
    (hkw : n ≠ bytes "let" ∧ n ≠ bytes "fn") :
    tokenize (bytes "let " ++ n ++ bytes " = " ++ d ++ bytes ";")
      = some [{ Typ := token.LET, Literal := bytes "let" },
              { Typ := token.IDENT, Literal := n },
              { Typ := token.ASSIGN, Literal := bytes "=" },
              { Typ := token.INT, Literal := d },
              { Typ := token.SEMICOLON, Literal := bytes ";" },
              { Typ := token.EOF, Literal := [] }] := by
  have hident : token.LookupIdent n = token.IDENT := by
    rw [LookupIdent_eq, if_neg hkw.2, if_neg hkw.1]
  have hrun : Lexer.tokensUntilEOF 6
      (cursorAt (bytes "let" ++ (32 :: (n ++ (32 :: 61 :: 32 :: (d ++ (59 :: [])))))) 0)
      = some [{ Typ := token.LET, Literal := bytes "let" },
              { Typ := token.IDENT, Literal := n },
              { Typ := token.ASSIGN, Literal := bytes "=" },
              { Typ := token.INT, Literal := d },
              { Typ := token.SEMICOLON, Literal := bytes ";" },
              { Typ := token.EOF, Literal := [] }] := by
    rw [tokens_letters (bytes "let") (32 :: (n ++ (32 :: 61 :: 32 :: (d ++ (59 :: []))))) 5
        (by decide) (by decide) (show isLetter 32 = false by decide),
      tokens_space _ 5,
      tokens_letters n (32 :: 61 :: 32 :: (d ++ (59 :: []))) 4 hn hln
        (show isLetter 32 = false by decide),
      tokens_space _ 4,
      tokens_assign (32 :: (d ++ (59 :: []))) 3 (show (32 : Nat) ≠ 61 by decide),
      tokens_space _ 3,
      tokens_digits d (59 :: []) 2 hd hdd (show isDigit 59 = false by decide),
      tokens_single 59 token.SEMICOLON [] 1 (by decide),
      tokens_end 0, hident]
    rfl
  have hin : bytes "let" ++ (32 :: (n ++ (32 :: 61 :: 32 :: (d ++ (59 :: [])))))
      = bytes "let " ++ n ++ bytes " = " ++ d ++ bytes ";" := by
    have e1 : bytes "let " = bytes "let" ++ [32] := by decide
    have e2 : bytes " = " = [32, 61, 32] := by decide
    have e3 : bytes ";" = [59] := by decide
    rw [e1, e2, e3]
    simp
  rw [hin] at hrun
  have hmono := tokensUntilEOF_mono _ _ _ hrun
    ((bytes "let " ++ n ++ bytes " = " ++ d ++ bytes ";").length + 1 - 6)
  have hlen : 6 + ((bytes "let " ++ n ++ bytes " = " ++ d ++ bytes ";").length + 1 - 6)
      = (bytes "let " ++ n ++ bytes " = " ++ d ++ bytes ";").length + 1 := by
    have e1 : (bytes "let ").length = 4 := by decide
    have e2 : (bytes " = ").length = 3 := by decide
    have e3 : (bytes ";").length = 1 := by decide
    simp only [List.length_append, e1, e2, e3]
    omega
  rw [hlen] at hmono
  simp only [tokenize, New_eq, hmono]

/-- Witness of C15 and the example of the claim: "let five = 5;". -/
theorem let_statement_tokens_witness :
    (bytes "five" ≠ [] ∧ bytes "5" ≠ []
      ∧ (∀ x ∈ bytes "five", isLetter x = true)
      ∧ (∀ x ∈ bytes "5", isDigit x = true)
      ∧ bytes "five" ≠ bytes "let" ∧ bytes "five" ≠ bytes "fn")
    ∧ tokenize (bytes "let " ++ bytes "five" ++ bytes " = " ++ bytes "5" ++ bytes ";")
        = some [{ Typ := token.LET, Literal := bytes "let" },
                { Typ := token.IDENT, Literal := bytes "five" },
                { Typ := token.ASSIGN, Literal := bytes "=" },
                { Typ := token.INT, Literal := bytes "5" },
                { Typ := token.SEMICOLON, Literal := bytes ";" },
                { Typ := token.EOF, Literal := [] }]
    ∧ bytes "let " ++ bytes "five" ++ bytes " = " ++ bytes "5" ++ bytes ";"
        = bytes "let five = 5;" :=
  ⟨⟨by decide, by decide, by decide, by decide, by decide, by decide⟩,
    let_statement_tokens (bytes "five") (bytes "5") (by decide) (by decide) (by decide)
      (by decide) ⟨by decide, by decide⟩,
    by decide⟩

/-- C16, as the claim states it, fails on the input "a" after one call: the
cursor is at the end of the input, `NextToken` returns `EOF` with the empty
text, but `position` goes from `1` to `2` and `readPosition` from `2` to `3`:
`case 0` is followed by `lexer.readChar()` like every arm that does not return
early. Only `ch` is the same after the call. -/
theorem NextToken_at_eof_counterexample :
    stateAfter (bytes "a") 1
        = some { input := bytes "a", position := 1, readPosition := 2, ch := 0 }
    ∧ (bytes "a").length
        ≤ ({ input := bytes "a", position := 1, readPosition := 2, ch := 0 } : Lexer).position
    ∧ Lexer.NextToken { input := bytes "a", position := 1, readPosition := 2, ch := 0 }
        = some ({ Typ := token.EOF, Literal := [] },
            { input := bytes "a", position := 2, readPosition := 3, ch := 0 })
    ∧ ¬ ∃ l2, Lexer.NextToken { input := bytes "a", position := 1, readPosition := 2, ch := 0 }
          = some ({ Typ := token.EOF, Literal := [] }, l2)
        ∧ l2.position = 1 ∧ l2.readPosition = 2 ∧ l2.ch = 0 := by
  refine ⟨by decide, by decide, by decide, ?_⟩
  rintro ⟨l2, h, hp, _, _⟩
  have e : Lexer.NextToken { input := bytes "a", position := 1, readPosition := 2, ch := 0 }
      = some ({ Typ := token.EOF, Literal := [] },
          { input := bytes "a", position := 2, readPosition := 3, ch := 0 }) := by decide
  rw [e] at h
  have h2 := congrArg Prod.snd (Option.some.inj h)
  simp only at h2
  rw [← h2] at hp
  revert hp
  decide

/-- C16, amended: in every state reached from `New(input)` by calls of
`NextToken` whose cursor is at or past the end of the input, `ch` is the
sentinel `0`, `NextToken` returns the `EOF` token with the empty text, and after
the call the input and `ch` are the same as before it, while `position` and
`readPosition` are each one greater than before; the cursor is again at or past
the end of the input. -/
theorem NextToken_at_eof (input : GoString) (n : Nat) (l : Lexer)
    (hreach : stateAfter input n = some l)
    (hend : input.length ≤ l.position) :
    ∃ l2, l.NextToken = some ({ Typ := token.EOF, Literal := [] }, l2)
      ∧ l.ch = 0
      ∧ l2.ch = l.ch
      ∧ l2.input = l.input
      ∧ l2.position = l.position + 1
      ∧ l2.readPosition = l.readPosition + 1
      ∧ input.length ≤ l2.position := by
  obtain ⟨pos, hs, _⟩ := stateAfter_cursorAt input n
  rw [hs] at hreach
  cases hreach
  rw [cursorAt_position] at hend
  have hrun : runLen isWhitespace input pos = 0 := by
    have := runLen_le isWhitespace input pos
    omega
  have hch : ∀ q, input.length ≤ q → (cursorAt input q).ch = 0 := by
    intro q hq
    rw [cursorAt_ch]
    exact (getD_eq_zero_iff input q).mpr (Or.inl hq)
  have hnext := NextToken_at_end input pos (by omega)
  rw [hrun] at hnext
  refine ⟨cursorAt input (pos + 1), hnext, hch pos hend, ?_, rfl, rfl, rfl, ?_⟩
  · rw [hch pos hend, hch (pos + 1) (by omega)]
  · rw [cursorAt_position]
    omega

/-- Witness of C16 (amended) on the empty input, right after `New`. -/
theorem NextToken_at_eof_witness :
    (stateAfter [] 0 = some { input := [], position := 0, readPosition := 1, ch := 0 }
      ∧ ([] : GoString).length
          ≤ ({ input := [], position := 0, readPosition := 1, ch := 0 } : Lexer).position)
    ∧ (∃ l2, Lexer.NextToken { input := [], position := 0, readPosition := 1, ch := 0 }
          = some ({ Typ := token.EOF, Literal := [] }, l2)
        ∧ l2.position = 1 ∧ l2.readPosition = 2 ∧ l2.ch = 0) := by
  refine ⟨⟨by decide, by decide⟩, ?_⟩
  obtain ⟨l2, h, hch, hch2, _, hp, hrp, _⟩ :=
    NextToken_at_eof [] 0 { input := [], position := 0, readPosition := 1, ch := 0 }
      (by decide) (by decide)
  exact ⟨l2, h, hp, hrp, by rw [hch2, hch]⟩

/-- C17: the state returned by `New(input)` and the state after every later call
of `NextToken` satisfy `readPosition == position + 1`, `ch` is the byte
`input[position]` when `position < len(input)` and the sentinel `0` when
`position >= len(input)`, and the input is the one given to `New`; `New(input)`
itself returns with `position` `0`. -/
theorem lexer_invariant (input : GoString) (n : Nat) (l : Lexer)
    (hreach : stateAfter input n = some l) :
    l.input = input
      ∧ l.readPosition = l.position + 1
      ∧ (l.position < input.length → input[l.position]? = some l.ch)
      ∧ (input.length ≤ l.position → l.ch = 0)
      ∧ ∃ l0, New input = some l0 ∧ stateAfter input 0 = some l0 ∧ l0.position = 0
          ∧ l0.readPosition = 1 ∧ l0.ch = input.getD 0 0 := by
  obtain ⟨pos, hs, _⟩ := stateAfter_cursorAt input n
  rw [hs] at hreach
  cases hreach
  refine ⟨rfl, rfl, ?_, ?_, cursorAt input 0, New_eq input, New_eq input, rfl, rfl, rfl⟩
  · intro hlt
    rw [cursorAt_position] at hlt
    rw [cursorAt_position, cursorAt_ch, List.getD_eq_getElem?_getD, List.getElem?_eq_getElem hlt]
    rfl
  · intro hge
    rw [cursorAt_position] at hge
    rw [cursorAt_ch]
    exact (getD_eq_zero_iff input pos).mpr (Or.inl hge)

/-- Witness of C17 on the input "a b" after two calls (the cursor is past the
end) and right after `New` (the cursor is on the first byte). -/
theorem lexer_invariant_witness :
    stateAfter (bytes "a b") 2
        = some { input := bytes "a b", position := 3, readPosition := 4, ch := 0 }
    ∧ (({ input := bytes "a b", position := 3, readPosition := 4, ch := 0 } : Lexer).input
          = bytes "a b"
      ∧ ({ input := bytes "a b", position := 3, readPosition := 4, ch := 0 } : Lexer).readPosition
          = ({ input := bytes "a b", position := 3, readPosition := 4, ch := 0 } : Lexer).position
            + 1)
    ∧ New (bytes "a b")
        = some { input := bytes "a b", position := 0, readPosition := 1, ch := 97 } := by
  refine ⟨by decide, ?_, by decide⟩
  obtain ⟨h1, h2, _⟩ :=
    lexer_invariant (bytes "a b") 2
      { input := bytes "a b", position := 3, readPosition := 4, ch := 0 } (by decide)
  exact ⟨h1, h2⟩

theorem peekChar_eq (l : Lexer) : l.peekChar = some (l.input.getD l.readPosition 0) := by
  unfold Lexer.peekChar byteAt
  by_cases h : l.readPosition < l.input.length
  · have h1 : ¬ (l.readPosition ≥ l.input.length) := by omega
    simp [h1, List.getD_eq_getElem?_getD, List.getElem?_eq_getElem h]
  · have h1 : l.readPosition ≥ l.input.length := by omega
    simp [h1, List.getD_eq_getElem?_getD, List.getElem?_eq_none h1]

/-- C18: in every scanner state `l`, `peekChar` returns the input byte at index
`readPosition`, or `0` when `readPosition >= len(input)`. Its body assigns no
field: in the embedding it is a function of the state to the byte, so the state
that `NextToken` goes on with after the peek is the state before it. When the
byte peeked is not `=`, the arm of `=` or `!` is `newToken(one, lexer.ch)`
followed by the one `readChar` on that state, and on a reached state the call
of `NextToken` returns the one-byte token and moves the cursor by exactly one. -/
theorem peekChar_pure (l : Lexer) :
    (l.readPosition < l.input.length → l.peekChar = l.input[l.readPosition]?)
      ∧ (l.input.length ≤ l.readPosition → l.peekChar = some 0)
      ∧ l.peekChar = some (l.input.getD l.readPosition 0)
      ∧ (∀ (two one : token.TokenType) (p : Nat), l.peekChar = some p → p ≠ 61 →
          l.twoCharArm two one = l.readCharAndReturn (newToken one l.ch)
          ∧ l.twoCharArm two one
              = (l.readChar).map (fun l2 => (newToken one l.ch, l2)))
      ∧ (∀ (input : GoString) (n : Nat) (l0 : Lexer),
          stateAfter input n = some l0 → l0.skipWhitespace = some l →
          l.ch = 61 ∨ l.ch = 33 → l.peekChar ≠ some 61 →
          ∃ tok l2, l0.NextToken = some (tok, l2) ∧ tok.Literal = [l.ch]
            ∧ l2.position = l.position + 1 ∧ l2.readPosition = l.readPosition + 1
            ∧ l2.input = l.input) := by
  have hpeek := peekChar_eq l
  refine ⟨?_, ?_, hpeek, ?_, ?_⟩
  · intro hlt
    rw [hpeek, List.getD_eq_getElem?_getD, List.getElem?_eq_getElem hlt]
    rfl
  · intro hge
    rw [hpeek, (getD_eq_zero_iff l.input l.readPosition).mpr (Or.inl hge)]
  · intro two one p hp hne
    have h1 : l.twoCharArm two one = l.readCharAndReturn (newToken one l.ch) := by
      unfold Lexer.twoCharArm
      rw [hp]
      simp only [hne, if_false]
    refine ⟨h1, ?_⟩
    rw [h1]
    unfold Lexer.readCharAndReturn
    cases l.readChar with
    | none => rfl
    | some l2 => rfl
  · intro input n l0 hreach hskip hch hne
    obtain ⟨pos, p, hl0, hl, hnext, _, _⟩ := reach_skip input n l0 l hreach hskip
    subst hl0 hl
    rw [hpeek, cursorAt_readPosition, cursorAt_input] at hne
    have hne2 : input.getD (p + 1) 0 ≠ 61 := fun e => hne (by rw [e])
    rw [cursorAt_ch] at hch
    rcases hch with hc | hc
    · refine ⟨{ Typ := token.ASSIGN, Literal := [61] }, cursorAt input (p + 1), ?_, ?_,
        rfl, rfl, rfl⟩
      · rw [hnext, switchOnCh_assign input p hc, if_neg hne2]
      · rw [cursorAt_ch, hc]
    · refine ⟨{ Typ := token.BANG, Literal := [33] }, cursorAt input (p + 1), ?_, ?_,
        rfl, rfl, rfl⟩
      · rw [hnext, switchOnCh_bang input p hc, if_neg hne2]
      · rw [cursorAt_ch, hc]

/-- Witness of C18 on the input "!x": the peek at `!` returns `x`, and the call
returns `BANG "!"` with the cursor on index `1`. -/
theorem peekChar_pure_witness :
    Lexer.peekChar { input := bytes "!x", position := 0, readPosition := 1, ch := 33 }
        = some 120
    ∧ (stateAfter (bytes "!x") 0
          = some { input := bytes "!x", position := 0, readPosition := 1, ch := 33 }
      ∧ Lexer.skipWhitespace { input := bytes "!x", position := 0, readPosition := 1, ch := 33 }
          = some { input := bytes "!x", position := 0, readPosition := 1, ch := 33 })
    ∧ (∃ tok l2, Lexer.NextToken { input := bytes "!x", position := 0, readPosition := 1, ch := 33 }
          = some (tok, l2) ∧ tok.Literal = bytes "!" ∧ l2.position = 1)
    ∧ tokenOfCall (bytes "!x") 1 = some { Typ := token.BANG, Literal := bytes "!" } := by
  refine ⟨by decide, ⟨by decide, by decide⟩, ?_, by decide⟩
  obtain ⟨tok, l2, h, hlit, hpos, _, _⟩ :=
    (peekChar_pure { input := bytes "!x", position := 0, readPosition := 1, ch := 33 }).2.2.2.2
      (bytes "!x") 0 { input := bytes "!x", position := 0, readPosition := 1, ch := 33 }
      (by decide) (by decide) (Or.inr rfl) (by decide)
  exact ⟨tok, l2, h, hlit, hpos⟩

theorem filter_run_nil (input : GoString) (pos : Nat) :
    ((input.drop pos).takeWhile isWhitespace).filter (fun b => !isWhitespace b) = [] := by
  rw [List.filter_eq_nil_iff]
  intro b hb
  have := List.mem_takeWhile_imp hb
  simp [this]

/-- A token that is not `EOF` uses up at least one byte that is not whitespace. -/
theorem NextToken_count_step (I : GoString) (pos pos1 : Nat) (tok : token.Token)
    (h : (cursorAt I pos).NextToken = some (tok, cursorAt I pos1))
    (hne : tok.Typ ≠ token.EOF) :
    ((I.drop pos1).filter (fun b => !isWhitespace b)).length + 1
      ≤ ((I.drop pos).filter (fun b => !isWhitespace b)).length := by
  obtain ⟨hnz, _⟩ := (NextToken_eof_of I pos pos1 tok h).2 hne
  have hws := run_stops isWhitespace isWhitespace_zero I _ pos (Nat.le_refl _)
  have hprog : pos + runLen isWhitespace I pos < pos1 := by
    obtain ⟨t, p1, hn, hlt⟩ := NextToken_progress I pos
    rw [hn] at h
    have e := cursorAt_inj I _ _ (congrArg Prod.snd (Option.some.inj h))
    omega
  have hsplit := run_split isWhitespace I pos
  generalize pos + runLen isWhitespace I pos = p at hnz hws hprog hsplit
  have hsub : List.Sublist ((I.drop pos1).filter (fun b => !isWhitespace b))
      ((I.drop (p + 1)).filter (fun b => !isWhitespace b)) :=
    (List.drop_sublist_drop_left I (by omega)).filter _
  have hlen := hsub.length_le
  rw [hsplit, List.filter_append, filter_run_nil, List.nil_append,
    drop_eq_cons_of_ne_zero I p hnz, List.filter_cons_of_pos (by rw [hws]; rfl)]
  simp only [List.length_cons]
  omega

/-- C19: for every input made only of bytes in the range `1..127`, the texts of
the tokens returned by `NextToken` before the first `EOF` token, concatenated in
order, are exactly the input with every space, tab, newline and carriage return
deleted. -/
theorem scanning_lossless (input : GoString)
    (hascii : ∀ b ∈ input, 1 ≤ b ∧ b ≤ 127) :
    ∃ toks, tokenize input = some (toks ++ [{ Typ := token.EOF, Literal := [] }])
      ∧ (∀ t ∈ toks, t.Typ ≠ token.EOF)
      ∧ (toks.map (fun t => t.Literal)).flatten = input.filter (fun b => !isWhitespace b)
      ∧ (∀ b, isWhitespace b = true ↔ b = 32 ∨ b = 9 ∨ b = 10 ∨ b = 13)
      ∧ ∀ i, i < toks.length → tokenOfCall input (i + 1) = toks[i]? := by
  have hbyte : ∀ p, input.getD p 0 ≠ 0 → input.getD p 0 < 128 := by
    intro p hnz
    have hmem := List.getElem?_mem (getD_pos_of_ne_zero input p hnz)
    have := (hascii _ hmem).2
    omega
  obtain ⟨toks, hrun, hall, hP⟩ :=
    tokensUntilEOF_induct input
      (fun pos toks => (toks.map (fun t => t.Literal)).flatten
        = (input.drop pos).filter (fun b => !isWhitespace b))
      (fun pos hz => by
        have hend : input.length ≤ pos + runLen isWhitespace input pos := by
          rcases (getD_eq_zero_iff input _).mp hz with h | h
          · exact h
          · have := (hascii 0 (List.getElem?_mem h)).1
            omega
        have hallws := (run_to_end_iff input pos).mp hend
        simp only [List.map_nil, List.flatten_nil]
        symm
        rw [List.filter_eq_nil_iff]
        intro b hb
        simp [hallws b hb])
      (fun pos pos1 tok toks hn hne ih => by
        have hnz := ((NextToken_eof_of input pos pos1 tok hn).2 hne).1
        have hcons := NextToken_literal_consumed input pos pos1 tok hn hne (hbyte _ hnz)
        have hnows := NextToken_literal_not_whitespace input pos tok _ hn
        have hlit : tok.Literal.filter (fun b => !isWhitespace b) = tok.Literal := by
          rw [List.filter_eq_self]
          intro b hb
          simp [hnows b hb]
        simp only [List.map_cons, List.flatten_cons, ih]
        rw [run_split isWhitespace input pos, List.filter_append, filter_run_nil,
          List.nil_append, hcons, List.filter_append, hlit])
      (input.length + 1) 0 (by omega)
  have hcalls := tokensUntilEOF_calls input (input.length + 1) 0 0 _ (New_eq input) hrun
  simp only [List.drop_zero] at hP
  refine ⟨toks, ?_, hall, hP, ?_, ?_⟩
  · simp only [tokenize, New_eq, hrun]
  · intro b
    simp only [isWhitespace, Bool.or_eq_true, beq_iff_eq]
    tauto
  · intro i hi
    have := hcalls i (by simp; omega)
    rw [List.getElem?_append_left hi] at this
    simpa using this

/-- Witness of C19 on the input " x1 == y ;": the texts of the five tokens before
`EOF` make up "x1==y;". -/
theorem scanning_lossless_witness :
    (∀ b ∈ bytes " x1 == y ;", 1 ≤ b ∧ b ≤ 127)
    ∧ tokenize (bytes " x1 == y ;")
        = some [{ Typ := token.IDENT, Literal := bytes "x" },
                { Typ := token.INT, Literal := bytes "1" },
                { Typ := token.EQ, Literal := bytes "==" },
                { Typ := token.IDENT, Literal := bytes "y" },
                { Typ := token.SEMICOLON, Literal := bytes ";" },
                { Typ := token.EOF, Literal := [] }]
    ∧ (bytes " x1 == y ;").filter (fun b => !isWhitespace b) = bytes "x1==y;"
    ∧ ∃ toks, tokenize (bytes " x1 == y ;")
          = some (toks ++ [{ Typ := token.EOF, Literal := [] }])
        ∧ (toks.map (fun t => t.Literal)).flatten = bytes "x1==y;" := by
  refine ⟨by decide, by decide, by decide, ?_⟩
  obtain ⟨toks, h, _, hcat, _, _⟩ := scanning_lossless (bytes " x1 == y ;") (by decide)
  refine ⟨toks, h, ?_⟩
  rw [hcat]
  decide

/-- C20: for every input string, the tokens returned by `NextToken` before the
first `EOF` token are at most as many as the bytes of the input that are not
whitespace, so the first `EOF` token is returned by call number
`len(input) + 1` at the latest (calls numbered from `1`). -/
theorem token_count_bound (input : GoString) :
    ∃ toks, tokenize input = some (toks ++ [{ Typ := token.EOF, Literal := [] }])
      ∧ (∀ t ∈ toks, t.Typ ≠ token.EOF)
      ∧ toks.length ≤ (input.filter (fun b => !isWhitespace b)).length
      ∧ toks.length + 1 ≤ input.length + 1
      ∧ tokenOfCall input (toks.length + 1) = some { Typ := token.EOF, Literal := [] }
      ∧ ∀ i, i < toks.length → tokenOfCall input (i + 1) = toks[i]? := by
  obtain ⟨toks, hrun, hall, hP⟩ :=
    tokensUntilEOF_induct input
      (fun pos toks => toks.length ≤ ((input.drop pos).filter (fun b => !isWhitespace b)).length)
      (fun pos _ => Nat.zero_le _)
      (fun pos pos1 tok toks hn hne ih => by
        have := NextToken_count_step input pos pos1 tok hn hne
        simp only [List.length_cons]
        omega)
      (input.length + 1) 0 (by omega)
  have hcalls := tokensUntilEOF_calls input (input.length + 1) 0 0 _ (New_eq input) hrun
  simp only [List.drop_zero] at hP
  have hfl : (input.filter (fun b => !isWhitespace b)).length ≤ input.length :=
    List.length_filter_le _ _
  refine ⟨toks, ?_, hall, hP, by omega, ?_, ?_⟩
  · simp only [tokenize, New_eq, hrun]
  · have := hcalls toks.length (by simp)
    simpa using this
  · intro i hi
    have := hcalls i (by simp; omega)
    rw [List.getElem?_append_left hi] at this
    simpa using this

/-! ## The lexer on machine integers: agreement with the model, and the wrap-around -/

theorem two_pow_bits (bits : Nat) (hb : 1 ≤ bits) :
    (2 : Int) ^ bits = 2 * 2 ^ (bits - 1) := by
  obtain ⟨b, rfl⟩ : ∃ b, bits = b + 1 := ⟨bits - 1, by omega⟩
  rw [Nat.add_sub_cancel, pow_succ]
  ring

theorem two_pow_pos (n : Nat) : (0 : Int) < 2 ^ n := by positivity

/-- An `int` result inside the range is stored as it is. -/
theorem wrapInt_of_range (bits : Nat) (hb : 1 ≤ bits) (x : Int)
    (hlo : -(2 ^ (bits - 1)) ≤ x) (hhi : x < 2 ^ (bits - 1)) : wrapInt bits x = x := by
  unfold wrapInt
  rw [two_pow_bits bits hb]
  generalize (2 : Int) ^ (bits - 1) = M at hlo hhi
  rw [Int.emod_eq_of_lt (by omega) (by omega)]
  omega

/-- The `int` result one past the largest `int` is stored as the smallest `int`. -/
theorem wrapInt_overflow (bits : Nat) (hb : 1 ≤ bits) :
    wrapInt bits (2 ^ (bits - 1)) = -(2 ^ (bits - 1)) := by
  unfold wrapInt
  rw [two_pow_bits bits hb]
  have hpos := two_pow_pos (bits - 1)
  generalize (2 : Int) ^ (bits - 1) = M at hpos
  have e : M + M = 2 * M := by ring
  rw [e, Int.emod_self]
  omega

/-- Past the end of the input, with `ch` the sentinel, `NextToken` on machine
integers returns `EOF` and runs one `readChar`. -/
theorem intLexer_NextToken_at_end (bits : Nat) (l : IntLexer) (hch : l.ch = 0)
    (hrp : (l.input.length : Int) ≤ l.readPosition) :
    l.NextToken bits
      = some ({ Typ := token.EOF, Literal := [] },
          { l with ch := 0, position := l.readPosition,
                   readPosition := wrapInt bits (l.readPosition + 1) }) := by
  have hskip : l.skipWhitespace bits = some l := by
    unfold IntLexer.skipWhitespace IntLexer.loopBudget IntLexer.advanceWhile
    simp [hch, isWhitespace_zero]
  have hread : l.readChar bits
      = some { l with ch := 0, position := l.readPosition,
                      readPosition := wrapInt bits (l.readPosition + 1) } := by
    unfold IntLexer.readChar
    rw [if_pos hrp]
  unfold IntLexer.NextToken
  rw [hskip]
  unfold IntLexer.switchOnCh IntLexer.readCharAndReturn
  simp [hch, hread]

/-- With `ch` the sentinel and `readPosition` negative, `NextToken` on machine
integers does not return: `readChar` indexes the input at `readPosition`. -/
theorem intLexer_NextToken_negative (bits : Nat) (l : IntLexer) (hch : l.ch = 0)
    (hrp : l.readPosition < 0) : l.NextToken bits = none := by
  have hskip : l.skipWhitespace bits = some l := by
    unfold IntLexer.skipWhitespace IntLexer.loopBudget IntLexer.advanceWhile
    simp [hch, isWhitespace_zero]
  have hlen : (0 : Int) ≤ l.input.length := Int.ofNat_nonneg _
  have hread : l.readChar bits = none := by
    unfold IntLexer.readChar byteAtInt
    have h1 : ¬ (l.readPosition ≥ (l.input.length : Int)) := by omega
    have h2 : ¬ (0 ≤ l.readPosition ∧ l.readPosition < (l.input.length : Int)) := by omega
    simp [h1, h2]
  unfold IntLexer.NextToken
  rw [hskip]
  unfold IntLexer.switchOnCh IntLexer.readCharAndReturn
  simp [hch, hread]

/-- On the empty input, as long as the number `k` of calls made is below
`2^(bits-1)`, the state is past the end with `position = k`, and
`readPosition` is the stored value of `k + 1`. -/
theorem intLexer_stateAfter_empty (bits : Nat) (hb : 1 ≤ bits) :
    ∀ k : Nat, (k : Int) < 2 ^ (bits - 1) →
      IntLexer.stateAfter bits [] k
        = some { input := [], position := k, readPosition := wrapInt bits (k + 1), ch := 0 } := by
  intro k
  induction k with
  | zero =>
    intro _
    simp [IntLexer.stateAfter, IntLexer.New, IntLexer.readChar]
  | succ k ih =>
    intro hk
    have hk1 : (k : Int) + 1 < 2 ^ (bits - 1) := by push_cast at hk; exact hk
    have hpos := two_pow_pos (bits - 1)
    have hw : wrapInt bits (k + 1) = k + 1 :=
      wrapInt_of_range bits hb _ (by omega) hk1
    have hnext := intLexer_NextToken_at_end bits
      { input := [], position := k, readPosition := wrapInt bits (k + 1), ch := 0 } rfl
      (by rw [hw]; simp; omega)
    simp only [IntLexer.stateAfter, ih (by omega), hnext, hw]
    push_cast
    rfl

/-- On the empty input every call numbered below `2^(bits-1)` returns `EOF`, and
call number `2^(bits-1)`, the first one made after `readPosition` has wrapped
around, does not return. -/
theorem intLexer_calls_on_empty (bits : Nat) (hb : 1 ≤ bits) (m : Nat)
    (hm : (m : Int) + 1 = 2 ^ (bits - 1)) :
    (∀ k : Nat, 1 ≤ k → k ≤ m →
        IntLexer.tokenOfCall bits [] k = some { Typ := token.EOF, Literal := [] })
      ∧ IntLexer.stateAfter bits [] m
          = some { input := [], position := m, readPosition := -(2 ^ (bits - 1)), ch := 0 }
      ∧ IntLexer.tokenOfCall bits [] (m + 1) = none := by
  have hpos := two_pow_pos (bits - 1)
  have hstate : IntLexer.stateAfter bits [] m
      = some { input := [], position := m, readPosition := -(2 ^ (bits - 1)), ch := 0 } := by
    rw [intLexer_stateAfter_empty bits hb m (by omega), hm, wrapInt_overflow bits hb]
  refine ⟨?_, hstate, ?_⟩
  · intro k hk1 hkm
    obtain ⟨j, rfl⟩ : ∃ j, k = j + 1 := ⟨k - 1, by omega⟩
    have hj : (j : Int) + 1 < 2 ^ (bits - 1) := by omega
    have hw : wrapInt bits (j + 1) = j + 1 := wrapInt_of_range bits hb _ (by omega) hj
    simp only [IntLexer.tokenOfCall, intLexer_stateAfter_empty bits hb j (by omega)]
    rw [intLexer_NextToken_at_end bits _ rfl (by rw [hw]; simp; omega)]
  · simp only [IntLexer.tokenOfCall, hstate]
    rw [intLexer_NextToken_negative bits _ rfl (by simp)]

theorem byteAtInt_natCast (s : GoString) (i : Nat) (h : i < s.length) :
    byteAtInt s (i : Int) = byteAt s i := by
  unfold byteAtInt byteAt
  have h1 : (0 : Int) ≤ (i : Int) ∧ (i : Int) < (s.length : Int) := ⟨by omega, by omega⟩
  rw [if_pos h1, Int.toNat_ofNat]

theorem sliceInt_natCast (s : GoString) (lo hi : Nat) :
    sliceInt s (lo : Int) (hi : Int) = slice s lo hi := by
  unfold sliceInt slice
  by_cases h : lo ≤ hi ∧ hi ≤ s.length
  · have h1 : (0 : Int) ≤ (lo : Int) ∧ (lo : Int) ≤ (hi : Int) ∧ (hi : Int) ≤ (s.length : Int) :=
      ⟨by omega, by omega, by omega⟩
    rw [if_pos h, if_pos h1, Int.toNat_ofNat, Int.toNat_ofNat]
  · have h1 : ¬ ((0 : Int) ≤ (lo : Int) ∧ (lo : Int) ≤ (hi : Int)
        ∧ (hi : Int) ≤ (s.length : Int)) := by
      intro hc
      exact h ⟨by omega, by omega⟩
    rw [if_neg h, if_neg h1]

/-- While `readPosition + 1` is in the range of `int`, `readChar` on machine
integers does what `readChar` of the model does. -/
theorem readChar_toInt (bits : Nat) (hb : 1 ≤ bits) (l : Lexer)
    (h : (l.readPosition : Int) + 1 < 2 ^ (bits - 1)) :
    l.toInt.readChar bits = (l.readChar).map Lexer.toInt := by
  have hpos := two_pow_pos (bits - 1)
  have hw : wrapInt bits ((l.readPosition : Int) + 1) = ((l.readPosition + 1 : Nat) : Int) := by
    rw [wrapInt_of_range bits hb _ (by omega) h]
    push_cast
    rfl
  unfold IntLexer.readChar Lexer.readChar Lexer.toInt
  simp only [hw]
  by_cases hge : l.readPosition ≥ l.input.length
  · have hge1 : (l.readPosition : Int) ≥ (l.input.length : Int) := by omega
    rw [if_pos hge, if_pos hge1]
    rfl
  · have hge1 : ¬ ((l.readPosition : Int) ≥ (l.input.length : Int)) := by omega
    rw [if_neg hge, if_neg hge1, byteAtInt_natCast l.input l.readPosition (by omega)]
    cases byteAt l.input l.readPosition with
    | none => rfl
    | some c => rfl

theorem peekChar_toInt (l : Lexer) : l.toInt.peekChar = l.peekChar := by
  unfold IntLexer.peekChar Lexer.peekChar Lexer.toInt
  simp only
  by_cases hge : l.readPosition ≥ l.input.length
  · have hge1 : (l.readPosition : Int) ≥ (l.input.length : Int) := by omega
    rw [if_pos hge, if_pos hge1]
  · have hge1 : ¬ ((l.readPosition : Int) ≥ (l.input.length : Int)) := by omega
    rw [if_neg hge, if_neg hge1, byteAtInt_natCast l.input l.readPosition (by omega)]

theorem readChar_readPosition (l l1 : Lexer) (h : l.readChar = some l1) :
    l1.readPosition = l.readPosition + 1 ∧ l1.input = l.input := by
  unfold Lexer.readChar at h
  split_ifs at h
  · cases h
    exact ⟨rfl, rfl⟩
  · cases hb : byteAt l.input l.readPosition with
    | none => rw [hb] at h; cases h
    | some c =>
      rw [hb] at h
      cases h
      exact ⟨rfl, rfl⟩

/-- While `readPosition` plus the budget is in the range of `int`, a loop on
machine integers does what the loop of the model does. -/
theorem advanceWhile_toInt (bits : Nat) (hb : 1 ≤ bits) (cond : Nat → Bool) :
    ∀ (budget : Nat) (l : Lexer), (l.readPosition : Int) + budget < 2 ^ (bits - 1) →
      IntLexer.advanceWhile bits cond budget l.toInt
        = (Lexer.advanceWhile cond budget l).map Lexer.toInt := by
  intro budget
  induction budget with
  | zero => intro l _; rfl
  | succ b ih =>
    intro l h
    push_cast at h
    unfold IntLexer.advanceWhile Lexer.advanceWhile
    have hch : l.toInt.ch = l.ch := rfl
    rw [hch]
    by_cases hc : cond l.ch = true
    · rw [if_pos hc, if_pos hc, readChar_toInt bits hb l (by omega)]
      cases hr : l.readChar with
      | none => rfl
      | some l1 =>
        obtain ⟨hrp, _⟩ := readChar_readPosition l l1 hr
        simp only [Option.map_some']
        exact ih l1 (by rw [hrp]; push_cast; omega)
    · rw [if_neg hc, if_neg hc]
      rfl

theorem loopBudget_toInt (l : Lexer) : l.toInt.loopBudget = l.loopBudget := by
  unfold IntLexer.loopBudget Lexer.loopBudget Lexer.toInt
  simp only
  omega

theorem skipWhitespace_toInt (bits : Nat) (hb : 1 ≤ bits) (l : Lexer)
    (h : (l.readPosition : Int) + l.loopBudget < 2 ^ (bits - 1)) :
    l.toInt.skipWhitespace bits = (l.skipWhitespace).map Lexer.toInt := by
  unfold IntLexer.skipWhitespace Lexer.skipWhitespace
  rw [loopBudget_toInt, advanceWhile_toInt bits hb isWhitespace _ l h]

theorem readIdentifier_toInt (bits : Nat) (hb : 1 ≤ bits) (l : Lexer)
    (h : (l.readPosition : Int) + l.loopBudget < 2 ^ (bits - 1)) :
    l.toInt.readIdentifier bits
      = (l.readIdentifier).map (fun r => (r.1, r.2.toInt)) := by
  unfold IntLexer.readIdentifier Lexer.readIdentifier
  simp only
  rw [loopBudget_toInt, advanceWhile_toInt bits hb isLetter _ l h]
  cases Lexer.advanceWhile isLetter l.loopBudget l with
  | none => rfl
  | some l1 =>
    simp only [Option.map_some']
    have e : sliceInt l1.toInt.input l.toInt.position l1.toInt.position
        = slice l1.input l.position l1.position := sliceInt_natCast _ _ _
    rw [e]
    cases slice l1.input l.position l1.position with
    | none => rfl
    | some s => rfl

theorem readNumber_toInt (bits : Nat) (hb : 1 ≤ bits) (l : Lexer)
    (h : (l.readPosition : Int) + l.loopBudget < 2 ^ (bits - 1)) :
    l.toInt.readNumber bits
      = (l.readNumber).map (fun r => (r.1, r.2.toInt)) := by
  unfold IntLexer.readNumber Lexer.readNumber
  simp only
  rw [loopBudget_toInt, advanceWhile_toInt bits hb isDigit _ l h]
  cases Lexer.advanceWhile isDigit l.loopBudget l with
  | none => rfl
  | some l1 =>
    simp only [Option.map_some']
    have e : sliceInt l1.toInt.input l.toInt.position l1.toInt.position
        = slice l1.input l.position l1.position := sliceInt_natCast _ _ _
    rw [e]
    cases slice l1.input l.position l1.position with
    | none => rfl
    | some s => rfl

theorem readCharAndReturn_toInt (bits : Nat) (hb : 1 ≤ bits) (tok : token.Token) (l : Lexer)
    (h : (l.readPosition : Int) + 1 < 2 ^ (bits - 1)) :
    l.toInt.readCharAndReturn bits tok
      = (l.readCharAndReturn tok).map (fun r => (r.1, r.2.toInt)) := by
  unfold IntLexer.readCharAndReturn Lexer.readCharAndReturn
  rw [readChar_toInt bits hb l h]
  cases l.readChar with
  | none => rfl
  | some l1 => rfl

theorem twoCharArm_toInt (bits : Nat) (hb : 1 ≤ bits) (two one : token.TokenType) (l : Lexer)
    (h : (l.readPosition : Int) + 2 < 2 ^ (bits - 1)) :
    l.toInt.twoCharArm bits two one
      = (l.twoCharArm two one).map (fun r => (r.1, r.2.toInt)) := by
  unfold IntLexer.twoCharArm Lexer.twoCharArm
  rw [peekChar_toInt]
  cases l.peekChar with
  | none => rfl
  | some p =>
    simp only
    by_cases hp : p = 61
    · rw [if_pos hp, if_pos hp, readChar_toInt bits hb l (by omega)]
      cases hr : l.readChar with
      | none => rfl
      | some l1 =>
        obtain ⟨hrp, _⟩ := readChar_readPosition l l1 hr
        simp only [Option.map_some']
        exact readCharAndReturn_toInt bits hb _ l1 (by rw [hrp]; push_cast; omega)
    · rw [if_neg hp, if_neg hp]
      exact readCharAndReturn_toInt bits hb _ l (by omega)

/-- While `readPosition` plus the loop budget is in the range of `int`, the
`switch` on machine integers does what the `switch` of the model does. -/
theorem switchOnCh_toInt (bits : Nat) (hb : 1 ≤ bits) (l : Lexer)
    (h : (l.readPosition : Int) + l.loopBudget < 2 ^ (bits - 1)) :
    l.toInt.switchOnCh bits = (l.switchOnCh).map (fun r => (r.1, r.2.toInt)) := by
  have hbud : 2 ≤ l.loopBudget := by unfold Lexer.loopBudget; omega
  have h1 : (l.readPosition : Int) + 1 < 2 ^ (bits - 1) := by omega
  have h2 : (l.readPosition : Int) + 2 < 2 ^ (bits - 1) := by omega
  have hch : l.toInt.ch = l.ch := rfl
  unfold IntLexer.switchOnCh Lexer.switchOnCh
  rw [hch]
  by_cases c0 : l.ch = 61
  · rw [if_pos c0, if_pos c0]
    exact twoCharArm_toInt bits hb _ _ l h2
  rw [if_neg c0, if_neg c0]
  by_cases c1 : l.ch = 59
  · rw [if_pos c1, if_pos c1]
    exact readCharAndReturn_toInt bits hb _ l h1
  rw [if_neg c1, if_neg c1]
  by_cases c2 : l.ch = 40
  · rw [if_pos c2, if_pos c2]
    exact readCharAndReturn_toInt bits hb _ l h1
  rw [if_neg c2, if_neg c2]
  by_cases c3 : l.ch = 41
  · rw [if_pos c3, if_pos c3]
    exact readCharAndReturn_toInt bits hb _ l h1
  rw [if_neg c3, if_neg c3]
  by_cases c4 : l.ch = 44
  · rw [if_pos c4, if_pos c4]
    exact readCharAndReturn_toInt bits hb _ l h1
  rw [if_neg c4, if_neg c4]
  by_cases c5 : l.ch = 43
  · rw [if_pos c5, if_pos c5]
    exact readCharAndReturn_toInt bits hb _ l h1
  rw [if_neg c5, if_neg c5]
  by_cases c6 : l.ch = 45
  · rw [if_pos c6, if_pos c6]
    exact readCharAndReturn_toInt bits hb _ l h1
  rw [if_neg c6, if_neg c6]
  by_cases c7 : l.ch = 33
  · rw [if_pos c7, if_pos c7]
    exact twoCharArm_toInt bits hb _ _ l h2
  rw [if_neg c7, if_neg c7]
  by_cases c8 : l.ch = 47
  · rw [if_pos c8, if_pos c8]
    exact readCharAndReturn_toInt bits hb _ l h1
  rw [if_neg c8, if_neg c8]
  by_cases c9 : l.ch = 42
  · rw [if_pos c9, if_pos c9]
    exact readCharAndReturn_toInt bits hb _ l h1
  rw [if_neg c9, if_neg c9]
  by_cases c10 : l.ch = 60
  · rw [if_pos c10, if_pos c10]
    exact readCharAndReturn_toInt bits hb _ l h1
  rw [if_neg c10, if_neg c10]
  by_cases c11 : l.ch = 62
  · rw [if_pos c11, if_pos c11]
    exact readCharAndReturn_toInt bits hb _ l h1
  rw [if_neg c11, if_neg c11]
  by_cases c12 : l.ch = 123
  · rw [if_pos c12, if_pos c12]
    exact readCharAndReturn_toInt bits hb _ l h1
  rw [if_neg c12, if_neg c12]
  by_cases c13 : l.ch = 125
  · rw [if_pos c13, if_pos c13]
    exact readCharAndReturn_toInt bits hb _ l h1
  rw [if_neg c13, if_neg c13]
  by_cases c14 : l.ch = 0
  · rw [if_pos c14, if_pos c14]
    exact readCharAndReturn_toInt bits hb _ l h1
  rw [if_neg c14, if_neg c14]
  by_cases c15 : isLetter l.ch = true
  · rw [if_pos c15, if_pos c15, readIdentifier_toInt bits hb l h]
    cases l.readIdentifier with
    | none => rfl
    | some r => rfl
  rw [if_neg c15, if_neg c15]
  by_cases c16 : isDigit l.ch = true
  · rw [if_pos c16, if_pos c16, readNumber_toInt bits hb l h]
    cases l.readNumber with
    | none => rfl
    | some r => rfl
  rw [if_neg c16, if_neg c16]
  exact readCharAndReturn_toInt bits hb _ l h1

/-- One call moves the cursor at most one index past the later of the cursor and
the end of the input. -/
theorem NextToken_upper (I : GoString) (pos pos1 : Nat) (tok : token.Token)
    (h : (cursorAt I pos).NextToken = some (tok, cursorAt I pos1)) :
    pos1 ≤ max pos I.length + 1 := by
  obtain ⟨p, hpdef⟩ : ∃ p, p = pos + runLen isWhitespace I pos := ⟨_, rfl⟩
  obtain ⟨_, hcases⟩ := NextToken_cases I pos p hpdef
  have hws := runLen_le isWhitespace I pos
  have hp : p ≤ max pos I.length := by omega
  have hl := runLen_le isLetter I p
  have hd := runLen_le isDigit I p
  have hnext : ∀ q, I.getD q 0 = 61 → q < I.length := by
    intro q hq
    by_contra hge
    rw [(getD_eq_zero_iff I q).mpr (Or.inl (by omega))] at hq
    cases hq
  rcases hcases with ⟨hc, hx, hI⟩ | ⟨hc, hx, hI⟩ | ⟨hc, hx, hI⟩ | ⟨hc, hx, hI⟩ | ⟨hc, hI⟩
    | ⟨kind, hk, hI⟩ | ⟨hl1, hI⟩ | ⟨hd1, hI⟩ | ⟨hcase, hl1, hd1, hI⟩ <;>
    (rw [hI] at h
     have hpos := cursorAt_inj I _ _ (congrArg Prod.snd (Option.some.inj h)))
  · have := hnext (p + 1) hx
    omega
  · omega
  · have := hnext (p + 1) hx
    omega
  all_goals omega

theorem stateAfter_upper (input : GoString) (n pos : Nat)
    (h : stateAfter input n = some (cursorAt input pos)) : pos ≤ input.length + n := by
  induction n generalizing pos with
  | zero =>
    rw [show stateAfter input 0 = New input from rfl, New_eq] at h
    have := cursorAt_inj input _ _ (Option.some.inj h)
    omega
  | succ n ih =>
    obtain ⟨p, hs, _⟩ := stateAfter_cursorAt input n
    obtain ⟨tok, pos1, hn, _⟩ := NextToken_progress input p
    have hs1 : stateAfter input (n + 1) = some (cursorAt input pos1) := by
      simp only [stateAfter, hs, hn]
    rw [hs1] at h
    have e := cursorAt_inj input _ _ (Option.some.inj h)
    have hu := NextToken_upper input p pos1 tok hn
    have := ih p hs
    omega

/-- While the cursor and the input length leave three indices of room in the
range of `int`, `NextToken` on machine integers does what `NextToken` of the
model does. -/
theorem NextToken_toInt (bits : Nat) (hb : 1 ≤ bits) (input : GoString) (pos : Nat)
    (h : (pos : Int) + 3 < 2 ^ (bits - 1)) (hlen : (input.length : Int) + 3 < 2 ^ (bits - 1)) :
    (cursorAt input pos).toInt.NextToken bits
      = ((cursorAt input pos).NextToken).map (fun r => (r.1, r.2.toInt)) := by
  have hws := runLen_le isWhitespace input pos
  unfold IntLexer.NextToken Lexer.NextToken
  rw [skipWhitespace_toInt bits hb _ (by
    unfold Lexer.loopBudget
    rw [cursorAt_readPosition, cursorAt_input]
    omega), skipWhitespace_cursorAt]
  simp only [Option.map_some']
  exact switchOnCh_toInt bits hb _ (by
    unfold Lexer.loopBudget
    rw [cursorAt_readPosition, cursorAt_input]
    omega)

/-- While the input length and the number of calls leave three indices of room
in the range of `int`, the states of the lexer on machine integers are the
states of the model. -/
theorem stateAfter_toInt (bits : Nat) (hb : 1 ≤ bits) (input : GoString) :
    ∀ n : Nat, (input.length : Int) + n + 3 < 2 ^ (bits - 1) →
      IntLexer.stateAfter bits input n = (stateAfter input n).map Lexer.toInt := by
  intro n
  induction n with
  | zero =>
    intro h
    have e : IntLexer.New bits input
        = (Lexer.toInt { input := input, position := 0, readPosition := 0, ch := 0 }).readChar
            bits := rfl
    show IntLexer.New bits input = (New input).map Lexer.toInt
    rw [e, readChar_toInt bits hb _ (by simp only [Nat.cast_zero]; omega)]
    rfl
  | succ n ih =>
    intro h
    push_cast at h
    obtain ⟨pos, hs, _⟩ := stateAfter_cursorAt input n
    have hup := stateAfter_upper input n pos hs
    have hi := ih (by omega)
    rw [hs] at hi
    simp only [Option.map_some'] at hi
    obtain ⟨tok, pos1, hn, _⟩ := NextToken_progress input pos
    have hsim := NextToken_toInt bits hb input pos (by omega) (by omega)
    rw [hn] at hsim
    simp only [Option.map_some'] at hsim
    simp only [IntLexer.stateAfter, stateAfter, hi, hs, hsim, hn, Option.map_some']

/-- On machine integers no call of `NextToken` fails while
`len(input) + n + 3 < 2^(bits-1)`, where `n` is the number of calls made
before: every index `input[readPosition]` and every slice
`input[start:position]` that is executed is in range, and call `n + 1` returns
the token that the model returns. -/
theorem intLexer_safe_in_range (bits : Nat) (hb : 1 ≤ bits) (input : GoString)
    (n : Nat) (h : (input.length : Int) + n + 3 < 2 ^ (bits - 1)) :
    ∃ l tok l2, stateAfter input n = some l
      ∧ l.NextToken = some (tok, l2)
      ∧ IntLexer.stateAfter bits input n = some l.toInt
      ∧ l.toInt.NextToken bits = some (tok, l2.toInt)
      ∧ IntLexer.tokenOfCall bits input (n + 1) = some tok
      ∧ tokenOfCall input (n + 1) = some tok := by
  obtain ⟨pos, hs, _⟩ := stateAfter_cursorAt input n
  have hup := stateAfter_upper input n pos hs
  obtain ⟨tok, pos1, hn, _⟩ := NextToken_progress input pos
  have hsi := stateAfter_toInt bits hb input n h
  rw [hs] at hsi
  simp only [Option.map_some'] at hsi
  have hsim := NextToken_toInt bits hb input pos (by omega) (by omega)
  rw [hn] at hsim
  simp only [Option.map_some'] at hsim
  refine ⟨cursorAt input pos, tok, cursorAt input pos1, hs, hn, hsi, hsim, ?_, ?_⟩
  · simp only [IntLexer.tokenOfCall, hsi, hsim]
  · rw [tokenOfCall_succ input n pos hs, hn]
    rfl

/-- C10 fails on the code: on the empty input, with the 64-bit `int` of a 64-bit
build, call number `2^63 - 1` of `NextToken` returns `EOF` and leaves
`readPosition` wrapped around to `-2^63`, and call number `2^63` does not
return: the test `readPosition >= len(input)` of `readChar` is false and
`input[readPosition]` is indexed with a negative index. With the 32-bit `int` of
a 32-bit build the same happens at call number `2^31`. -/
theorem NextToken_fails_after_wrap :
    (IntLexer.tokenOfCall 64 [] (2 ^ 63 - 1) = some { Typ := token.EOF, Literal := [] }
      ∧ IntLexer.stateAfter 64 [] (2 ^ 63 - 1)
          = some { input := [], position := 2 ^ 63 - 1, readPosition := -(2 ^ 63), ch := 0 }
      ∧ IntLexer.tokenOfCall 64 [] (2 ^ 63) = none)
    ∧ (IntLexer.tokenOfCall 32 [] (2 ^ 31 - 1) = some { Typ := token.EOF, Literal := [] }
      ∧ IntLexer.stateAfter 32 [] (2 ^ 31 - 1)
          = some { input := [], position := 2 ^ 31 - 1, readPosition := -(2 ^ 31), ch := 0 }
      ∧ IntLexer.tokenOfCall 32 [] (2 ^ 31) = none) := by
  obtain ⟨h1, h2, h3⟩ := intLexer_calls_on_empty 64 (by decide) (2 ^ 63 - 1) (by norm_num)
  obtain ⟨g1, g2, g3⟩ := intLexer_calls_on_empty 32 (by decide) (2 ^ 31 - 1) (by norm_num)
  refine ⟨⟨h1 _ (by norm_num) (Nat.le_refl _), ?_, ?_⟩, ⟨g1 _ (by norm_num) (Nat.le_refl _), ?_, ?_⟩⟩
  · rw [h2]
    norm_num
  · have e : (2 : Nat) ^ 63 = 2 ^ 63 - 1 + 1 := by norm_num
    rw [e]
    exact h3
  · rw [g2]
    norm_num
  · have e : (2 : Nat) ^ 31 = 2 ^ 31 - 1 + 1 := by norm_num
    rw [e]
    exact g3

end Monkey
